import Mathlib

/-!
Verification development for the flatland grid simulator.

Floating point values (f32) are modelled as rationals: every arithmetic
operation appearing in the source (addition, multiplication, division,
clamping, comparison) is translated to the corresponding exact operation
on the rationals.  Rust Vec indexing and Option unwrapping that can fail
are modelled with Option; loops are folds over the same iteration order
as the source.
-/

namespace Flatland

/-- Rust clamp on floats: x.clamp(lo, hi) = min (max x lo) hi. -/
def clampQ (x lo hi : ℚ) : ℚ := min (max x lo) hi

theorem clampQ_le (x lo hi : ℚ) : clampQ x lo hi ≤ hi := min_le_right _ _

theorem le_clampQ (x lo hi : ℚ) (h : lo ≤ hi) : lo ≤ clampQ x lo hi :=
  le_min (le_max_right _ _) h

/-- The f32 machine epsilon, an exact rational. -/
def f32Epsilon : ℚ := 1 / 2 ^ 23

/-! ## Grid (src/grid.rs)

A dense row-major 2D container.  Coordinates are signed; out-of-range
access yields none. -/

structure Grid (T : Type) where
  width : ℕ
  height : ℕ
  cells : List T
  deriving DecidableEq, Repr

/-- Bounds-checked read, mirroring Grid::get in src/grid.rs: signed
coordinates, row-major index x + width * y. -/
def Grid.get {T : Type} (g : Grid T) (x y : ℤ) : Option T :=
  if x < 0 ∨ y < 0 ∨ (g.width : ℤ) ≤ x ∨ (g.height : ℤ) ≤ y then none
  else g.cells.get? (x.toNat + g.width * y.toNat)

/-- Bounds-checked write, mirroring a get_mut followed by an assignment;
none models the panic of get_mut(..).unwrap() at an out-of-range
coordinate. -/
def Grid.set {T : Type} (g : Grid T) (x y : ℤ) (t : T) : Option (Grid T) :=
  if x < 0 ∨ y < 0 ∨ (g.width : ℤ) ≤ x ∨ (g.height : ℤ) ≤ y then none
  else if x.toNat + g.width * y.toNat < g.cells.length then
    some ⟨g.width, g.height, g.cells.set (x.toNat + g.width * y.toNat) t⟩
  else none

/-- Grid::new builds the cell vector with a flat_map over y of a map
over x (row-major). -/
def Grid.build {T : Type} (w h : ℕ) (f : ℕ → ℕ → T) : Grid T :=
  ⟨w, h, (List.range h).flatMap fun y => (List.range w).map fun x => f x y⟩

/-- The coordinate sequence of GridEnumerator (forward): row-major. -/
def Grid.coords {T : Type} (g : Grid T) : List (ℕ × ℕ) :=
  (List.range g.height).flatMap fun y => (List.range g.width).map fun x => (x, y)

/-- A grid is well formed when its cell vector has exactly width*height
entries; Grid::new establishes this. -/
def Grid.wf {T : Type} (g : Grid T) : Prop :=
  g.cells.length = g.width * g.height

theorem length_flatMap_rows {T : Type} (w h : ℕ) (f : ℕ → ℕ → T) :
    ((List.range h).flatMap fun y => (List.range w).map fun x => f x y).length = w * h := by
  rw [List.length_flatMap]
  induction h with
  | zero => simp
  | succ n ih =>
    rw [List.range_succ]
    simp only [List.map_append, List.sum_append, List.map_cons, List.map_nil,
      Function.comp, List.length_map, List.length_range, List.sum_cons, List.sum_nil]
    simp only [List.map_append, List.sum_append, Function.comp, List.length_map,
      List.length_range] at ih
    rw [Nat.mul_succ]
    omega

theorem Grid.build_wf {T : Type} (w h : ℕ) (f : ℕ → ℕ → T) : (Grid.build w h f).wf := by
  unfold Grid.build Grid.wf
  exact length_flatMap_rows w h f

theorem get?_flatMap_rows {T : Type} (w : ℕ) (f : ℕ → ℕ → T) :
    ∀ (ys : List ℕ) (i x : ℕ), x < w → ∀ (hi : i < ys.length),
    ((ys.flatMap fun y => (List.range w).map fun x => f x y).get? (x + w * i)) =
      some (f x (ys.get ⟨i, hi⟩))
  | [], i, x, hx, hi => by simp at hi
  | b :: ys, 0, x, hx, hi => by
    simp only [List.flatMap_cons, List.get?_eq_getElem?]
    rw [List.getElem?_append_left (by simpa using hx)]
    simp [hx]
  | b :: ys, (i+1), x, hx, hi => by
    simp only [List.flatMap_cons, List.get?_eq_getElem?]
    rw [List.getElem?_append_right (by simp; nlinarith)]
    have h1 : x + w * (i + 1) - ((List.range w).map fun x => f x b).length = x + w * i := by
      simp; ring_nf; omega
    rw [h1]
    have := get?_flatMap_rows w f ys i x hx (by simpa using hi)
    simpa using this

theorem Grid.build_get {T : Type} (w h : ℕ) (f : ℕ → ℕ → T) (x y : ℕ)
    (hx : x < w) (hy : y < h) :
    (Grid.build w h f).get (x : ℤ) (y : ℤ) = some (f x y) := by
  unfold Grid.build Grid.get
  have hb : ¬((x : ℤ) < 0 ∨ (y : ℤ) < 0 ∨ (w : ℤ) ≤ (x : ℤ) ∨ (h : ℤ) ≤ (y : ℤ)) := by
    push_neg
    refine ⟨by positivity, by positivity, by exact_mod_cast hx, by exact_mod_cast hy⟩
  rw [if_neg hb]
  simp only [Int.toNat_ofNat]
  have := get?_flatMap_rows w f (List.range h) y x hx (by simpa using hy)
  simpa [List.get_range] using this

theorem Grid.get_isSome_of_wf {T : Type} (g : Grid T) (hg : g.wf) (x y : ℤ)
    (hx0 : 0 ≤ x) (hy0 : 0 ≤ y) (hx : x < g.width) (hy : y < g.height) :
    ∃ t, g.get x y = some t := by
  unfold Grid.get
  rw [if_neg (by push_neg; exact ⟨hx0, hy0, by omega, by omega⟩)]
  have hidx : x.toNat + g.width * y.toNat < g.cells.length := by
    rw [hg]
    have hx1 : x.toNat < g.width := by omega
    have hy1 : y.toNat < g.height := by omega
    calc x.toNat + g.width * y.toNat < g.width + g.width * y.toNat := by omega
    _ = g.width * (y.toNat + 1) := by ring
    _ ≤ g.width * g.height := by exact Nat.mul_le_mul_left _ (by omega)
  exact ⟨_, List.get?_eq_get hidx⟩

/-- Option-valued map over a list, modelling a loop of fallible steps:
the whole computation fails as soon as one element fails (a Rust
panic). -/
def omap {A B : Type} (f : A → Option B) : List A → Option (List B)
  | [] => some []
  | a :: as =>
    match f a, omap f as with
    | some b, some bs => some (b :: bs)
    | _, _ => none

theorem omap_eq_some_iff {A B : Type} (f : A → Option B) :
    ∀ (l : List A) (bs : List B),
      omap f l = some bs ↔ List.Forall₂ (fun a b => f a = some b) l bs
  | [], bs => by
    constructor
    · intro h; cases bs <;> simp_all [omap]
    · intro h; cases h; rfl
  | a :: as, bs => by
    constructor
    · intro h
      unfold omap at h
      cases hfa : f a with
      | none => rw [hfa] at h; simp at h
      | some b =>
        rw [hfa] at h
        cases hrest : omap f as with
        | none => rw [hrest] at h; simp at h
        | some bs2 =>
          rw [hrest] at h
          simp only [Option.some.injEq] at h
          subst h
          exact List.Forall₂.cons hfa ((omap_eq_some_iff f as bs2).mp hrest)
    · intro h
      cases h with
      | cons hab hrest =>
        unfold omap
        rw [hab, (omap_eq_some_iff f as _).mpr hrest]

theorem omap_isSome {A B : Type} (f : A → Option B) (l : List A)
    (h : ∀ a ∈ l, ∃ b, f a = some b) : ∃ bs, omap f l = some bs := by
  induction l with
  | nil => exact ⟨[], rfl⟩
  | cons a as ih =>
    obtain ⟨b, hb⟩ := h a (by simp)
    obtain ⟨bs, hbs⟩ := ih (fun a ha => h a (by simp [ha]))
    exact ⟨b :: bs, by unfold omap; rw [hb, hbs]⟩

/-! ## Material model (src/simulation.rs) -/

inductive Element where
  | Air : Element
  | Soil : Element
  | Water : Element
  deriving DecidableEq, Repr

structure Tile where
  element : Element
  saturation : ℚ
  deriving DecidableEq, Repr

/-- Polynomial from the simulation Config: eval sums coeff * x ^ degree
over the coefficient vector. -/
structure Polynomial where
  coeffs : List ℚ
  deriving DecidableEq, Repr

def Polynomial.eval (p : Polynomial) (x : ℚ) : ℚ :=
  (p.coeffs.enum.map fun dc => dc.2 * x ^ dc.1).sum

/-- Per-element material curves (density, cohesion, adhesion), as read
through config.air.density and friends in src/simulation.rs. -/
structure MaterialConfig where
  density : Polynomial
  cohesion : Polynomial
  adhesion : Polynomial
  deriving DecidableEq, Repr

/-- Modelled from the spec: the Config record consumed by
src/simulation.rs and src/simulation/score.rs is not present in the
snapshot (src/simulation/config.rs holds a divergent variant); its
fields are reconstructed from the spec's section 3 and from every read
site in the present code (config.air.density, threshold and rate
accessors, the two 8-entry neighbor weight arrays and the two score
weights).  Clamped f32 fields are modelled as plain rationals; the two
8-entry weight arrays are modelled as functions of the neighbor index,
of which only indices 0 to 7 are ever read. -/
structure Config where
  air : MaterialConfig
  soil : MaterialConfig
  water : MaterialConfig
  air_to_water_saturation_threshold : ℚ
  water_to_air_saturation_threshold : ℚ
  saturation_diffusion_rate : ℚ
  neighbor_attraction_weights : ℕ → ℚ
  neighbor_density_weights : ℕ → ℚ
  attraction_score_weight : ℚ
  density_score_weight : ℚ

def Tile.density (t : Tile) (config : Config) : ℚ :=
  match t.element with
  | .Air => config.air.density.eval t.saturation
  | .Soil => config.soil.density.eval t.saturation
  | .Water => config.water.density.eval t.saturation

def Tile.cohesion (t : Tile) (config : Config) : ℚ :=
  match t.element with
  | .Air => config.air.cohesion.eval t.saturation
  | .Soil => config.soil.cohesion.eval t.saturation
  | .Water => config.water.cohesion.eval t.saturation

def Tile.adhesion (t : Tile) (config : Config) : ℚ :=
  match t.element with
  | .Air => config.air.adhesion.eval t.saturation
  | .Soil => config.soil.adhesion.eval t.saturation
  | .Water => config.water.adhesion.eval t.saturation

def Tile.attractive_force (t other : Tile) (config : Config) : ℚ :=
  if t.element = other.element then t.cohesion config * other.cohesion config
  else t.adhesion config * other.adhesion config

/-! ## Saturation diffusion (State::update_saturations, src/simulation.rs) -/

/-- The iteration order of a GridWindow of size 3: relative offsets,
dy outer then dx inner, each from -1 to 1. -/
def windowOffsets3 : List (ℤ × ℤ) :=
  (List.range 3).flatMap fun y => (List.range 3).map fun x => ((x : ℤ) - 1, (y : ℤ) - 1)

/-- The in-bounds tiles of the 3x3 window centered at (x, y), in window
iteration order (GridWindow::iter filter_maps absent neighbors away). -/
def windowTiles (g : Grid Tile) (x y : ℤ) : List Tile :=
  windowOffsets3.filterMap fun d => g.get (x + d.1) (y + d.2)

/-- One window step of update_saturations: rate * (window average - own
saturation); none models the unwrap of the window center. -/
def saturationDelta (g : Grid Tile) (rate : ℚ) (x y : ℤ) : Option ℚ :=
  (g.get x y).map fun center =>
    let vals := windowTiles g x y
    let total : ℚ := (vals.map Tile.saturation).sum
    let avg : ℚ := total / (vals.length : ℚ)
    rate * (avg - center.saturation)

/-- State::update_saturations: first collect every cell's delta from a
read-only scan of the old grid, then add each delta to its cell and
clamp into [0, 1]. -/
def applySaturation (g : Grid Tile) (sats : Grid ℚ) (c : ℕ × ℕ) : Option Tile :=
  Option.bind (g.get (c.1 : ℤ) (c.2 : ℤ)) fun t =>
    Option.bind (sats.get (c.1 : ℤ) (c.2 : ℤ)) fun d =>
      some { t with saturation := clampQ (t.saturation + d) 0 1 }

def update_saturations (g : Grid Tile) (config : Config) : Option (Grid Tile) :=
  Option.bind (omap
      (fun c => saturationDelta g config.saturation_diffusion_rate (c.1 : ℤ) (c.2 : ℤ)) g.coords)
    fun deltas =>
      Option.bind (omap (applySaturation g ⟨g.width, g.height, deltas⟩) g.coords)
        fun cells => some ⟨g.width, g.height, cells⟩

theorem coords_mem_bounds {T : Type} (g : Grid T) (c : ℕ × ℕ) (hc : c ∈ g.coords) :
    c.1 < g.width ∧ c.2 < g.height := by
  unfold Grid.coords at hc
  simp only [List.mem_flatMap, List.mem_map, List.mem_range] at hc
  obtain ⟨y, hy, x, hx, hxy⟩ := hc
  cases hxy
  exact ⟨hx, hy⟩

theorem coords_length {T : Type} (g : Grid T) : g.coords.length = g.width * g.height := by
  unfold Grid.coords
  exact length_flatMap_rows g.width g.height _

theorem coords_get? {T : Type} (g : Grid T) (x y : ℕ) (hx : x < g.width) (hy : y < g.height) :
    g.coords.get? (x + g.width * y) = some (x, y) := by
  unfold Grid.coords
  have := get?_flatMap_rows g.width (fun a b => ((a, b) : ℕ × ℕ)) (List.range g.height)
    y x hx (by simpa using hy)
  simpa [List.get_range] using this

theorem coords_idx_lt {T : Type} (g : Grid T) (x y : ℕ) (hx : x < g.width) (hy : y < g.height) :
    x + g.width * y < g.coords.length := by
  rw [coords_length]
  calc x + g.width * y < g.width + g.width * y := by omega
  _ = g.width * (y + 1) := by ring
  _ ≤ g.width * g.height := Nat.mul_le_mul_left _ (by omega)

theorem Grid.get_nat {T : Type} (g : Grid T) (x y : ℕ) (hx : x < g.width) (hy : y < g.height) :
    g.get (x : ℤ) (y : ℤ) = g.cells.get? (x + g.width * y) := by
  unfold Grid.get
  rw [if_neg (by push_neg; exact ⟨by positivity, by positivity, by exact_mod_cast hx,
    by exact_mod_cast hy⟩)]
  simp

/-- C5 (confirmed).  After the saturation-diffusion step every cell's
saturation lies in [0, 1]: each cell's new saturation is the old one
plus rate times (3x3-window average minus old), clamped to [0, 1]. -/
theorem update_saturations_range (g : Grid Tile) (config : Config) (hg : g.wf)
    (hin : ∀ t ∈ g.cells, 0 ≤ t.saturation ∧ t.saturation ≤ 1) :
    ∃ g2, update_saturations g config = some g2 ∧
      g2.width = g.width ∧ g2.height = g.height ∧
      (∀ t ∈ g2.cells, 0 ≤ t.saturation ∧ t.saturation ≤ 1) ∧
      (∀ x y : ℕ, x < g.width → y < g.height → ∀ t, g.get (x : ℤ) (y : ℤ) = some t →
        ∃ d, saturationDelta g config.saturation_diffusion_rate (x : ℤ) (y : ℤ) = some d ∧
          g2.get (x : ℤ) (y : ℤ) = some ⟨t.element, clampQ (t.saturation + d) 0 1⟩) := by
  have hget : ∀ c ∈ g.coords, ∃ t, g.get (c.1 : ℤ) (c.2 : ℤ) = some t := by
    intro c hc
    obtain ⟨hx, hy⟩ := coords_mem_bounds g c hc
    exact g.get_isSome_of_wf hg _ _ (by positivity) (by positivity)
      (by exact_mod_cast hx) (by exact_mod_cast hy)
  have hdelta : ∀ c ∈ g.coords,
      ∃ d, saturationDelta g config.saturation_diffusion_rate (c.1 : ℤ) (c.2 : ℤ) = some d := by
    intro c hc
    obtain ⟨t, ht⟩ := hget c hc
    exact ⟨_, by unfold saturationDelta; rw [ht]; rfl⟩
  obtain ⟨deltas, hdeltas⟩ := omap_isSome _ g.coords hdelta
  have hF2d := (omap_eq_some_iff _ _ _).mp hdeltas
  have hdlen : deltas.length = g.coords.length := (List.Forall₂.length_eq hF2d).symm
  have hsats_wf : (⟨g.width, g.height, deltas⟩ : Grid ℚ).wf := by
    unfold Grid.wf
    simpa [hdlen] using coords_length g
  have hcell : ∀ c ∈ g.coords,
      ∃ t2, applySaturation g ⟨g.width, g.height, deltas⟩ c = some t2 := by
    intro c hc
    obtain ⟨t, ht⟩ := hget c hc
    obtain ⟨hx, hy⟩ := coords_mem_bounds g c hc
    obtain ⟨d, hd⟩ := Grid.get_isSome_of_wf _ hsats_wf (c.1 : ℤ) (c.2 : ℤ)
      (by positivity) (by positivity) (by exact_mod_cast hx) (by exact_mod_cast hy)
    exact ⟨_, by unfold applySaturation; rw [ht, hd, Option.some_bind, Option.some_bind]⟩
  obtain ⟨cells, hcells⟩ := omap_isSome _ g.coords hcell
  have hF2c := (omap_eq_some_iff _ _ _).mp hcells
  have hclen : cells.length = g.coords.length := (List.Forall₂.length_eq hF2c).symm
  refine ⟨⟨g.width, g.height, cells⟩, ?_, rfl, rfl, ?_, ?_⟩
  · unfold update_saturations
    rw [hdeltas, Option.some_bind, hcells, Option.some_bind]
  · intro t2 ht2
    obtain ⟨⟨i, hilt⟩, hgete⟩ := List.mem_iff_get.mp ht2
    have hilt2 : i < cells.length := by simpa using hilt
    have hic : i < g.coords.length := by omega
    have hfc := List.Forall₂.get hF2c hic hilt2
    have hgete2 : cells.get ⟨i, hilt2⟩ = t2 := by simpa using hgete
    set c := g.coords.get ⟨i, hic⟩ with hcdef
    have hcmem : c ∈ g.coords := List.get_mem g.coords i hic
    obtain ⟨t, ht⟩ := hget c hcmem
    obtain ⟨hx, hy⟩ := coords_mem_bounds g c hcmem
    obtain ⟨d, hd⟩ := Grid.get_isSome_of_wf _ hsats_wf (c.1 : ℤ) (c.2 : ℤ)
      (by positivity) (by positivity) (by exact_mod_cast hx) (by exact_mod_cast hy)
    unfold applySaturation at hfc
    rw [ht, hd, Option.some_bind, Option.some_bind, hgete2] at hfc
    simp only [Option.some.injEq] at hfc
    rw [← hfc]
    exact ⟨le_clampQ _ _ _ (by norm_num), clampQ_le _ _ _⟩
  · intro x y hx hy t ht
    have hidx := coords_idx_lt g x y hx hy
    have hcoord : g.coords.get ⟨x + g.width * y, hidx⟩ = (x, y) := by
      have h2 := coords_get? g x y hx hy
      rw [List.get?_eq_get hidx] at h2
      simpa using h2
    have hidxd : x + g.width * y < deltas.length := by omega
    have hfd := List.Forall₂.get hF2d hidx hidxd
    rw [hcoord] at hfd
    refine ⟨deltas.get ⟨x + g.width * y, hidxd⟩, hfd, ?_⟩
    have hidxc : x + g.width * y < cells.length := by omega
    have hfc := List.Forall₂.get hF2c hidx hidxc
    rw [hcoord] at hfc
    unfold applySaturation at hfc
    have hsget : (⟨g.width, g.height, deltas⟩ : Grid ℚ).get (x : ℤ) (y : ℤ)
        = some (deltas.get ⟨x + g.width * y, hidxd⟩) := by
      rw [Grid.get_nat (⟨g.width, g.height, deltas⟩ : Grid ℚ) x y hx hy]
      exact List.get?_eq_get hidxd
    rw [ht, hsget, Option.some_bind, Option.some_bind] at hfc
    simp only [Option.some.injEq] at hfc
    rw [Grid.get_nat (⟨g.width, g.height, cells⟩ : Grid Tile) x y hx hy]
    rw [List.get?_eq_get hidxc, ← hfc]

/-! ## Phase transitions (State::update_elements, src/simulation.rs) -/

/-- One cell of State::update_elements: Air becomes Water when saturation
reaches the air-to-water threshold, Water becomes Air when saturation is
below the water-to-air threshold, anything else is unchanged. -/
def updateElement (config : Config) (t : Tile) : Tile :=
  match t.element with
  | .Air =>
    if config.air_to_water_saturation_threshold ≤ t.saturation then
      { t with element := .Water }
    else t
  | .Water =>
    if t.saturation < config.water_to_air_saturation_threshold then
      { t with element := .Air }
    else t
  | .Soil => t

/-- A concrete config whose thresholds are crossed in the wrong order
(air-to-water 1/4 below water-to-air 3/4); Config::gen draws both
thresholds independently from [0, 1), so such configs are generated. -/
def configOscillating : Config :=
  { air := ⟨⟨[]⟩, ⟨[]⟩, ⟨[]⟩⟩
    soil := ⟨⟨[]⟩, ⟨[]⟩, ⟨[]⟩⟩
    water := ⟨⟨[]⟩, ⟨[]⟩, ⟨[]⟩⟩
    air_to_water_saturation_threshold := 1/4
    water_to_air_saturation_threshold := 3/4
    saturation_diffusion_rate := 0
    neighbor_attraction_weights := fun _ => 0
    neighbor_density_weights := fun _ => 0
    attraction_score_weight := 0
    density_score_weight := 0 }

/-- C6 counterexample.  With air-to-water threshold 1/4 and water-to-air
threshold 3/4 (an order Config::gen can draw), an Air tile of saturation
1/2 flips to Water after one step and back to Air after two: the
transition step is not idempotent for every config. -/
theorem updateElement_not_idempotent :
    updateElement configOscillating ⟨.Air, 1/2⟩ = ⟨.Water, 1/2⟩ ∧
    updateElement configOscillating (updateElement configOscillating ⟨.Air, 1/2⟩) =
      ⟨.Air, 1/2⟩ ∧
    updateElement configOscillating (updateElement configOscillating ⟨.Air, 1/2⟩) ≠
      updateElement configOscillating ⟨.Air, 1/2⟩ := by
  refine ⟨?_, ?_, ?_⟩
  · norm_num [updateElement, configOscillating]
  · norm_num [updateElement, configOscillating]
  · norm_num [updateElement, configOscillating]
    decide

/-- C6 amended.  When the water-to-air threshold does not exceed the
air-to-water threshold, the phase-transition step is idempotent for every
tile and saturation (a tile exactly at a threshold does not oscillate),
and a Soil tile never changes at all. -/
theorem updateElement_idempotent (config : Config) (t : Tile) (s : ℚ)
    (h : config.water_to_air_saturation_threshold ≤
      config.air_to_water_saturation_threshold) :
    updateElement config (updateElement config t) = updateElement config t ∧
    updateElement config ⟨.Soil, s⟩ = ⟨.Soil, s⟩ := by
  obtain ⟨e, sat⟩ := t
  constructor
  · cases e with
    | Air =>
      by_cases h1 : config.air_to_water_saturation_threshold ≤ sat
      · have h2 : ¬ (sat < config.water_to_air_saturation_threshold) := by linarith
        simp [updateElement, h1, h2]
      · simp [updateElement, h1]
    | Water =>
      by_cases h1 : sat < config.water_to_air_saturation_threshold
      · have h2 : ¬ (config.air_to_water_saturation_threshold ≤ sat) := by
          intro h3
          linarith
        simp [updateElement, h1, h2]
      · simp [updateElement, h1]
    | Soil => simp [updateElement]
  · rfl

/-! ## ClampedF32 (src/clamped_f32.rs) -/

/-- The lower bound of a ClampedF32, MIN as f32 / DENOM as f32. -/
def clampedMin (minN : ℤ) (denom : ℕ) : ℚ := (minN : ℚ) / (denom : ℚ)

/-- The upper bound of a ClampedF32, MAX as f32 / DENOM as f32. -/
def clampedMax (maxN : ℤ) (denom : ℕ) : ℚ := (maxN : ℚ) / (denom : ℚ)

/-- ClampedF32::new clamps the raw value into the declared range. -/
def clampedNew (minN maxN : ℤ) (denom : ℕ) (f : ℚ) : ℚ :=
  clampQ f (clampedMin minN denom) (clampedMax maxN denom)

/-- The mutation half-width of ClampedF32::mutate: max(value * rate,
epsilon). -/
def clampedMutateDelta (v rate : ℚ) : ℚ := max (v * rate) f32Epsilon

/-- ClampedF32::mutate as a function of the sampled random offset: the
code adds the offset after clamping the offset itself into [MIN/DENOM,
MAX/DENOM]; the sum is never re-clamped. -/
def clampedMutate (minN maxN : ℤ) (denom : ℕ) (v sample : ℚ) : ℚ :=
  v + clampQ sample (clampedMin minN denom) (clampedMax maxN denom)

/-- ClampedF32::crossover as a function of the random choice: the value
of self, of other, or their midpoint. -/
def clampedCrossover (a b : ℚ) (choice : Fin 3) : ℚ :=
  match choice with
  | 0 => a
  | 1 => b
  | 2 => (a + b) / 2

/-- C8.  ClampedF32::mutate escapes the declared range: for the range
[0, 1] (MIN 0, MAX 1, DENOM 1), value 1 (in range) and rate 1, the
sampled offset 1/2 lies inside the legal sampling interval
[-delta, delta] with delta = max(1 * 1, epsilon) = 1, yet the mutated
value is 3/2 > 1.  The code clamps the random offset instead of the sum,
contradicting the range invariant of the clamped type that mutate is
required to preserve. -/
theorem clampedMutate_escapes_range :
    clampedMutateDelta 1 1 = 1 ∧
    -(1 : ℚ) ≤ 1/2 ∧ (1/2 : ℚ) ≤ 1 ∧
    clampedMutate 0 1 1 1 (1/2) = 3/2 ∧
    ¬ (clampedMutate 0 1 1 1 (1/2) ≤ clampedMax 1 1) := by
  refine ⟨?_, by norm_num, by norm_num, ?_, ?_⟩
  · unfold clampedMutateDelta f32Epsilon
    rw [max_eq_left (by norm_num)]
    norm_num
  · unfold clampedMutate clampQ clampedMin clampedMax
    norm_num
  · unfold clampedMutate clampQ clampedMin clampedMax
    norm_num

/-- ClampedF32::crossover stays in range: a supporting fact for the parts
of the genetic operators that do preserve their range invariants. -/
theorem clampedCrossover_in_range (minN maxN : ℤ) (denom : ℕ) (a b : ℚ) (choice : Fin 3)
    (ha : clampedMin minN denom ≤ a ∧ a ≤ clampedMax maxN denom)
    (hb : clampedMin minN denom ≤ b ∧ b ≤ clampedMax maxN denom) :
    clampedMin minN denom ≤ clampedCrossover a b choice ∧
      clampedCrossover a b choice ≤ clampedMax maxN denom := by
  fin_cases choice <;> simp only [clampedCrossover] <;>
    constructor <;> first
      | exact ha.1 | exact ha.2 | exact hb.1 | exact hb.2 | linarith [ha.1, ha.2, hb.1, hb.2]

/-- The scalar mutation helper of src/simulation/config.rs clamps its
result, so every numeric field of that Config::mutate stays in its
declared range: a supporting fact for the in-range parts of C8. -/
def mutate_f32 (f : ℚ) (minV maxV sample : ℚ) : ℚ := clampQ (f + sample) minV maxV

theorem mutate_f32_in_range (f minV maxV sample : ℚ) (h : minV ≤ maxV) :
    minV ≤ mutate_f32 f minV maxV sample ∧ mutate_f32 f minV maxV sample ≤ maxV :=
  ⟨le_clampQ _ _ _ h, clampQ_le _ _ _⟩

/-! ## Pairwise scorer (src/simulation/score.rs)

WINDOW_SIZE is 5, WINDOW_SIZE_OV_2 is 2 and BUCKET_SIZE is 13.  The
flat score vector is modelled as a function from the signed flat index
to a score pair; PairwiseTileScorer::new writes it by folding the
source's loop order over function updates.  Claims about the scorer are
restricted to the index domain the constructor writes, where the Vec
indexing of the source cannot go out of range. -/

structure PairwiseTileScorer where
  width : ℕ
  scores : ℤ → ℚ × ℚ

/-- PairwiseTileScorer::index: (y + 2) * width + (x + 2) row-major base,
times BUCKET_SIZE 13, plus the bucket offset dy * 5 + dx. -/
def PairwiseTileScorer.index (s : PairwiseTileScorer) (x y dx dy : ℤ) : ℤ :=
  ((y + 2) * (s.width : ℤ) + (x + 2)) * 13 + dy * 5 + dx

/-- The score pair PairwiseTileScorer::new computes for the pair of
positions (x, y) and (x + dx, y + dy). -/
def scoreValue (elements : Grid Tile) (config : Config) (x y dx dy : ℤ) : ℚ × ℚ :=
  match elements.get x y, elements.get (x + dx) (y + dy) with
  | none, none => (0, 0)
  | none, some t => (t.adhesion config ^ 2, 0)
  | some t, none => (t.adhesion config ^ 2, 0)
  | some t, some o =>
    (t.attractive_force o config,
      (o.density config - t.density config) / (o.density config + t.density config))

/-- The dx loop of PairwiseTileScorer::new: 0..=2 when dy = 0, else
-2..=2. -/
def scorerDxRange (dy : ℕ) : List ℤ :=
  if dy = 0 then [0, 1, 2] else [-2, -1, 0, 1, 2]

/-- The write keys of PairwiseTileScorer::new in loop order: y and x over
the padded extent, shifted down by 2, with the half-window bucket
offsets. -/
def scorerWriteKeys (w h : ℕ) : List (ℤ × ℤ × ℤ × ℤ) :=
  (List.range (h + 2)).flatMap fun y =>
    (List.range (w + 2)).flatMap fun x =>
      (List.range 3).flatMap fun dy =>
        (scorerDxRange dy).map fun dx => ((x : ℤ) - 2, (y : ℤ) - 2, dx, (dy : ℤ))

/-- PairwiseTileScorer::new over a grid of tiles: width is the grid width
plus 2, and every key of the loop is written with its score value. -/
def PairwiseTileScorer.new (elements : Grid Tile) (config : Config) : PairwiseTileScorer :=
  let width := elements.width + 2
  let s0 : PairwiseTileScorer := ⟨width, fun _ => (0, 0)⟩
  ⟨width,
    (scorerWriteKeys elements.width elements.height).foldl
      (fun f k => Function.update f (s0.index k.1 k.2.1 k.2.2.1 k.2.2.2)
        (scoreValue elements config k.1 k.2.1 k.2.2.1 k.2.2.2))
      (fun _ => (0, 0))⟩

/-- PairwiseTileScorer::get: fetch the cached pair for an ordered pair
of positions, reading the mirrored slot with a negated density component
when (dx, dy) falls in the unstored half of the window. -/
def PairwiseTileScorer.get (s : PairwiseTileScorer) (t other : ℤ × ℤ) : ℚ × ℚ :=
  let dx := other.1 - t.1
  let dy := other.2 - t.2
  if 0 < dy ∨ (0 ≤ dy ∧ 0 ≤ dx) then
    s.scores (s.index t.1 t.2 dx dy)
  else
    let ad := s.scores (s.index other.1 other.2 (-dx) (-dy))
    (ad.1, -ad.2)

/-- The f32 literal 0.0001 in position_score, modelled by the decimal it
denotes. -/
def distPenalty : ℚ := 1 / 10000

/-- The neighbor substitution of position_score: a neighbor reference
equal to the mover's original position (tx, ty) is replaced by the
mover's destination (x, y). -/
def select_other (tx ty x y ox oy : ℤ) : ℤ × ℤ :=
  if tx = ox ∧ ty = oy then (x, y) else (ox, oy)

/-- The eight neighbor references position_score evaluates around the
destination (x, y), in source order, after substitution. -/
def score_neighbors (tx ty x y : ℤ) : List (ℤ × ℤ) :=
  [select_other tx ty x y (x - 1) (y - 1),
   select_other tx ty x y x (y - 1),
   select_other tx ty x y (x + 1) (y - 1),
   select_other tx ty x y (x - 1) y,
   select_other tx ty x y (x + 1) y,
   select_other tx ty x y (x - 1) (y + 1),
   select_other tx ty x y x (y + 1),
   select_other tx ty x y (x + 1) (y + 1)]

/-- PairwiseTileScorer::position_score: weighted attraction and density
sums over the eight substituted neighbors, with a small penalty on the
Chebyshev distance moved. -/
def PairwiseTileScorer.position_score (s : PairwiseTileScorer) (config : Config)
    (tx ty x y : ℤ) : ℚ :=
  let ns := score_neighbors tx ty x y
  let acc := ns.enum.foldl
    (fun acc io =>
      let ad := s.get (tx, ty) io.2
      (acc.1 + config.neighbor_attraction_weights io.1 * ad.1,
       acc.2 + config.neighbor_density_weights io.1 * ad.2))
    ((0 : ℚ), (0 : ℚ))
  config.attraction_score_weight * acc.1 + config.density_score_weight * acc.2
    - distPenalty * ((max (x - tx).natAbs (y - ty).natAbs : ℕ) : ℚ)

/-! ## C4: the self-substitution direction -/

/-- The substitution that claim C4 describes, following its words: a
neighbor reference equal to the mover's own destination (x, y) is
redirected back to the mover's original position (tx, ty). -/
def select_other_claimed (tx ty x y ox oy : ℤ) : ℤ × ℤ :=
  if x = ox ∧ y = oy then (tx, ty) else (ox, oy)

/-- The eight neighbor references around the destination under the
substitution the claim describes. -/
def score_neighbors_claimed (tx ty x y : ℤ) : List (ℤ × ℤ) :=
  [select_other_claimed tx ty x y (x - 1) (y - 1),
   select_other_claimed tx ty x y x (y - 1),
   select_other_claimed tx ty x y (x + 1) (y - 1),
   select_other_claimed tx ty x y (x - 1) y,
   select_other_claimed tx ty x y (x + 1) y,
   select_other_claimed tx ty x y (x - 1) (y + 1),
   select_other_claimed tx ty x y x (y + 1),
   select_other_claimed tx ty x y (x + 1) (y + 1)]

/-- C4 counterexample.  For the move of the tile at (0, 0) to the
adjacent destination (1, 0), the neighbor references the code evaluates
differ from the ones the claim describes: the claim keeps the vacated
original cell (0, 0) in the evaluation, while the code replaces it with
the destination (1, 0). -/
theorem score_neighbors_direction_swapped :
    score_neighbors 0 0 1 0 ≠ score_neighbors_claimed 0 0 1 0 ∧
    ((0 : ℤ), (0 : ℤ)) ∈ score_neighbors_claimed 0 0 1 0 ∧
    ((0 : ℤ), (0 : ℤ)) ∉ score_neighbors 0 0 1 0 := by
  refine ⟨?_, ?_, ?_⟩ <;> decide

theorem select_other_ne_origin (tx ty x y ox oy : ℤ) (h : (ox, oy) ≠ (x, y)) :
    select_other tx ty x y ox oy ≠ (tx, ty) := by
  unfold select_other
  split_ifs with hc
  · intro hxy
    exact h (by rw [hxy]; exact Prod.ext hc.1.symm hc.2.symm)
  · intro hxy
    rw [Prod.mk.injEq] at hxy
    exact hc ⟨hxy.1.symm, hxy.2.symm⟩

/-- C4 amended.  position_score evaluates the eight neighbors of the
destination with the substitution done in the opposite direction from
the claim's wording: a neighbor reference equal to the mover's original
position is redirected to the destination.  The mover is still never
counted at two positions: its original position never appears among the
evaluated neighbor references. -/
theorem score_neighbors_no_double_count (tx ty x y : ℤ) :
    score_neighbors tx ty x y =
      [((x - 1, y - 1) : ℤ × ℤ), (x, y - 1), (x + 1, y - 1), (x - 1, y),
        (x + 1, y), (x - 1, y + 1), (x, y + 1), (x + 1, y + 1)].map
        (fun o => if o = (tx, ty) then (x, y) else o) ∧
    ((tx, ty) : ℤ × ℤ) ∉ score_neighbors tx ty x y := by
  have hsel : ∀ ox oy : ℤ, select_other tx ty x y ox oy =
      if (ox, oy) = (tx, ty) then (x, y) else (ox, oy) := by
    intro ox oy
    unfold select_other
    have hiff : (tx = ox ∧ ty = oy) ↔ ((ox, oy) = (tx, ty)) := by
      rw [Prod.mk.injEq]
      constructor
      · rintro ⟨h1, h2⟩
        exact ⟨h1.symm, h2.symm⟩
      · rintro ⟨h1, h2⟩
        exact ⟨h1.symm, h2.symm⟩
    rw [if_congr hiff rfl rfl]
  constructor
  · simp only [score_neighbors, List.map_cons, List.map_nil, hsel]
  · unfold score_neighbors
    intro hmem
    simp only [List.mem_cons, List.not_mem_nil, or_false] at hmem
    rcases hmem with h | h | h | h | h | h | h | h <;>
      exact select_other_ne_origin tx ty x y _ _
        (by intro hq; rw [Prod.mk.injEq] at hq; omega) h.symm

/-! ## C3: mirror consistency of PairwiseTileScorer::get -/

theorem rowmajor_inj (W a b a2 b2 : ℤ) (hW : 0 < W) (hb : 0 ≤ b) (hbW : b < W)
    (hb2 : 0 ≤ b2) (hb2W : b2 < W) (h : a * W + b = a2 * W + b2) : a = a2 ∧ b = b2 := by
  have h1 : (a2 - a) * W = b - b2 := by ring_nf; linarith
  rcases lt_trichotomy a a2 with h2 | h2 | h2
  · exfalso
    have h3 : (1 : ℤ) * W ≤ (a2 - a) * W :=
      mul_le_mul_of_nonneg_right (by omega) (le_of_lt hW)
    rw [one_mul] at h3
    omega
  · constructor
    · exact h2
    · rw [h2] at h
      omega
  · exfalso
    have h3 : (1 : ℤ) * W ≤ (a - a2) * W :=
      mul_le_mul_of_nonneg_right (by omega) (le_of_lt hW)
    rw [one_mul] at h3
    have h4 : (a - a2) * W = b2 - b := by ring_nf; linarith
    omega

/-- The constraints satisfied by every write key of
PairwiseTileScorer::new for a grid of extent w by h. -/
def scorerKeyDomain (w h : ℕ) (k : ℤ × ℤ × ℤ × ℤ) : Prop :=
  -2 ≤ k.1 ∧ k.1 < w ∧ -2 ≤ k.2.1 ∧ k.2.1 < h ∧
    ((k.2.2.2 = 0 ∧ 0 ≤ k.2.2.1 ∧ k.2.2.1 ≤ 2) ∨
     (1 ≤ k.2.2.2 ∧ k.2.2.2 ≤ 2 ∧ -2 ≤ k.2.2.1 ∧ k.2.2.1 ≤ 2))

theorem scorerWriteKeys_domain (w h : ℕ) (k : ℤ × ℤ × ℤ × ℤ)
    (hk : k ∈ scorerWriteKeys w h) : scorerKeyDomain w h k := by
  unfold scorerWriteKeys at hk
  simp only [List.mem_flatMap, List.mem_map, List.mem_range] at hk
  obtain ⟨y, hy, x, hx, dy, hdy, dx, hdx, hke⟩ := hk
  subst hke
  unfold scorerKeyDomain
  dsimp only
  refine ⟨by omega, ?_, by omega, ?_, ?_⟩
  · have : (x : ℤ) < (w : ℤ) + 2 := by exact_mod_cast hx
    omega
  · have : (y : ℤ) < (h : ℤ) + 2 := by exact_mod_cast hy
    omega
  · unfold scorerDxRange at hdx
    by_cases h0 : dy = 0
    · rw [if_pos h0] at hdx
      subst h0
      simp only [List.mem_cons, List.not_mem_nil, or_false] at hdx
      left
      refine ⟨rfl, ?_, ?_⟩ <;> rcases hdx with h | h | h <;> omega
    · rw [if_neg h0] at hdx
      simp only [List.mem_cons, List.not_mem_nil, or_false] at hdx
      right
      have h1 : 1 ≤ (dy : ℤ) := by
        have : 1 ≤ dy := by omega
        exact_mod_cast this
      have h2 : (dy : ℤ) ≤ 2 := by
        have : dy ≤ 2 := by omega
        exact_mod_cast this
      refine ⟨h1, h2, ?_, ?_⟩ <;> rcases hdx with h | h | h | h | h <;> omega

theorem scorerIndex_inj (w h : ℕ) (s : PairwiseTileScorer) (hsw : s.width = w + 2)
    (k k2 : ℤ × ℤ × ℤ × ℤ)
    (hk : scorerKeyDomain w h k) (hk2 : scorerKeyDomain w h k2)
    (hidx : s.index k.1 k.2.1 k.2.2.1 k.2.2.2 = s.index k2.1 k2.2.1 k2.2.2.1 k2.2.2.2) :
    k = k2 := by
  obtain ⟨x, y, dx, dy⟩ := k
  obtain ⟨x2, y2, dx2, dy2⟩ := k2
  unfold scorerKeyDomain at hk hk2
  simp only at hk hk2 hidx
  unfold PairwiseTileScorer.index at hidx
  rw [hsw] at hidx
  push_cast at hidx
  have hr : 0 ≤ dy * 5 + dx ∧ dy * 5 + dx < 13 := by omega
  have hr2 : 0 ≤ dy2 * 5 + dx2 ∧ dy2 * 5 + dx2 < 13 := by omega
  have hbase := rowmajor_inj 13 ((y + 2) * ((w : ℤ) + 2) + (x + 2)) (dy * 5 + dx)
    ((y2 + 2) * ((w : ℤ) + 2) + (x2 + 2)) (dy2 * 5 + dx2)
    (by norm_num) hr.1 hr.2 hr2.1 hr2.2 (by linarith)
  have hxy := rowmajor_inj ((w : ℤ) + 2) (y + 2) (x + 2) (y2 + 2) (x2 + 2)
    (by positivity) (by omega) (by omega) (by omega) (by omega) hbase.1
  have hdxy : dy = dy2 ∧ dx = dx2 := by
    have := hbase.2
    omega
  simp only [Prod.mk.injEq]
  refine ⟨by omega, by omega, hdxy.2, hdxy.1⟩

theorem foldl_update_snd (idx : ℤ × ℤ × ℤ × ℤ → ℤ) (wv : ℤ × ℤ × ℤ × ℤ → ℚ × ℚ) :
    ∀ (keys : List (ℤ × ℤ × ℤ × ℤ)) (f0 : ℤ → ℚ × ℚ) (i : ℤ),
      (f0 i).2 = 0 → (∀ k ∈ keys, idx k = i → (wv k).2 = 0) →
      ((keys.foldl (fun f k => Function.update f (idx k) (wv k)) f0) i).2 = 0
  | [], f0, i, h0, _ => h0
  | k :: ks, f0, i, h0, hall => by
    rw [List.foldl_cons]
    refine foldl_update_snd idx wv ks _ i ?_ (fun k2 hk2 => hall k2 (by simp [hk2]))
    by_cases hik : idx k = i
    · rw [← hik, Function.update_same]
      exact hall k (by simp) hik
    · rw [Function.update_noteq (by intro hcontra; exact hik hcontra.symm)]
      exact h0

theorem scoreValue_self_snd_zero (elements : Grid Tile) (config : Config) (x y : ℤ) :
    (scoreValue elements config x y 0 0).2 = 0 := by
  unfold scoreValue
  rw [add_zero, add_zero]
  cases elements.get x y with
  | none => rfl
  | some t => simp

theorem scorer_new_self_snd_zero (elements : Grid Tile) (config : Config) (px py : ℤ)
    (hpx : -2 ≤ px ∧ px < elements.width) (hpy : -2 ≤ py ∧ py < elements.height) :
    ((PairwiseTileScorer.new elements config).scores
      ((PairwiseTileScorer.new elements config).index px py 0 0)).2 = 0 := by
  unfold PairwiseTileScorer.new
  simp only
  refine foldl_update_snd _ _ _ _ _ rfl ?_
  intro k hk hik
  have hdom := scorerWriteKeys_domain elements.width elements.height k hk
  have hpdom : scorerKeyDomain elements.width elements.height (px, py, 0, 0) := by
    unfold scorerKeyDomain
    exact ⟨hpx.1, hpx.2, hpy.1, hpy.2, Or.inl ⟨rfl, by norm_num, by norm_num⟩⟩
  have hkey := scorerIndex_inj elements.width elements.height
    ⟨elements.width + 2, fun _ => (0, 0)⟩ rfl k (px, py, 0, 0) hdom hpdom hik
  rw [hkey]
  exact scoreValue_self_snd_zero elements config px py

theorem scorer_get_pos (s : PairwiseTileScorer) (t other : ℤ × ℤ)
    (h : 0 < other.2 - t.2 ∨ (0 ≤ other.2 - t.2 ∧ 0 ≤ other.1 - t.1)) :
    s.get t other = s.scores (s.index t.1 t.2 (other.1 - t.1) (other.2 - t.2)) := by
  unfold PairwiseTileScorer.get
  rw [if_pos h]

theorem scorer_get_neg (s : PairwiseTileScorer) (t other : ℤ × ℤ)
    (h : ¬ (0 < other.2 - t.2 ∨ (0 ≤ other.2 - t.2 ∧ 0 ≤ other.1 - t.1))) :
    s.get t other =
      ((s.scores (s.index other.1 other.2 (t.1 - other.1) (t.2 - other.2))).1,
       -(s.scores (s.index other.1 other.2 (t.1 - other.1) (t.2 - other.2))).2) := by
  unfold PairwiseTileScorer.get
  rw [if_neg h]
  simp only [neg_sub]

/-- C3 (confirmed).  For every pair of in-window positions, the scorer
cache built by PairwiseTileScorer::new is mirror consistent: get(p, q)
and get(q, p) agree on the attraction component and carry density
components of opposite sign. -/
theorem scorer_get_mirror (elements : Grid Tile) (config : Config) (p q : ℤ × ℤ)
    (hp : -2 ≤ p.1 ∧ p.1 < elements.width ∧ -2 ≤ p.2 ∧ p.2 < elements.height)
    (hq : -2 ≤ q.1 ∧ q.1 < elements.width ∧ -2 ≤ q.2 ∧ q.2 < elements.height)
    (hwin : (q.1 - p.1).natAbs ≤ 2 ∧ (q.2 - p.2).natAbs ≤ 2) :
    ((PairwiseTileScorer.new elements config).get p q).1 =
      ((PairwiseTileScorer.new elements config).get q p).1 ∧
    ((PairwiseTileScorer.new elements config).get p q).2 =
      -(((PairwiseTileScorer.new elements config).get q p).2) := by
  set s := PairwiseTileScorer.new elements config with hs
  rcases lt_trichotomy (q.2 - p.2) 0 with hdy | hdy | hdy
  · rw [scorer_get_neg s p q (by omega), scorer_get_pos s q p (by omega)]
    exact ⟨rfl, rfl⟩
  · rcases lt_trichotomy (q.1 - p.1) 0 with hdx | hdx | hdx
    · rw [scorer_get_neg s p q (by omega), scorer_get_pos s q p (by omega)]
      exact ⟨rfl, rfl⟩
    · have hqp : q = p := by
        obtain ⟨qa, qb⟩ := q
        obtain ⟨pa, pb⟩ := p
        simp only at hdx hdy
        simp only [Prod.mk.injEq]
        omega
      subst hqp
      rw [scorer_get_pos s q q (by omega)]
      have h0 : (s.scores (s.index q.1 q.2 (q.1 - q.1) (q.2 - q.2))).2 = 0 := by
        rw [sub_self, sub_self]
        exact scorer_new_self_snd_zero elements config q.1 q.2
          ⟨hq.1, hq.2.1⟩ ⟨hq.2.2.1, hq.2.2.2⟩
      exact ⟨rfl, by rw [h0]; norm_num⟩
    · rw [scorer_get_pos s p q (by omega), scorer_get_neg s q p (by omega)]
      constructor
      · rfl
      · simp only [neg_neg]
  · rw [scorer_get_pos s p q (by omega), scorer_get_neg s q p (by omega)]
    constructor
    · rfl
    · simp only [neg_neg]

/-! ## PotentialMoves (src/simulation/conflict.rs)

A ranked preference list plus a cursor; pop advances the cursor. -/

structure PotentialMoves where
  preferences : List (ℤ × ℤ)
  current : ℕ
  deriving DecidableEq, Repr

def PotentialMoves.new (preferences : List (ℤ × ℤ)) : PotentialMoves :=
  ⟨preferences, 0⟩

/-- PotentialMoves::current: the preference the cursor points at. -/
def PotentialMoves.cur (p : PotentialMoves) : Option (ℤ × ℤ) :=
  p.preferences.get? p.current

/-- PotentialMoves::pop: advance the cursor. -/
def PotentialMoves.pop (p : PotentialMoves) : PotentialMoves :=
  ⟨p.preferences, p.current + 1⟩

/-! ## Force-field preference generation
(ForceField::potential_moves, src/simulation/forcefield.rs; the copy in
src/simulation.rs has the same body)

The sort key of a candidate offset is the dot product of the normalized
offset with the cell's force vector.  For the nine window offsets the
norm is 0, 1 or the square root of 2, so each key is an exact value of
the form a + b * sqrt 2 with a, b rational; such values are represented
by the pair (a, b) with a decidable order, and bridged to the reals only
in the statements. -/

structure Q2 where
  a : ℚ
  b : ℚ
  deriving DecidableEq, Repr

noncomputable def Q2.toReal (q : Q2) : ℝ := (q.a : ℝ) + (q.b : ℝ) * Real.sqrt 2

/-- Decidable test for p &le; q * sqrt 2 over the rationals. -/
def sqrt2LE (p q : ℚ) : Prop :=
  (0 ≤ q ∧ (p ≤ 0 ∨ p ^ 2 ≤ 2 * q ^ 2)) ∨ (q < 0 ∧ p ≤ 0 ∧ 2 * q ^ 2 ≤ p ^ 2)

instance sqrt2LE_decidable (p q : ℚ) : Decidable (sqrt2LE p q) := by
  unfold sqrt2LE
  exact inferInstance

theorem sqrt2LE_iff (p q : ℚ) : sqrt2LE p q ↔ (p : ℝ) ≤ (q : ℝ) * Real.sqrt 2 := by
  have hs2 : Real.sqrt 2 ^ 2 = 2 := Real.sq_sqrt (by norm_num)
  have hs2nn : (0 : ℝ) ≤ Real.sqrt 2 := Real.sqrt_nonneg 2
  have hs2pos : (0 : ℝ) < Real.sqrt 2 := Real.sqrt_pos.mpr (by norm_num)
  unfold sqrt2LE
  constructor
  · rintro (⟨hq, hp | hpq⟩ | ⟨hq, hp, hpq⟩)
    · have hqR : (0 : ℝ) ≤ (q : ℝ) := by exact_mod_cast hq
      have hpR : (p : ℝ) ≤ 0 := by exact_mod_cast hp
      have := mul_nonneg hqR hs2nn
      linarith
    · have hqR : (0 : ℝ) ≤ (q : ℝ) := by exact_mod_cast hq
      have hpqR : (p : ℝ) ^ 2 ≤ 2 * (q : ℝ) ^ 2 := by exact_mod_cast hpq
      by_contra hc
      push_neg at hc
      have hppos : (0 : ℝ) < (p : ℝ) := lt_of_le_of_lt (mul_nonneg hqR hs2nn) hc
      have hsum : (0 : ℝ) < (p : ℝ) + (q : ℝ) * Real.sqrt 2 := by
        have := mul_nonneg hqR hs2nn
        linarith
      have hprod : (0 : ℝ) <
          ((p : ℝ) - (q : ℝ) * Real.sqrt 2) * ((p : ℝ) + (q : ℝ) * Real.sqrt 2) :=
        mul_pos (by linarith) hsum
      nlinarith [hprod, hs2]
    · have hqR : (q : ℝ) < 0 := by exact_mod_cast hq
      have hpR : (p : ℝ) ≤ 0 := by exact_mod_cast hp
      have hpqR : 2 * (q : ℝ) ^ 2 ≤ (p : ℝ) ^ 2 := by exact_mod_cast hpq
      by_contra hc
      push_neg at hc
      have hsum : (p : ℝ) + (q : ℝ) * Real.sqrt 2 < 0 := by
        have := mul_neg_of_neg_of_pos hqR hs2pos
        linarith
      have hprod : ((p : ℝ) - (q : ℝ) * Real.sqrt 2) * ((p : ℝ) + (q : ℝ) * Real.sqrt 2) < 0 :=
        mul_neg_of_pos_of_neg (by linarith) hsum
      nlinarith [hprod, hs2]
  · intro h
    by_cases hq : 0 ≤ q
    · left
      refine ⟨hq, ?_⟩
      by_cases hp : p ≤ 0
      · exact Or.inl hp
      · right
        push_neg at hp
        have hpR : (0 : ℝ) < (p : ℝ) := by exact_mod_cast hp
        have h2 : (p : ℝ) ^ 2 ≤ ((q : ℝ) * Real.sqrt 2) ^ 2 := by
          have := mul_self_le_mul_self (le_of_lt hpR) h
          nlinarith [this]
        have h3 : (p : ℝ) ^ 2 ≤ 2 * (q : ℝ) ^ 2 := by nlinarith [h2, hs2]
        exact_mod_cast h3
    · right
      push_neg at hq
      have hqR : (q : ℝ) < 0 := by exact_mod_cast hq
      have hneg : (q : ℝ) * Real.sqrt 2 < 0 := mul_neg_of_neg_of_pos hqR hs2pos
      have hpR : (p : ℝ) ≤ 0 := by linarith
      refine ⟨hq, by exact_mod_cast hpR, ?_⟩
      have h2 : ((q : ℝ) * Real.sqrt 2) ^ 2 ≤ (p : ℝ) ^ 2 := by
        have := mul_self_le_mul_self (by linarith : (0 : ℝ) ≤ -((q : ℝ) * Real.sqrt 2))
          (by linarith : -((q : ℝ) * Real.sqrt 2) ≤ -(p : ℝ))
        nlinarith [this]
      have h3 : 2 * (q : ℝ) ^ 2 ≤ (p : ℝ) ^ 2 := by nlinarith [h2, hs2]
      exact_mod_cast h3

/-- The order on exact a + b * sqrt 2 values. -/
def Q2.le (x y : Q2) : Prop := sqrt2LE (x.a - y.a) (y.b - x.b)

instance Q2.le_decidable (x y : Q2) : Decidable (Q2.le x y) := by
  unfold Q2.le
  exact inferInstance

theorem Q2.le_iff (x y : Q2) : Q2.le x y ↔ x.toReal ≤ y.toReal := by
  unfold Q2.le Q2.toReal
  rw [sqrt2LE_iff]
  push_cast
  constructor <;> intro h <;> nlinarith [h]

/-- The exact value of
Vector2::new(dx, dy).try_normalize(EPSILON).unwrap_or(zero).dot(f) for a
window offset (dx, dy) with both components in {-1, 0, 1}: the zero
offset fails to normalize and scores 0; a straight offset has norm 1; a
diagonal offset has norm sqrt 2, so its dot product is
(dx * fx + dy * fy) / 2 * sqrt 2. -/
def moveKey (f : ℚ × ℚ) (o : ℤ × ℤ) : Q2 :=
  if o.1 = 0 ∧ o.2 = 0 then ⟨0, 0⟩
  else if o.1 = 0 ∨ o.2 = 0 then ⟨(o.1 : ℚ) * f.1 + (o.2 : ℚ) * f.2, 0⟩
  else ⟨0, ((o.1 : ℚ) * f.1 + (o.2 : ℚ) * f.2) / 2⟩

/-- The descending comparison used by the sort in potential_moves:
sort_unstable_by_key with Reverse(key) keeps larger keys first. -/
def moveRel (f : ℚ × ℚ) (o1 o2 : ℤ × ℤ) : Prop := Q2.le (moveKey f o2) (moveKey f o1)

instance moveRel_decidable (f : ℚ × ℚ) : DecidableRel (moveRel f) := by
  intro o1 o2
  unfold moveRel
  exact inferInstance

/-- The nine candidate offsets, dy outer and dx inner, each from -1
to 1. -/
def offsets9 : List (ℤ × ℤ) :=
  [(-1, -1), (0, -1), (1, -1), (-1, 0), (0, 0), (1, 0), (-1, 1), (0, 1), (1, 1)]

/-- The in-bounds filter of potential_moves for the cell (x, y). -/
def moveInBounds (w h x y : ℕ) (o : ℤ × ℤ) : Bool :=
  decide (0 ≤ (x : ℤ) + o.1 ∧ 0 ≤ (y : ℤ) + o.2 ∧
    (x : ℤ) + o.1 < (w : ℤ) ∧ (y : ℤ) + o.2 < (h : ℤ))

/-- One cell of ForceField::potential_moves: filter the nine offsets to
in-bounds ones, sort descending by dot product with the local force,
then map to absolute coordinates. -/
def potentialMovesCell (w h : ℕ) (f : ℚ × ℚ) (x y : ℕ) : List (ℤ × ℤ) :=
  (List.insertionSort (moveRel f) (offsets9.filter (moveInBounds w h x y))).map
    fun o => ((x : ℤ) + o.1, (y : ℤ) + o.2)

/-- ForceField::potential_moves over the read force grid. -/
def forcefield_potential_moves (forces : Grid (ℚ × ℚ)) : Option (Grid PotentialMoves) :=
  Option.bind (omap
      (fun c => Option.bind (forces.get (c.1 : ℤ) (c.2 : ℤ)) fun f =>
        some (PotentialMoves.new
          (potentialMovesCell forces.width forces.height f c.1 c.2))) forces.coords)
    fun cells => some ⟨forces.width, forces.height, cells⟩

theorem moveRel_total (f : ℚ × ℚ) : ∀ o1 o2, moveRel f o1 o2 ∨ moveRel f o2 o1 := by
  intro o1 o2
  unfold moveRel
  rw [Q2.le_iff, Q2.le_iff]
  exact le_total _ _

theorem moveRel_trans (f : ℚ × ℚ) :
    ∀ o1 o2 o3, moveRel f o1 o2 → moveRel f o2 o3 → moveRel f o1 o3 := by
  intro o1 o2 o3 h1 h2
  unfold moveRel at h1 h2 ⊢
  rw [Q2.le_iff] at h1 h2 ⊢
  exact le_trans h2 h1

/-- C7 (confirmed).  Every produced preference list is exactly the
in-bounds subset of the nine offsets around its cell taken to absolute
coordinates, ordered by descending dot product between the normalized
offset direction and the local force vector, and every listed candidate
is in bounds. -/
theorem forcefield_potential_moves_spec (forces : Grid (ℚ × ℚ)) (hwf : forces.wf) :
    ∃ pmg, forcefield_potential_moves forces = some pmg ∧
      pmg.width = forces.width ∧ pmg.height = forces.height ∧
      ∀ x y : ℕ, x < forces.width → y < forces.height →
        ∀ f, forces.get (x : ℤ) (y : ℤ) = some f →
        ∃ pm, pmg.get (x : ℤ) (y : ℤ) = some pm ∧ pm.current = 0 ∧
          ∃ offs : List (ℤ × ℤ),
            offs.Perm (offsets9.filter (moveInBounds forces.width forces.height x y)) ∧
            offs.Pairwise (fun o1 o2 => (moveKey f o2).toReal ≤ (moveKey f o1).toReal) ∧
            pm.preferences = offs.map (fun o => ((x : ℤ) + o.1, (y : ℤ) + o.2)) ∧
            ∀ c ∈ pm.preferences, 0 ≤ c.1 ∧ 0 ≤ c.2 ∧
              c.1 < (forces.width : ℤ) ∧ c.2 < (forces.height : ℤ) := by
  have hstep : ∀ c ∈ forces.coords,
      ∃ pm, (Option.bind (forces.get (c.1 : ℤ) (c.2 : ℤ)) fun f =>
        some (PotentialMoves.new
          (potentialMovesCell forces.width forces.height f c.1 c.2))) = some pm := by
    intro c hc
    obtain ⟨hx, hy⟩ := coords_mem_bounds forces c hc
    obtain ⟨f, hf⟩ := forces.get_isSome_of_wf hwf (c.1 : ℤ) (c.2 : ℤ)
      (by positivity) (by positivity) (by exact_mod_cast hx) (by exact_mod_cast hy)
    exact ⟨_, by rw [hf, Option.some_bind]⟩
  obtain ⟨cells, hcells⟩ := omap_isSome _ forces.coords hstep
  have hF2 := (omap_eq_some_iff _ _ _).mp hcells
  have hclen : cells.length = forces.coords.length := (List.Forall₂.length_eq hF2).symm
  refine ⟨⟨forces.width, forces.height, cells⟩, ?_, rfl, rfl, ?_⟩
  · unfold forcefield_potential_moves
    rw [hcells, Option.some_bind]
  · intro x y hx hy f hf
    have hidx := coords_idx_lt forces x y hx hy
    have hcoord : forces.coords.get ⟨x + forces.width * y, hidx⟩ = (x, y) := by
      have h2 := coords_get? forces x y hx hy
      rw [List.get?_eq_get hidx] at h2
      simpa using h2
    have hidxc : x + forces.width * y < cells.length := by omega
    have hfc := List.Forall₂.get hF2 hidx hidxc
    rw [hcoord] at hfc
    simp only at hfc
    rw [hf, Option.some_bind] at hfc
    simp only [Option.some.injEq] at hfc
    refine ⟨cells.get ⟨x + forces.width * y, hidxc⟩, ?_, ?_, ?_⟩
    · rw [Grid.get_nat (⟨forces.width, forces.height, cells⟩ : Grid PotentialMoves) x y hx hy]
      exact List.get?_eq_get hidxc
    · rw [← hfc]
      rfl
    · refine ⟨List.insertionSort (moveRel f)
        (offsets9.filter (moveInBounds forces.width forces.height x y)), ?_, ?_, ?_, ?_⟩
      · exact List.perm_insertionSort _ _
      · haveI : IsTotal (ℤ × ℤ) (moveRel f) := ⟨moveRel_total f⟩
        haveI : IsTrans (ℤ × ℤ) (moveRel f) := ⟨moveRel_trans f⟩
        have hsorted := List.sorted_insertionSort (moveRel f)
          (offsets9.filter (moveInBounds forces.width forces.height x y))
        refine List.Pairwise.imp ?_ hsorted
        intro o1 o2 h12
        unfold moveRel at h12
        rw [Q2.le_iff] at h12
        exact h12
      · rw [← hfc]
        rfl
      · intro c hcmem
        rw [← hfc] at hcmem
        have hcmem2 : c ∈ potentialMovesCell forces.width forces.height f x y := hcmem
        unfold potentialMovesCell at hcmem2
        rw [List.mem_map] at hcmem2
        obtain ⟨o, ho, hoc⟩ := hcmem2
        rw [List.Perm.mem_iff (List.perm_insertionSort _ _)] at ho
        rw [List.mem_filter] at ho
        have hb := ho.2
        unfold moveInBounds at hb
        rw [decide_eq_true_eq] at hb
        rw [← hoc]
        exact ⟨hb.1, hb.2.1, hb.2.2.1, hb.2.2.2⟩

/-- Witness for C7 at a concrete 2 by 1 force grid. -/
theorem forcefield_potential_moves_witness :
    ∃ pmg, forcefield_potential_moves ⟨2, 1, [((1 : ℚ), (0 : ℚ)), ((0 : ℚ), (1 : ℚ))]⟩
        = some pmg ∧
      pmg.width = 2 ∧ pmg.height = 1 ∧
      ∀ x y : ℕ, x < 2 → y < 1 →
        ∀ f, (⟨2, 1, [((1 : ℚ), (0 : ℚ)), ((0 : ℚ), (1 : ℚ))]⟩ : Grid (ℚ × ℚ)).get
            (x : ℤ) (y : ℤ) = some f →
        ∃ pm, pmg.get (x : ℤ) (y : ℤ) = some pm ∧ pm.current = 0 ∧
          ∃ offs : List (ℤ × ℤ),
            offs.Perm (offsets9.filter (moveInBounds 2 1 x y)) ∧
            offs.Pairwise (fun o1 o2 => (moveKey f o2).toReal ≤ (moveKey f o1).toReal) ∧
            pm.preferences = offs.map (fun o => ((x : ℤ) + o.1, (y : ℤ) + o.2)) ∧
            ∀ c ∈ pm.preferences, 0 ≤ c.1 ∧ 0 ≤ c.2 ∧ c.1 < (2 : ℤ) ∧ c.2 < (1 : ℤ) :=
  forcefield_potential_moves_spec ⟨2, 1, [(1, 0), (0, 1)]⟩ (by unfold Grid.wf; rfl)

/-! ## Conflict resolution (src/simulation/conflict.rs)

MoveConflict is a 25-slot inline array plus a length; only the first
len slots are ever observable, so it is modelled as the list of those
slots with push_move failing (a Rust index-out-of-bounds panic) once the
length reaches WINDOW_SIZE * WINDOW_SIZE = 25. -/

structure MoveConflict where
  candidates : List (ℤ × ℤ)
  deriving DecidableEq, Repr

def MoveConflict.new : MoveConflict := ⟨[]⟩

def MoveConflict.is_empty (c : MoveConflict) : Prop := c.candidates.length = 0

def MoveConflict.is_resolved (c : MoveConflict) : Prop := c.candidates.length = 1

def MoveConflict.is_in_conflict (c : MoveConflict) : Prop := 1 < c.candidates.length

instance (c : MoveConflict) : Decidable c.is_empty := by unfold MoveConflict.is_empty; exact inferInstance

instance (c : MoveConflict) : Decidable c.is_resolved := by unfold MoveConflict.is_resolved; exact inferInstance

instance (c : MoveConflict) : Decidable c.is_in_conflict := by unfold MoveConflict.is_in_conflict; exact inferInstance

/-- MoveConflict::push_move: candidates[len] = Some(m); len += 1.  The
write panics when len is already 25. -/
def MoveConflict.push_move (c : MoveConflict) (m : ℤ × ℤ) : Option MoveConflict :=
  if c.candidates.length < 25 then some ⟨c.candidates ++ [m]⟩ else none

/-- MoveConflict::resolved_move: candidates[0].unwrap(). -/
def MoveConflict.resolved_move (c : MoveConflict) : Option (ℤ × ℤ) := c.candidates.head?

/-- MoveConflict::resolve: reset then push. -/
def MoveConflict.resolve (m : ℤ × ℤ) : MoveConflict := ⟨[m]⟩

/-- MoveConflict::swap_remove: candidates[i] = candidates[len - 1];
len -= 1.  Only called with 0 < i + 1 &le; len. -/
def MoveConflict.swap_remove (c : MoveConflict) (i : ℕ) : MoveConflict :=
  match c.candidates.getLast? with
  | none => ⟨[]⟩
  | some last => ⟨(c.candidates.set i last).dropLast⟩

/-- Fallible left fold, modelling a loop of fallible steps. -/
def ofoldl {A B : Type} (f : B → A → Option B) : B → List A → Option B
  | b, [] => some b
  | b, a :: as =>
    match f b a with
    | none => none
    | some b2 => ofoldl f b2 as

/-- One source step of the conflict-grid build in reduce_potential_moves:
record the source's current proposal at its destination cell.  none
models the panics: a missing source cell, an out-of-range destination in
conflicts.get_mut(..).unwrap(), or a push past the 25-slot array. -/
def recordMove (pm : Grid PotentialMoves) (conflicts : Grid MoveConflict) (c : ℕ × ℕ) :
    Option (Grid MoveConflict) :=
  match pm.get (c.1 : ℤ) (c.2 : ℤ) with
  | none => none
  | some p =>
    match p.cur with
    | none => some conflicts
    | some d =>
      match conflicts.get d.1 d.2 with
      | none => none
      | some mc =>
        match mc.push_move ((c.1 : ℤ), (c.2 : ℤ)) with
        | none => none
        | some mc2 => conflicts.set d.1 d.2 mc2

/-- The conflict-grid build of one loop iteration of
reduce_potential_moves: reset every cell, then record every source's
current proposal in row-major order. -/
def buildConflicts (pm : Grid PotentialMoves) : Option (Grid MoveConflict) :=
  ofoldl (recordMove pm) (Grid.build pm.width pm.height fun _ _ => MoveConflict.new) pm.coords

/-- Rust max_by_key returns the last maximal element; argmaxLast returns
its index, 0 on an empty list (never hit: the caller checks the list has
at least two entries). -/
def argmaxLast (score : ℤ × ℤ → ℚ) (l : List (ℤ × ℤ)) : ℕ :=
  (l.enum.foldl
    (fun best iv =>
      match best with
      | none => some (iv.1, score iv.2)
      | some bv => if bv.2 ≤ score iv.2 then some (iv.1, score iv.2) else best)
    none).elim 0 Prod.fst

/-- The loser pops of resolve_conflicts: every remaining candidate of
the conflict cell advances its preference cursor. -/
def popLosers (pm : Grid PotentialMoves) (cands : List (ℤ × ℤ)) :
    Option (Grid PotentialMoves) :=
  ofoldl
    (fun pmAcc s =>
      match pmAcc.get s.1 s.2 with
      | none => none
      | some p => pmAcc.set s.1 s.2 p.pop)
    pm cands

/-- One destination step of resolve_conflicts: when the cell holds two
or more proposers, the proposer with the greatest position_score keeps
the destination (swap_remove), every other proposer pops, and the
found flag is set. -/
def resolveCell (scorer : PairwiseTileScorer) (config : Config)
    (st : Grid MoveConflict × Grid PotentialMoves × Bool) (c : ℕ × ℕ) :
    Option (Grid MoveConflict × Grid PotentialMoves × Bool) :=
  match st.1.get (c.1 : ℤ) (c.2 : ℤ) with
  | none => none
  | some mc =>
    if mc.is_in_conflict then
      let wi := argmaxLast
        (fun s => scorer.position_score config s.1 s.2 (c.1 : ℤ) (c.2 : ℤ)) mc.candidates
      let mc2 := mc.swap_remove wi
      match st.1.set (c.1 : ℤ) (c.2 : ℤ) mc2 with
      | none => none
      | some conf2 =>
        match popLosers st.2.1 mc2.candidates with
        | none => none
        | some pm2 => some (conf2, pm2, true)
    else some st

/-- resolve_conflicts: scan every destination in row-major order. -/
def resolveConflicts (scorer : PairwiseTileScorer) (config : Config)
    (conflicts : Grid MoveConflict) (pm : Grid PotentialMoves) :
    Option (Grid MoveConflict × Grid PotentialMoves × Bool) :=
  ofoldl (resolveCell scorer config) (conflicts, pm, false) conflicts.coords

/-- One iteration of the fixed-point loop of reduce_potential_moves. -/
def oneIteration (scorer : PairwiseTileScorer) (config : Config) (pm : Grid PotentialMoves) :
    Option (Grid MoveConflict × Grid PotentialMoves × Bool) :=
  Option.bind (buildConflicts pm) fun conflicts => resolveConflicts scorer config conflicts pm

/-- Result of the fixed-point loop: a panic, fuel exhaustion (proved
unreachable), or the final conflict grid and preference grid. -/
inductive LoopRes where
  | panicked : LoopRes
  | fuelOut : LoopRes
  | finished : Grid MoveConflict → Grid PotentialMoves → LoopRes
  deriving DecidableEq, Repr

/-- The fixed-point loop of reduce_potential_moves, with explicit fuel;
the loop ends when an iteration finds no conflict. -/
def runLoop (scorer : PairwiseTileScorer) (config : Config) :
    ℕ → Grid PotentialMoves → LoopRes
  | 0, _ => .fuelOut
  | fuel + 1, pm =>
    match oneIteration scorer config pm with
    | none => .panicked
    | some (conflicts, pm2, found) =>
      if found then runLoop scorer config fuel pm2 else .finished conflicts pm2

/-- The termination measure: total remaining preference-list length over
all cells. -/
def pmMeasure (pm : Grid PotentialMoves) : ℕ :=
  (pm.cells.map fun p => p.preferences.length - p.current).sum

/-- The squared euclidean distance used by the orphan spatial search. -/
def squaredEuclidean (a b : ℤ × ℤ) : ℤ := (a.1 - b.1) ^ 2 + (a.2 - b.2) ^ 2

/-- Modelled from the spec: the kiddo k-d tree over free slots is an
external crate; the spec asks for a nearest-neighbor structure queried
by squared euclidean distance with assigned slots removed.  nearestIdx
returns the index of a slot at minimal squared distance (the first such
slot in list order; the tree's tie order is unspecified), or none on an
empty structure, where the crate's nearest_one panics. -/
def nearestIdx (slots : List (ℤ × ℤ)) (o : ℤ × ℤ) : Option ℕ :=
  (slots.enum.foldl
    (fun best is =>
      match best with
      | none => some (is.1, squaredEuclidean is.2 o)
      | some bv =>
        if squaredEuclidean is.2 o < bv.2 then some (is.1, squaredEuclidean is.2 o) else best)
    none).map Prod.fst

/-- One orphan step of resolve_orphans: find the nearest free slot,
resolve it to this orphan, and remove it from the structure. -/
def assignOrphan (st : Grid MoveConflict × List (ℤ × ℤ)) (o : ℤ × ℤ) :
    Option (Grid MoveConflict × List (ℤ × ℤ)) :=
  match nearestIdx st.2 o with
  | none => none
  | some i =>
    match st.2.get? i with
    | none => none
    | some s =>
      match st.1.set s.1 s.2 (MoveConflict.resolve o) with
      | none => none
      | some res2 => some (res2, st.2.eraseIdx i)

/-- The orphan sources: cells whose preference list is exhausted, in
row-major order. -/
def orphanCoords (pm : Grid PotentialMoves) : Option (List (ℤ × ℤ)) :=
  Option.map (fun l => (l.filter fun cp => cp.2.cur.isNone).map Prod.fst)
    (omap (fun c => Option.map (fun p => (((c.1 : ℤ), (c.2 : ℤ)), p)) (pm.get c.1 c.2))
      pm.coords)

/-- The free slots: cells of the resolution grid that no proposer
claimed, in row-major order (the k-d tree insertion order). -/
def slotCoords (res : Grid MoveConflict) : Option (List (ℤ × ℤ)) :=
  Option.map (fun l => (l.filter fun cp => decide cp.2.is_empty).map Prod.fst)
    (omap (fun c => Option.map (fun p => (((c.1 : ℤ), (c.2 : ℤ)), p)) (res.get c.1 c.2))
      res.coords)

/-- resolve_orphans of src/simulation/conflict.rs. -/
def resolve_orphans (res : Grid MoveConflict) (pm : Grid PotentialMoves) :
    Option (Grid MoveConflict) :=
  Option.bind (orphanCoords pm) fun orphans =>
    Option.bind (slotCoords res) fun slots =>
      Option.map Prod.fst (ofoldl assignOrphan (res, slots) orphans)

/-- reduce_potential_moves of src/simulation/conflict.rs.  The source
loop is unbounded; here it runs with fuel pmMeasure + 1, which the
termination theorem proves is never exhausted, so the bounded loop
agrees with the source wherever the source returns.  The final grid
build panics (none) at any unresolved cell. -/
def reduce_potential_moves (scorer : PairwiseTileScorer) (config : Config)
    (pm : Grid PotentialMoves) : Option (Grid (ℤ × ℤ)) :=
  match runLoop scorer config (pmMeasure pm + 1) pm with
  | .panicked => none
  | .fuelOut => none
  | .finished resolutions pm2 =>
    Option.bind (resolve_orphans resolutions pm2) fun res2 =>
      Option.bind
        (omap (fun c =>
          Option.bind (res2.get (c.1 : ℤ) (c.2 : ℤ)) fun r =>
            if r.is_resolved then r.candidates.head? else none) pm.coords)
        fun cells => some ⟨pm.width, pm.height, cells⟩

/-! ## Infrastructure lemmas for the conflict engine -/

theorem rowmajor_inj_nat (w x y x2 y2 : ℕ) (hx : x < w) (hx2 : x2 < w)
    (h : x + w * y = x2 + w * y2) : x = x2 ∧ y = y2 := by
  have hw : (0 : ℤ) < (w : ℤ) := by
    have : 0 < w := by omega
    exact_mod_cast this
  have hz : (y : ℤ) * (w : ℤ) + (x : ℤ) = (y2 : ℤ) * (w : ℤ) + (x2 : ℤ) := by
    have : ((x + w * y : ℕ) : ℤ) = ((x2 + w * y2 : ℕ) : ℤ) := by exact_mod_cast h
    push_cast at this
    linarith
  have := rowmajor_inj (w : ℤ) (y : ℤ) (x : ℤ) (y2 : ℤ) (x2 : ℤ) hw
    (by positivity) (by exact_mod_cast hx) (by positivity) (by exact_mod_cast hx2) hz
  constructor
  · exact_mod_cast this.2
  · exact_mod_cast this.1

/-- In-bounds predicate for signed grid coordinates. -/
def Grid.inB {T : Type} (g : Grid T) (x y : ℤ) : Prop :=
  0 ≤ x ∧ 0 ≤ y ∧ x < (g.width : ℤ) ∧ y < (g.height : ℤ)

theorem Grid.get_eq_some_iff_aux {T : Type} (g : Grid T) (x y : ℤ) (t : T)
    (h : g.get x y = some t) : g.inB x y := by
  unfold Grid.get at h
  by_cases hb : x < 0 ∨ y < 0 ∨ (g.width : ℤ) ≤ x ∨ (g.height : ℤ) ≤ y
  · rw [if_pos hb] at h
    exact absurd h (by simp)
  · push_neg at hb
    exact ⟨hb.1, hb.2.1, hb.2.2.1, hb.2.2.2⟩

theorem Grid.get_some_of_inB {T : Type} (g : Grid T) (hg : g.wf) (x y : ℤ)
    (h : g.inB x y) : ∃ t, g.get x y = some t :=
  g.get_isSome_of_wf hg x y h.1 h.2.1 h.2.2.1 h.2.2.2

theorem Grid.get_idx {T : Type} (g : Grid T) (x y : ℤ) (h : g.inB x y) :
    g.get x y = g.cells.get? (x.toNat + g.width * y.toNat) := by
  unfold Grid.get
  rw [if_neg (by push_neg; exact ⟨h.1, h.2.1, h.2.2.1, h.2.2.2⟩)]

theorem Grid.idx_inj {T : Type} (g : Grid T) (x y x2 y2 : ℤ) (h : g.inB x y)
    (h2 : g.inB x2 y2) (he : x.toNat + g.width * y.toNat = x2.toNat + g.width * y2.toNat) :
    x = x2 ∧ y = y2 := by
  obtain ⟨ha, hb, hc, hd⟩ := h
  obtain ⟨ha2, hb2, hc2, hd2⟩ := h2
  obtain ⟨h1, h22⟩ := rowmajor_inj_nat g.width x.toNat y.toNat x2.toNat y2.toNat
    (by omega) (by omega) he
  omega

/-- Characterization of a successful Grid write, from an index bound. -/
theorem Grid.set_spec_idx {T : Type} (g : Grid T) (x y : ℤ) (t : T)
    (h : g.inB x y) (hidx : x.toNat + g.width * y.toNat < g.cells.length) :
    ∃ g2, g.set x y t = some g2 ∧ g2.width = g.width ∧ g2.height = g.height ∧
      g2.cells.length = g.cells.length ∧
      g2.get x y = some t ∧
      (∀ x2 y2 : ℤ, ¬(x2 = x ∧ y2 = y) → g2.get x2 y2 = g.get x2 y2) ∧
      g2.cells = g.cells.set (x.toNat + g.width * y.toNat) t := by
  have hset : g.set x y t = some ⟨g.width, g.height,
      g.cells.set (x.toNat + g.width * y.toNat) t⟩ := by
    unfold Grid.set
    rw [if_neg (by push_neg; exact ⟨h.1, h.2.1, h.2.2.1, h.2.2.2⟩), if_pos hidx]
  refine ⟨_, hset, rfl, rfl, by simp, ?_, ?_, rfl⟩
  · rw [Grid.get_idx (⟨g.width, g.height, g.cells.set (x.toNat + g.width * y.toNat) t⟩ :
      Grid T) x y h]
    simp only
    exact List.get?_set_eq_of_lt _ hidx
  · intro x2 y2 hne
    by_cases hin : g.inB x2 y2
    · rw [Grid.get_idx (⟨g.width, g.height, g.cells.set (x.toNat + g.width * y.toNat) t⟩ :
        Grid T) x2 y2 hin, Grid.get_idx g x2 y2 hin]
      simp only
      refine List.get?_set_ne _ _ ?_
      intro hcontra
      obtain ⟨hh1, hh2⟩ := Grid.idx_inj g x y x2 y2 h hin hcontra
      exact hne ⟨hh1.symm, hh2.symm⟩
    · unfold Grid.inB at hin
      unfold Grid.get
      simp only
      rw [if_pos (by omega), if_pos (by omega)]

/-- Characterization of a successful Grid write on a well-formed grid. -/
theorem Grid.set_spec {T : Type} (g : Grid T) (hg : g.wf) (x y : ℤ) (t : T)
    (h : g.inB x y) :
    ∃ g2, g.set x y t = some g2 ∧ g2.width = g.width ∧ g2.height = g.height ∧ g2.wf ∧
      g2.get x y = some t ∧
      (∀ x2 y2 : ℤ, ¬(x2 = x ∧ y2 = y) → g2.get x2 y2 = g.get x2 y2) ∧
      g2.cells = g.cells.set (x.toNat + g.width * y.toNat) t := by
  have hidx : x.toNat + g.width * y.toNat < g.cells.length := by
    rw [hg]
    obtain ⟨h1, h2, h3, h4⟩ := h
    have hx1 : x.toNat < g.width := by omega
    have hy1 : y.toNat < g.height := by omega
    calc x.toNat + g.width * y.toNat < g.width + g.width * y.toNat := by omega
    _ = g.width * (y.toNat + 1) := by ring
    _ ≤ g.width * g.height := Nat.mul_le_mul_left _ (by omega)
  obtain ⟨g2, hset, hw, hh, hlen, hgs, hgo, hcells⟩ := Grid.set_spec_idx g x y t h hidx
  refine ⟨g2, hset, hw, hh, ?_, hgs, hgo, hcells⟩
  unfold Grid.wf
  rw [hlen, hw, hh, hg]

theorem sum_set_nat (l : List ℕ) :
    ∀ (i : ℕ) (v : ℕ) (hi : i < l.length), (l.set i v).sum + l.get ⟨i, hi⟩ = l.sum + v := by
  induction l with
  | nil => intro i v hi; simp at hi
  | cons a as ih =>
    intro i v hi
    cases i with
    | zero => simp [List.set]; omega
    | succ n =>
      simp only [List.set, List.sum_cons, List.get]
      have := ih n v (by simpa using hi)
      omega

/-- The preference lists of two grids agree cell by cell (only the
cursors may differ). -/
def prefsEq (pm2 pm : Grid PotentialMoves) : Prop :=
  pm2.width = pm.width ∧ pm2.height = pm.height ∧ pm2.cells.length = pm.cells.length ∧
  ∀ x y : ℤ, Option.map PotentialMoves.preferences (pm2.get x y) =
    Option.map PotentialMoves.preferences (pm.get x y)

theorem prefsEq_refl (pm : Grid PotentialMoves) : prefsEq pm pm :=
  ⟨rfl, rfl, rfl, fun _ _ => rfl⟩

theorem prefsEq_trans {pm3 pm2 pm : Grid PotentialMoves} (h1 : prefsEq pm3 pm2)
    (h2 : prefsEq pm2 pm) : prefsEq pm3 pm :=
  ⟨h1.1.trans h2.1, h1.2.1.trans h2.2.1, h1.2.2.1.trans h2.2.2.1,
    fun x y => (h1.2.2.2 x y).trans (h2.2.2.2 x y)⟩

/-- Effect of one pop on the measure and on everything else. -/
theorem pop_set_spec (pm : Grid PotentialMoves) (x y : ℤ) (p : PotentialMoves)
    (hget : pm.get x y = some p) (hcur : p.current < p.preferences.length) :
    ∃ pm2, pm.set x y p.pop = some pm2 ∧ pmMeasure pm2 + 1 = pmMeasure pm ∧
      prefsEq pm2 pm ∧ pm2.get x y = some p.pop ∧
      (∀ x2 y2 : ℤ, ¬(x2 = x ∧ y2 = y) → pm2.get x2 y2 = pm.get x2 y2) := by
  have hin : pm.inB x y := Grid.get_eq_some_iff_aux pm x y p hget
  have hidx : pm.cells.get? (x.toNat + pm.width * y.toNat) = some p := by
    rw [← Grid.get_idx pm x y hin]; exact hget
  have hidxlt : x.toNat + pm.width * y.toNat < pm.cells.length := by
    by_contra hc
    rw [List.get?_eq_none.mpr (by omega)] at hidx
    exact absurd hidx (by simp)
  obtain ⟨pm2, hset, hw, hh, hlen, hgets, hgeto, hcells⟩ :=
    Grid.set_spec_idx pm x y p.pop hin hidxlt
  have hgetp : pm.cells.get ⟨x.toNat + pm.width * y.toNat, hidxlt⟩ = p := by
    have := List.get?_eq_get hidxlt
    rw [this] at hidx
    exact Option.some.injEq _ _ ▸ (by simpa using hidx)
  refine ⟨pm2, hset, ?_, ?_, hgets, hgeto⟩
  · unfold pmMeasure
    rw [hcells, List.map_set]
    have hmlt : x.toNat + pm.width * y.toNat <
        (pm.cells.map fun p => p.preferences.length - p.current).length := by
      simpa using hidxlt
    have := sum_set_nat (pm.cells.map fun p => p.preferences.length - p.current)
      (x.toNat + pm.width * y.toNat) (p.pop.preferences.length - p.pop.current) hmlt
    rw [List.get_map] at this
    rw [hgetp] at this
    unfold PotentialMoves.pop at this ⊢
    simp only at this ⊢
    omega
  · refine ⟨hw, hh, hlen, ?_⟩
    intro x2 y2
    by_cases he : x2 = x ∧ y2 = y
    · obtain ⟨he1, he2⟩ := he
      subst he1
      subst he2
      rw [hgets, hget]
      rfl
    · rw [hgeto x2 y2 he]

/-- Characterization of MoveConflict::swap_remove at a valid index. -/
theorem swap_remove_spec (l : List (ℤ × ℤ)) (i : ℕ) (hi : i < l.length) :
    (MoveConflict.swap_remove ⟨l⟩ i).candidates.Perm (l.eraseIdx i) ∧
    (MoveConflict.swap_remove ⟨l⟩ i).candidates.length = l.length - 1 ∧
    (∀ x ∈ (MoveConflict.swap_remove ⟨l⟩ i).candidates, x ∈ l) ∧
    (l.Nodup → (MoveConflict.swap_remove ⟨l⟩ i).candidates.Nodup) := by
  have hne : l ≠ [] := by
    intro hcontra
    rw [hcontra] at hi
    simp at hi
  obtain ⟨last, hlast⟩ : ∃ last, l.getLast? = some last :=
    ⟨l.getLast hne, List.getLast?_eq_getLast l hne⟩
  have hperm : (MoveConflict.swap_remove ⟨l⟩ i).candidates.Perm (l.eraseIdx i) := by
    unfold MoveConflict.swap_remove
    rw [hlast]
    simp only
    have hsetd : l.set i last = l.take i ++ last :: l.drop (i + 1) := by
      rw [List.set_eq_take_append_cons_drop, if_pos hi]
    rcases Nat.lt_or_ge i (l.length - 1) with hilt | hieq
    · have hdne : l.drop (i + 1) ≠ [] := by
        intro hcontra
        have := congrArg List.length hcontra
        simp only [List.length_drop, List.length_nil] at this
        omega
      have hdlast : (l.drop (i + 1)).getLast hdne = last := by
        have h1 : (l.drop (i + 1)).getLast? = l.getLast? := by
          rw [List.getLast?_eq_get? , List.getLast?_eq_get?]
          simp only [List.length_drop]
          rw [List.get?_drop]
          congr 1
          omega
        rw [List.getLast?_eq_getLast _ hdne, hlast] at h1
        exact Option.some.injEq _ _ ▸ (by simpa using h1)
      have hdecomp : l.drop (i + 1) = (l.drop (i + 1)).dropLast ++ [last] := by
        conv_lhs => rw [← List.dropLast_append_getLast hdne]
        rw [hdlast]
      rw [hsetd]
      rw [List.dropLast_append_of_ne_nil _ (by simp)]
      rw [List.dropLast_cons_of_ne_nil hdne]
      rw [List.eraseIdx_eq_take_drop_succ]
      conv_rhs => rw [hdecomp]
      refine List.Perm.append_left _ ?_
      have := List.perm_append_singleton last (l.drop (i + 1)).dropLast
      exact this.symm
    · have hieq2 : i = l.length - 1 := by omega
      have hdnil : l.drop (i + 1) = [] := by
        apply List.drop_eq_nil_of_le
        omega
      rw [hsetd, hdnil]
      have : (l.take i ++ [last]).dropLast = l.take i := by
        rw [List.dropLast_concat]
      rw [this, List.eraseIdx_eq_take_drop_succ, hdnil, List.append_nil]
  refine ⟨hperm, ?_, ?_, ?_⟩
  · rw [hperm.length_eq]
    have := List.length_eraseIdx_add_one hi
    omega
  · intro x hx
    have := hperm.mem_iff.mp hx
    exact List.mem_of_mem_eraseIdx this
  · intro hnd
    exact hperm.nodup_iff.mpr (hnd.eraseIdx i)

theorem argmaxLast_lt (score : ℤ × ℤ → ℚ) (l : List (ℤ × ℤ)) (hl : l ≠ []) :
    argmaxLast score l < l.length := by
  unfold argmaxLast
  have key : ∀ (pairs : List (ℕ × (ℤ × ℤ))) (b0 : Option (ℕ × ℚ)),
      (∀ p ∈ pairs, p.1 < l.length) → (∀ i q, b0 = some (i, q) → i < l.length) →
      (pairs = [] → b0 ≠ none) →
      ∀ i q, pairs.foldl
        (fun best iv =>
          match best with
          | none => some (iv.1, score iv.2)
          | some bv => if bv.2 ≤ score iv.2 then some (iv.1, score iv.2) else best)
        b0 = some (i, q) → i < l.length := by
    intro pairs
    induction pairs with
    | nil =>
      intro b0 hall hb0 hne i q hres
      exact hb0 i q hres
    | cons p ps ih =>
      intro b0 hall hb0 hne i q hres
      rw [List.foldl_cons] at hres
      refine ih _ (fun p2 hp2 => hall p2 (by simp [hp2])) ?_ ?_ i q hres
      · intro i2 q2 hsome
        cases b0 with
        | none =>
          simp only at hsome
          have := hall p (by simp)
          simp only [Option.some.injEq, Prod.mk.injEq] at hsome
          omega
        | some bv =>
          simp only at hsome
          split_ifs at hsome
          · simp only [Option.some.injEq, Prod.mk.injEq] at hsome
            have := hall p (by simp)
            omega
          · exact hb0 i2 q2 hsome
      · intro _
        cases b0 with
        | none => simp
        | some bv =>
          simp only
          split_ifs <;> simp
  have hfold : ∀ i q, l.enum.foldl
      (fun best iv =>
        match best with
        | none => some (iv.1, score iv.2)
        | some bv => if bv.2 ≤ score iv.2 then some (iv.1, score iv.2) else best)
      none = some (i, q) → i < l.length := by
    refine key l.enum none ?_ (by simp) ?_
    · intro p hp
      have := List.mem_enum_iff_get?.mp hp
      by_contra hc
      rw [List.get?_eq_none.mpr (by omega)] at this
      exact absurd this (by simp)
    · intro henum
      exact absurd (by simpa using congrArg List.length henum) (by simpa using hl)
  cases hres : l.enum.foldl
      (fun best iv =>
        match best with
        | none => some (iv.1, score iv.2)
        | some bv => if bv.2 ≤ score iv.2 then some (iv.1, score iv.2) else best)
      none with
  | none =>
    exfalso
    have hlen : l.enum ≠ [] := by
      intro hc
      exact hl (by simpa using congrArg List.length hc)
    cases hE : l.enum with
    | nil => exact hlen hE
    | cons p ps =>
      rw [hE, List.foldl_cons] at hres
      have : ∀ (ps2 : List (ℕ × (ℤ × ℤ))) (b : ℕ × ℚ), ps2.foldl
          (fun best iv =>
            match best with
            | none => some (iv.1, score iv.2)
            | some bv => if bv.2 ≤ score iv.2 then some (iv.1, score iv.2) else best)
          (some b) ≠ none := by
        intro ps2
        induction ps2 with
        | nil => intro b; simp
        | cons p2 ps3 ih2 =>
          intro b
          rw [List.foldl_cons]
          simp only
          split_ifs <;> apply ih2
      exact this ps _ hres
  | some iv =>
    obtain ⟨i, q⟩ := iv
    have := hfold i q hres
    simpa [hres] using this

/-- The sources whose current proposal is the destination d, in
row-major order: what the conflict-grid build records at d. -/
def proposersOf (pm : Grid PotentialMoves) (d : ℤ × ℤ) : List (ℤ × ℤ) :=
  pm.coords.filterMap fun c =>
    match pm.get (c.1 : ℤ) (c.2 : ℤ) with
    | none => none
    | some p => if p.cur = some d then some ((c.1 : ℤ), (c.2 : ℤ)) else none

theorem coords_nodup {T : Type} (g : Grid T) : g.coords.Nodup := by
  unfold Grid.coords
  rw [List.nodup_flatMap]
  constructor
  · intro y hy
    exact (List.nodup_range _).map (fun a b hab => by simpa using hab)
  · refine (List.pairwise_lt_range g.height).imp ?_
    intro y1 y2 hlt
    simp only [Function.onFun]
    intro z hz1 hz2
    simp only [List.mem_map, List.mem_range] at hz1 hz2
    obtain ⟨x1, _, he1⟩ := hz1
    obtain ⟨x2, _, he2⟩ := hz2
    rw [← he1] at he2
    have := (Prod.mk.injEq _ _ _ _).mp he2
    omega

theorem proposersOf_nodup (pm : Grid PotentialMoves) (d : ℤ × ℤ) :
    (proposersOf pm d).Nodup := by
  unfold proposersOf
  refine List.Nodup.filterMap ?_ (coords_nodup pm)
  intro c1 c2 b h1 h2
  rw [Option.mem_def] at h1 h2
  have hc1 : b = ((c1.1 : ℤ), (c1.2 : ℤ)) := by
    cases hg : pm.get (c1.1 : ℤ) (c1.2 : ℤ) with
    | none => rw [hg] at h1; exact absurd h1 (by simp)
    | some p =>
      rw [hg] at h1
      simp only at h1
      split_ifs at h1
      simpa using h1.symm
  have hc2 : b = ((c2.1 : ℤ), (c2.2 : ℤ)) := by
    cases hg : pm.get (c2.1 : ℤ) (c2.2 : ℤ) with
    | none => rw [hg] at h2; exact absurd h2 (by simp)
    | some p =>
      rw [hg] at h2
      simp only at h2
      split_ifs at h2
      simpa using h2.symm
  rw [hc1] at hc2
  obtain ⟨ha, hb⟩ := (Prod.mk.injEq _ _ _ _).mp hc2
  exact Prod.ext (by omega) (by omega)

theorem proposersOf_mem (pm : Grid PotentialMoves) (d : ℤ × ℤ) (s : ℤ × ℤ)
    (hs : s ∈ proposersOf pm d) :
    ∃ p, pm.get s.1 s.2 = some p ∧ p.cur = some d := by
  unfold proposersOf at hs
  rw [List.mem_filterMap] at hs
  obtain ⟨c, _, hc⟩ := hs
  cases hg : pm.get (c.1 : ℤ) (c.2 : ℤ) with
  | none => rw [hg] at hc; exact absurd hc (by simp)
  | some p =>
    rw [hg] at hc
    simp only at hc
    split_ifs at hc with hcur
    simp only [Option.some.injEq] at hc
    rw [← hc]
    exact ⟨p, hg, hcur⟩

/-- The sources among a coordinate prefix whose current proposal is d. -/
def proposersAmong (pm : Grid PotentialMoves) (todo : List (ℕ × ℕ)) (d : ℤ × ℤ) :
    List (ℤ × ℤ) :=
  todo.filterMap fun c =>
    match pm.get (c.1 : ℤ) (c.2 : ℤ) with
    | none => none
    | some p => if p.cur = some d then some ((c.1 : ℤ), (c.2 : ℤ)) else none

theorem proposersOf_eq_among (pm : Grid PotentialMoves) (d : ℤ × ℤ) :
    proposersOf pm d = proposersAmong pm pm.coords d := rfl

theorem proposersAmong_cons (pm : Grid PotentialMoves) (c : ℕ × ℕ) (rest : List (ℕ × ℕ))
    (d : ℤ × ℤ) (p : PotentialMoves) (hp : pm.get (c.1 : ℤ) (c.2 : ℤ) = some p) :
    proposersAmong pm (c :: rest) d =
      if p.cur = some d then ((c.1 : ℤ), (c.2 : ℤ)) :: proposersAmong pm rest d
      else proposersAmong pm rest d := by
  unfold proposersAmong
  rw [List.filterMap_cons, hp]
  simp only
  split_ifs <;> rfl

theorem proposersAmong_cons_le (pm : Grid PotentialMoves) (c : ℕ × ℕ)
    (rest : List (ℕ × ℕ)) (d : ℤ × ℤ) :
    (proposersAmong pm rest d).length ≤ (proposersAmong pm (c :: rest) d).length := by
  unfold proposersAmong
  rw [List.filterMap_cons]
  cases pm.get (c.1 : ℤ) (c.2 : ℤ) with
  | none => exact le_refl _
  | some p =>
    simp only
    split_ifs
    · simp
    · exact le_refl _

theorem Grid.build_get_z {T : Type} (w h : ℕ) (f : ℕ → ℕ → T) (x y : ℤ)
    (hin : (Grid.build w h f).inB x y) :
    (Grid.build w h f).get x y = some (f x.toNat y.toNat) := by
  obtain ⟨h1, h2, h3, h4⟩ := hin
  have h3b : x < (w : ℤ) := h3
  have h4b : y < (h : ℤ) := h4
  have hx : x = (x.toNat : ℤ) := by omega
  have hy : y = (y.toNat : ℤ) := by omega
  rw [hx, hy]
  exact Grid.build_get w h f x.toNat y.toNat (by omega) (by omega)

theorem recordFold_sound (pm : Grid PotentialMoves) :
    ∀ (todo : List (ℕ × ℕ)) (conflicts res : Grid MoveConflict),
      ofoldl (recordMove pm) conflicts todo = some res →
      conflicts.wf → conflicts.width = pm.width → conflicts.height = pm.height →
      res.wf ∧ res.width = pm.width ∧ res.height = pm.height ∧
      (∀ dx dy : ℤ, ∀ mc, conflicts.get dx dy = some mc →
        ∃ mc2, res.get dx dy = some mc2 ∧
          mc2.candidates = mc.candidates ++ proposersAmong pm todo (dx, dy)) := by
  intro todo
  induction todo with
  | nil =>
    intro conflicts res hfold hwf hw hh
    unfold ofoldl at hfold
    simp only [Option.some.injEq] at hfold
    subst hfold
    refine ⟨hwf, hw, hh, ?_⟩
    intro dx dy mc hget
    exact ⟨mc, hget, by unfold proposersAmong; simp⟩
  | cons c rest ih =>
    intro conflicts res hfold hwf hw hh
    unfold ofoldl at hfold
    cases hrm : recordMove pm conflicts c with
    | none => rw [hrm] at hfold; simp at hfold
    | some conflicts2 =>
      rw [hrm] at hfold
      simp only at hfold
      unfold recordMove at hrm
      cases hp : pm.get (c.1 : ℤ) (c.2 : ℤ) with
      | none => rw [hp] at hrm; simp at hrm
      | some p =>
        rw [hp] at hrm
        simp only at hrm
        cases hcur : p.cur with
        | none =>
          rw [hcur] at hrm
          simp only [Option.some.injEq] at hrm
          subst hrm
          obtain ⟨hwf2, hw2, hh2, hcells2⟩ := ih conflicts res hfold hwf hw hh
          refine ⟨hwf2, hw2, hh2, ?_⟩
          intro dx dy mc hget
          obtain ⟨mc2, hget2, hcand2⟩ := hcells2 dx dy mc hget
          refine ⟨mc2, hget2, ?_⟩
          rw [hcand2, proposersAmong_cons pm c rest (dx, dy) p hp, hcur]
          simp
        | some dest =>
          obtain ⟨ddx, ddy⟩ := dest
          rw [hcur] at hrm
          simp only at hrm
          cases hgd : conflicts.get ddx ddy with
          | none => rw [hgd] at hrm; simp at hrm
          | some mc0 =>
            rw [hgd] at hrm
            simp only at hrm
            cases hpush : mc0.push_move ((c.1 : ℤ), (c.2 : ℤ)) with
            | none => rw [hpush] at hrm; simp at hrm
            | some mc1 =>
              rw [hpush] at hrm
              simp only at hrm
              have hmc1 : mc1.candidates = mc0.candidates ++ [((c.1 : ℤ), (c.2 : ℤ))] := by
                unfold MoveConflict.push_move at hpush
                split_ifs at hpush
                simp only [Option.some.injEq] at hpush
                rw [← hpush]
              have hin : conflicts.inB ddx ddy :=
                Grid.get_eq_some_iff_aux conflicts ddx ddy mc0 hgd
              obtain ⟨g2, hset, hgw, hgh, hgwf, hgets, hgeto, _⟩ :=
                Grid.set_spec conflicts hwf ddx ddy mc1 hin
              rw [hset] at hrm
              simp only [Option.some.injEq] at hrm
              subst hrm
              obtain ⟨hwf2, hw2, hh2, hcells2⟩ := ih g2 res hfold
                hgwf (by rw [hgw, hw]) (by rw [hgh, hh])
              refine ⟨hwf2, hw2, hh2, ?_⟩
              intro dx dy mc hget
              by_cases hd : dx = ddx ∧ dy = ddy
              · obtain ⟨rfl, rfl⟩ := hd
                have hmc : mc = mc0 := by
                  rw [hget] at hgd
                  simpa using hgd
                subst hmc
                obtain ⟨mc2, hget2, hcand2⟩ := hcells2 dx dy mc1 hgets
                refine ⟨mc2, hget2, ?_⟩
                rw [hcand2, hmc1, proposersAmong_cons pm c rest (dx, dy) p hp, hcur,
                  if_pos rfl, List.append_assoc]
                rfl
              · have hget2eq : g2.get dx dy = conflicts.get dx dy := hgeto dx dy hd
                rw [hget] at hget2eq
                obtain ⟨mc2, hget2, hcand2⟩ := hcells2 dx dy mc hget2eq
                refine ⟨mc2, hget2, ?_⟩
                rw [hcand2, proposersAmong_cons pm c rest (dx, dy) p hp, hcur]
                have hne : ¬ (some ((ddx : ℤ), (ddy : ℤ)) = some ((dx : ℤ), (dy : ℤ))) := by
                  intro hcontra
                  simp only [Option.some.injEq, Prod.mk.injEq] at hcontra
                  exact hd ⟨hcontra.1.symm, hcontra.2.symm⟩
                rw [if_neg hne]

theorem recordFold_complete (pm : Grid PotentialMoves) :
    ∀ (todo : List (ℕ × ℕ)) (conflicts : Grid MoveConflict),
      conflicts.wf → conflicts.width = pm.width → conflicts.height = pm.height →
      (∀ c ∈ todo, ∃ p, pm.get (c.1 : ℤ) (c.2 : ℤ) = some p ∧
        (∀ d, p.cur = some d → conflicts.inB d.1 d.2)) →
      (∀ dx dy : ℤ, ∀ mc, conflicts.get dx dy = some mc →
        mc.candidates.length + (proposersAmong pm todo (dx, dy)).length ≤ 25) →
      ∃ res, ofoldl (recordMove pm) conflicts todo = some res := by
  intro todo
  induction todo with
  | nil =>
    intro conflicts _ _ _ _ _
    exact ⟨conflicts, rfl⟩
  | cons c rest ih =>
    intro conflicts hwf hw hh hsrc hcount
    obtain ⟨p, hp, hdest⟩ := hsrc c (by simp)
    cases hcur : p.cur with
    | none =>
      obtain ⟨res, hres⟩ := ih conflicts hwf hw hh
        (fun c2 hc2 => hsrc c2 (by simp [hc2]))
        (fun dx dy mc hget => by
          have h1 := proposersAmong_cons_le pm c rest (dx, dy)
          have h2 := hcount dx dy mc hget
          omega)
      refine ⟨res, ?_⟩
      unfold ofoldl recordMove
      rw [hp]
      simp only
      rw [hcur]
      simp only
      exact hres
    | some dest =>
      obtain ⟨ddx, ddy⟩ := dest
      have hinb : conflicts.inB ddx ddy := hdest (ddx, ddy) hcur
      obtain ⟨mc0, hgd⟩ := conflicts.get_some_of_inB hwf ddx ddy hinb
      have hc := hcount ddx ddy mc0 hgd
      rw [proposersAmong_cons pm c rest (ddx, ddy) p hp, hcur, if_pos rfl] at hc
      simp only [List.length_cons] at hc
      have hlen : mc0.candidates.length < 25 := by omega
      have hpush : mc0.push_move ((c.1 : ℤ), (c.2 : ℤ)) =
          some ⟨mc0.candidates ++ [((c.1 : ℤ), (c.2 : ℤ))]⟩ := by
        unfold MoveConflict.push_move
        rw [if_pos hlen]
      obtain ⟨g2, hset, hgw, hgh, hgwf, hgets, hgeto, _⟩ :=
        Grid.set_spec conflicts hwf ddx ddy
          ⟨mc0.candidates ++ [((c.1 : ℤ), (c.2 : ℤ))]⟩ hinb
      obtain ⟨res, hres⟩ := ih g2 hgwf (hgw.trans hw) (hgh.trans hh)
        (fun c2 hc2 => by
          obtain ⟨p2, hp2, hd2⟩ := hsrc c2 (by simp [hc2])
          refine ⟨p2, hp2, fun d hd => ?_⟩
          have h3 := hd2 d hd
          unfold Grid.inB at h3 ⊢
          rw [hgw, hgh]
          exact h3)
        (fun dx dy mc hget => by
          by_cases hdxy : dx = ddx ∧ dy = ddy
          · obtain ⟨rfl, rfl⟩ := hdxy
            have hgets2 := hgets
            rw [hget] at hgets2
            simp only [Option.some.injEq] at hgets2
            rw [hgets2]
            simp only [List.length_append, List.length_singleton]
            omega
          · have hg2 : g2.get dx dy = conflicts.get dx dy := hgeto dx dy hdxy
            rw [hg2] at hget
            have hcc := hcount dx dy mc hget
            have hle := proposersAmong_cons_le pm c rest (dx, dy)
            omega)
      refine ⟨res, ?_⟩
      unfold ofoldl recordMove
      rw [hp]
      simp only
      rw [hcur]
      simp only
      rw [hgd]
      simp only
      rw [hpush]
      simp only
      rw [hset]
      simp only
      exact hres

/-- Every successful conflict-grid build records, at each in-bounds
destination, exactly the row-major list of sources currently proposing
that destination. -/
theorem buildConflicts_sound (pm : Grid PotentialMoves) (res : Grid MoveConflict)
    (h : buildConflicts pm = some res) :
    res.wf ∧ res.width = pm.width ∧ res.height = pm.height ∧
    (∀ dx dy : ℤ, 0 ≤ dx → 0 ≤ dy → dx < (pm.width : ℤ) → dy < (pm.height : ℤ) →
      res.get dx dy = some ⟨proposersOf pm (dx, dy)⟩) := by
  unfold buildConflicts at h
  obtain ⟨hwf, hw, hh, hcells⟩ := recordFold_sound pm pm.coords
    (Grid.build pm.width pm.height fun _ _ => MoveConflict.new) res h
    (Grid.build_wf _ _ _) rfl rfl
  refine ⟨hwf, hw, hh, ?_⟩
  intro dx dy h1 h2 h3 h4
  have hget0 : (Grid.build pm.width pm.height fun _ _ => MoveConflict.new).get dx dy =
      some MoveConflict.new := Grid.build_get_z _ _ _ dx dy ⟨h1, h2, h3, h4⟩
  obtain ⟨mc2, hget2, hcand2⟩ := hcells dx dy MoveConflict.new hget0
  rw [hget2]
  congr 1
  cases mc2 with
  | mk cand =>
    rw [proposersOf_eq_among]
    simp only [MoveConflict.new, List.nil_append] at hcand2
    rw [hcand2]

/-- When every source cell exists, every proposal is in bounds and no
destination has more than 25 proposers, the conflict-grid build
succeeds. -/
theorem buildConflicts_complete (pm : Grid PotentialMoves) (hwf : pm.wf)
    (hdest : ∀ c ∈ pm.coords, ∀ p, pm.get (c.1 : ℤ) (c.2 : ℤ) = some p →
      ∀ d, p.cur = some d → 0 ≤ d.1 ∧ 0 ≤ d.2 ∧ d.1 < (pm.width : ℤ) ∧ d.2 < (pm.height : ℤ))
    (hcount : ∀ dx dy : ℤ, (proposersOf pm (dx, dy)).length ≤ 25) :
    ∃ res, buildConflicts pm = some res := by
  unfold buildConflicts
  refine recordFold_complete pm pm.coords _ (Grid.build_wf _ _ _) rfl rfl ?_ ?_
  · intro c hc
    obtain ⟨hx, hy⟩ := coords_mem_bounds pm c hc
    obtain ⟨p, hp⟩ := pm.get_some_of_inB hwf (c.1 : ℤ) (c.2 : ℤ)
      ⟨by positivity, by positivity, by exact_mod_cast hx, by exact_mod_cast hy⟩
    exact ⟨p, hp, fun d hd => hdest c hc p hp d hd⟩
  · intro dx dy mc hget
    have hmc : mc = MoveConflict.new := by
      have hin := Grid.get_eq_some_iff_aux _ dx dy mc hget
      rw [Grid.build_get_z _ _ _ dx dy hin] at hget
      simpa using hget.symm
    rw [hmc]
    have := hcount dx dy
    rw [proposersOf_eq_among] at this
    unfold MoveConflict.new
    simpa using this

theorem cur_some_lt (p : PotentialMoves) (d : ℤ × ℤ) (h : p.cur = some d) :
    p.current < p.preferences.length := by
  unfold PotentialMoves.cur at h
  by_contra hc
  rw [List.get?_eq_none.mpr (by omega)] at h
  exact absurd h (by simp)

theorem mem_coords_iff {T : Type} (g : Grid T) (x y : ℕ) :
    (x, y) ∈ g.coords ↔ x < g.width ∧ y < g.height := by
  unfold Grid.coords
  simp only [List.mem_flatMap, List.mem_map, List.mem_range]
  constructor
  · rintro ⟨b, hb, a, ha, he⟩
    obtain ⟨he1, he2⟩ := (Prod.mk.injEq _ _ _ _).mp he
    omega
  · rintro ⟨hx, hy⟩
    exact ⟨y, hy, x, hx, rfl⟩

theorem popLosers_spec :
    ∀ (cands : List (ℤ × ℤ)) (pm : Grid PotentialMoves),
      cands.Nodup →
      (∀ s ∈ cands, ∃ p, pm.get s.1 s.2 = some p ∧ p.current < p.preferences.length) →
      ∃ pm2, popLosers pm cands = some pm2 ∧
        pmMeasure pm2 + cands.length = pmMeasure pm ∧
        prefsEq pm2 pm ∧
        (∀ x y : ℤ, ((x, y) ∉ cands) → pm2.get x y = pm.get x y) := by
  intro cands
  induction cands with
  | nil =>
    intro pm _ _
    exact ⟨pm, rfl, by simp, prefsEq_refl pm, fun _ _ _ => rfl⟩
  | cons s rest ih =>
    intro pm hnd hsrc
    obtain ⟨p, hp, hcur⟩ := hsrc s (by simp)
    obtain ⟨pm1, hset, hmeas1, hpe1, hgets, hgeto⟩ := pop_set_spec pm s.1 s.2 p hp hcur
    have hs_notin : s ∉ rest := by
      rw [List.nodup_cons] at hnd
      exact hnd.1
    obtain ⟨pm2, hfold, hmeas2, hpe2, huntouched⟩ := ih pm1 (by
        rw [List.nodup_cons] at hnd
        exact hnd.2)
      (fun s2 hs2 => by
        obtain ⟨p2, hp2, hcur2⟩ := hsrc s2 (by simp [hs2])
        refine ⟨p2, ?_, hcur2⟩
        rw [← hp2]
        refine hgeto s2.1 s2.2 ?_
        intro hcontra
        exact hs_notin (by
          have : s2 = s := Prod.ext hcontra.1 hcontra.2
          rw [← this]
          exact hs2))
    refine ⟨pm2, ?_, by simp only [List.length_cons]; omega,
      prefsEq_trans hpe2 hpe1, ?_⟩
    · unfold popLosers at hfold ⊢
      unfold ofoldl
      rw [hp]
      simp only
      rw [hset]
      simp only
      exact hfold
    · intro x y hxy
      rw [huntouched x y (by intro hc; exact hxy (by simp [hc]))]
      refine hgeto x y ?_
      intro hcontra
      refine hxy ?_
      have hxs : (x, y) = s := Prod.ext hcontra.1 hcontra.2
      rw [hxs]
      simp

theorem resolveFold_spec (scorer : PairwiseTileScorer) (config : Config)
    (pm0 : Grid PotentialMoves) (conflicts0 : Grid MoveConflict)
    (hchar : ∀ dx dy : ℤ, 0 ≤ dx → 0 ≤ dy → dx < (pm0.width : ℤ) → dy < (pm0.height : ℤ) →
      conflicts0.get dx dy = some ⟨proposersOf pm0 (dx, dy)⟩) :
    ∀ (todo : List (ℕ × ℕ)) (confAcc : Grid MoveConflict) (pmAcc : Grid PotentialMoves)
      (found : Bool),
      todo.Nodup →
      (∀ c ∈ todo, c.1 < pm0.width ∧ c.2 < pm0.height) →
      confAcc.wf → confAcc.width = pm0.width → confAcc.height = pm0.height →
      (∀ c ∈ todo, confAcc.get (c.1 : ℤ) (c.2 : ℤ) = conflicts0.get (c.1 : ℤ) (c.2 : ℤ)) →
      (∀ c ∈ todo, ∀ s ∈ proposersOf pm0 ((c.1 : ℤ), (c.2 : ℤ)),
        pmAcc.get s.1 s.2 = pm0.get s.1 s.2) →
      prefsEq pmAcc pm0 →
      ((found = false ∧ pmAcc = pm0 ∧ confAcc = conflicts0) ∨
        (found = true ∧ pmMeasure pmAcc < pmMeasure pm0)) →
      ∃ conf2 pm2 found2,
        ofoldl (resolveCell scorer config) (confAcc, pmAcc, found) todo =
          some (conf2, pm2, found2) ∧
        prefsEq pm2 pm0 ∧
        ((found2 = false ∧ found = false ∧ pm2 = pm0 ∧ conf2 = conflicts0 ∧
          (∀ c ∈ todo, (proposersOf pm0 ((c.1 : ℤ), (c.2 : ℤ))).length ≤ 1)) ∨
         (found2 = true ∧ pmMeasure pm2 < pmMeasure pm0)) := by
  intro todo
  induction todo with
  | nil =>
    intro confAcc pmAcc found _ _ _ _ _ _ _ hpe hstate
    refine ⟨confAcc, pmAcc, found, rfl, hpe, ?_⟩
    rcases hstate with ⟨hf, hpm, hcf⟩ | ⟨hf, hlt⟩
    · exact Or.inl ⟨hf, hf, hpm, hcf, by simp⟩
    · exact Or.inr ⟨hf, hlt⟩
  | cons c rest ih =>
    intro confAcc pmAcc found hnd hsub hcawf hcaw hcah hfresh hpmfresh hpe hstate
    obtain ⟨hcx, hcy⟩ := hsub c (by simp)
    have hcxz : ((c.1 : ℕ) : ℤ) < (pm0.width : ℤ) := by exact_mod_cast hcx
    have hcyz : ((c.2 : ℕ) : ℤ) < (pm0.height : ℤ) := by exact_mod_cast hcy
    have hgetc : confAcc.get (c.1 : ℤ) (c.2 : ℤ) =
        some ⟨proposersOf pm0 ((c.1 : ℤ), (c.2 : ℤ))⟩ := by
      rw [hfresh c (by simp)]
      exact hchar (c.1 : ℤ) (c.2 : ℤ) (by positivity) (by positivity) hcxz hcyz
    have hcnotin : c ∉ rest := (List.nodup_cons.mp hnd).1
    have hndrest : rest.Nodup := (List.nodup_cons.mp hnd).2
    by_cases hconf : 1 < (proposersOf pm0 ((c.1 : ℤ), (c.2 : ℤ))).length
    · -- a conflicted destination: resolve the winner, pop the losers
      set L := proposersOf pm0 ((c.1 : ℤ), (c.2 : ℤ)) with hLdef
      have hLne : L ≠ [] := by
        intro hcontra
        rw [hcontra] at hconf
        simp at hconf
      set wi := argmaxLast
        (fun s => scorer.position_score config s.1 s.2 (c.1 : ℤ) (c.2 : ℤ)) L with hwidef
      have hwilt : wi < L.length := argmaxLast_lt _ _ hLne
      obtain ⟨hperm, hlen2, hsubset, hnd2⟩ := swap_remove_spec L wi hwilt
      set mc2 := MoveConflict.swap_remove ⟨L⟩ wi with hmc2def
      have hnodup2 : mc2.candidates.Nodup := hnd2 (proposersOf_nodup pm0 _)
      have hinc : confAcc.inB (c.1 : ℤ) (c.2 : ℤ) := by
        refine ⟨by positivity, by positivity, ?_, ?_⟩
        · rw [hcaw]; exact hcxz
        · rw [hcah]; exact hcyz
      obtain ⟨conf1, hsetc, hcw1, hch1, hcwf1, hgets1, hgeto1, _⟩ :=
        Grid.set_spec confAcc hcawf (c.1 : ℤ) (c.2 : ℤ) mc2 hinc
      obtain ⟨pm1, hpop, hmeas, hpe1, huntouch⟩ := popLosers_spec mc2.candidates pmAcc hnodup2
        (fun s hs => by
          have hsL : s ∈ L := hsubset s hs
          obtain ⟨p, hp, hcur⟩ := proposersOf_mem pm0 _ s hsL
          refine ⟨p, ?_, cur_some_lt p _ hcur⟩
          rw [hpmfresh c (by simp) s hsL]
          exact hp)
      have hlen1 : 1 ≤ mc2.candidates.length := by
        rw [hlen2]
        omega
      have hmeaslt : pmMeasure pm1 < pmMeasure pmAcc := by omega
      have hmeaslt0 : pmMeasure pm1 < pmMeasure pm0 := by
        rcases hstate with ⟨_, hpme, _⟩ | ⟨_, hlt⟩
        · rw [hpme] at hmeaslt
          exact hmeaslt
        · omega
      have hstep : resolveCell scorer config (confAcc, pmAcc, found) c =
          some (conf1, pm1, true) := by
        unfold resolveCell
        simp only
        rw [hgetc]
        simp only
        rw [if_pos (show (⟨L⟩ : MoveConflict).is_in_conflict from hconf)]
        rw [hsetc]
        simp only
        rw [hpop]
      obtain ⟨conf2, pm2, found2, hfold, hpe2, hres⟩ := ih conf1 pm1 true hndrest
        (fun c2 hc2 => hsub c2 (by simp [hc2]))
        hcwf1 (hcw1.trans hcaw) (hch1.trans hcah)
        (fun c2 hc2 => by
          rw [hgeto1 (c2.1 : ℤ) (c2.2 : ℤ) ?_]
          · exact hfresh c2 (by simp [hc2])
          · intro hcontra
            refine hcnotin ?_
            have hc2c : c2 = c := Prod.ext (by exact_mod_cast hcontra.1)
              (by exact_mod_cast hcontra.2)
            rw [← hc2c]
            exact hc2)
        (fun c2 hc2 s hs => by
          have hs_not_pop : s ∉ mc2.candidates := by
            intro hsin
            have hsL : s ∈ L := hsubset s hsin
            obtain ⟨p, hp, hcur⟩ := proposersOf_mem pm0 _ s hsL
            obtain ⟨p2, hp2, hcur2⟩ := proposersOf_mem pm0 _ s hs
            rw [hp] at hp2
            simp only [Option.some.injEq] at hp2
            rw [← hp2] at hcur2
            rw [hcur] at hcur2
            simp only [Option.some.injEq, Prod.mk.injEq] at hcur2
            refine hcnotin ?_
            have hc2c : c2 = c := Prod.ext (by exact_mod_cast hcur2.1.symm)
              (by exact_mod_cast hcur2.2.symm)
            rw [← hc2c]
            exact hc2
          rw [huntouch s.1 s.2 (by rw [Prod.mk.eta]; exact hs_not_pop)]
          exact hpmfresh c2 (by simp [hc2]) s hs)
        (prefsEq_trans hpe1 hpe)
        (Or.inr ⟨rfl, hmeaslt0⟩)
      refine ⟨conf2, pm2, found2, ?_, hpe2, ?_⟩
      · unfold ofoldl
        rw [hstep]
        simp only
        exact hfold
      · rcases hres with ⟨_, hff, _⟩ | ⟨hf2, hlt2⟩
        · exact absurd hff (by simp)
        · exact Or.inr ⟨hf2, hlt2⟩
    · -- at most one proposer here: the cell is left alone
      have hstep : resolveCell scorer config (confAcc, pmAcc, found) c =
          some (confAcc, pmAcc, found) := by
        unfold resolveCell
        simp only
        rw [hgetc]
        simp only
        rw [if_neg (show ¬ (⟨proposersOf pm0 ((c.1 : ℤ), (c.2 : ℤ))⟩ :
          MoveConflict).is_in_conflict from hconf)]
      obtain ⟨conf2, pm2, found2, hfold, hpe2, hres⟩ := ih confAcc pmAcc found hndrest
        (fun c2 hc2 => hsub c2 (by simp [hc2]))
        hcawf hcaw hcah
        (fun c2 hc2 => hfresh c2 (by simp [hc2]))
        (fun c2 hc2 s hs => hpmfresh c2 (by simp [hc2]) s hs)
        hpe hstate
      refine ⟨conf2, pm2, found2, ?_, hpe2, ?_⟩
      · unfold ofoldl
        rw [hstep]
        simp only
        exact hfold
      · rcases hres with ⟨hf2, hff, hpm2, hcf2, hall⟩ | ⟨hf2, hlt2⟩
        · refine Or.inl ⟨hf2, hff, hpm2, hcf2, ?_⟩
          intro c2 hc2
          rcases List.mem_cons.mp hc2 with hc2e | hc2m
          · rw [hc2e]
            omega
          · exact hall c2 hc2m
        · exact Or.inr ⟨hf2, hlt2⟩

theorem oneIteration_sound (scorer : PairwiseTileScorer) (config : Config)
    (pm : Grid PotentialMoves) (conf2 : Grid MoveConflict) (pm2 : Grid PotentialMoves)
    (found2 : Bool)
    (h : oneIteration scorer config pm = some (conf2, pm2, found2)) :
    prefsEq pm2 pm ∧
    ((found2 = false ∧ pm2 = pm ∧ buildConflicts pm = some conf2 ∧ conf2.wf ∧
        conf2.width = pm.width ∧ conf2.height = pm.height ∧
        (∀ dx dy : ℤ, 0 ≤ dx → 0 ≤ dy → dx < (pm.width : ℤ) → dy < (pm.height : ℤ) →
          conf2.get dx dy = some ⟨proposersOf pm (dx, dy)⟩ ∧
          (proposersOf pm (dx, dy)).length ≤ 1)) ∨
      (found2 = true ∧ pmMeasure pm2 < pmMeasure pm)) := by
  unfold oneIteration at h
  cases hbc : buildConflicts pm with
  | none =>
    rw [hbc] at h
    exact absurd h (by simp)
  | some conflicts =>
    rw [hbc] at h
    simp only [Option.some_bind] at h
    obtain ⟨hwfc, hwc, hhc, hcharc⟩ := buildConflicts_sound pm conflicts hbc
    unfold resolveConflicts at h
    obtain ⟨conf2b, pm2b, found2b, hfold, hpe, hres⟩ :=
      resolveFold_spec scorer config pm conflicts hcharc conflicts.coords conflicts pm false
        (coords_nodup conflicts)
        (fun c hc => by
          obtain ⟨h1, h2⟩ := coords_mem_bounds conflicts c hc
          rw [hwc] at h1
          rw [hhc] at h2
          exact ⟨h1, h2⟩)
        hwfc hwc hhc
        (fun c hc => rfl)
        (fun c hc s hs => rfl)
        (prefsEq_refl pm)
        (Or.inl ⟨rfl, rfl, rfl⟩)
    rw [h] at hfold
    simp only [Option.some.injEq, Prod.mk.injEq] at hfold
    obtain ⟨hceq, hpeq, hfeq⟩ := hfold
    subst hceq
    subst hpeq
    subst hfeq
    refine ⟨hpe, ?_⟩
    rcases hres with ⟨hf2, _, hpmEq, hconfEq, hall⟩ | ⟨hf2, hlt⟩
    · subst hpmEq
      subst hconfEq
      refine Or.inl ⟨hf2, rfl, rfl, hwfc, hwc, hhc, ?_⟩
      intro dx dy h1 h2 h3 h4
      refine ⟨hcharc dx dy h1 h2 h3 h4, ?_⟩
      have hmem : (dx.toNat, dy.toNat) ∈ conf2.coords := by
        rw [mem_coords_iff]
        constructor
        · rw [hwc]; omega
        · rw [hhc]; omega
      have := hall (dx.toNat, dy.toNat) hmem
      simp only at this
      rw [Int.toNat_of_nonneg h1, Int.toNat_of_nonneg h2] at this
      exact this
    · exact Or.inr ⟨hf2, hlt⟩

theorem runLoop_no_fuelOut (scorer : PairwiseTileScorer) (config : Config) :
    ∀ (fuel : ℕ) (pm : Grid PotentialMoves), pmMeasure pm < fuel →
      runLoop scorer config fuel pm ≠ LoopRes.fuelOut := by
  intro fuel
  induction fuel with
  | zero => intro pm hlt; omega
  | succ n ih =>
    intro pm hlt
    unfold runLoop
    cases hone : oneIteration scorer config pm with
    | none => simp
    | some st =>
      obtain ⟨conf2, pm2, found2⟩ := st
      simp only
      obtain ⟨_, hres⟩ := oneIteration_sound scorer config pm conf2 pm2 found2 hone
      cases hfound : found2 with
      | false => simp
      | true =>
        simp only [if_pos rfl]
        rcases hres with ⟨hcontra, _⟩ | ⟨_, hltm⟩
        · rw [hfound] at hcontra
          exact absurd hcontra (by simp)
        · exact ih pm2 (by omega)

theorem pmMeasure_le_bound (pm : Grid PotentialMoves) (L : ℕ)
    (hL : ∀ p ∈ pm.cells, p.preferences.length ≤ L) :
    pmMeasure pm ≤ pm.cells.length * L := by
  unfold pmMeasure
  calc (pm.cells.map fun p => p.preferences.length - p.current).sum
      ≤ (pm.cells.map fun p => p.preferences.length - p.current).length * L := by
        refine List.sum_le_card_nsmul _ L ?_
        intro n hn
        rw [List.mem_map] at hn
        obtain ⟨p, hp, hpe⟩ := hn
        have := hL p hp
        omega
    _ = pm.cells.length * L := by rw [List.length_map]

/-- C2: the conflict-resolution fixed-point loop of
reduce_potential_moves terminates.  Whenever one loop iteration reports
a conflict, the total remaining preference length pmMeasure strictly
decreases (at least one losing proposer's cursor strictly advances), so
with fuel N * L + 1 — N the cell count, L any bound on the
preference-list lengths — the loop never runs out of fuel: it ends by
finishing (or by panicking on a grid the engine cannot handle), after
at most N * L + 1 iterations. -/
theorem conflict_loop_terminates (scorer : PairwiseTileScorer) (config : Config)
    (pm : Grid PotentialMoves) (L : ℕ)
    (hL : ∀ p ∈ pm.cells, p.preferences.length ≤ L) :
    (∀ conf2 pm2, oneIteration scorer config pm = some (conf2, pm2, true) →
      pmMeasure pm2 < pmMeasure pm) ∧
    runLoop scorer config (pm.cells.length * L + 1) pm ≠ LoopRes.fuelOut := by
  constructor
  · intro conf2 pm2 hone
    obtain ⟨_, hres⟩ := oneIteration_sound scorer config pm conf2 pm2 true hone
    rcases hres with ⟨hcontra, _⟩ | ⟨_, hlt⟩
    · exact absurd hcontra (by simp)
    · exact hlt
  · refine runLoop_no_fuelOut scorer config _ pm ?_
    have := pmMeasure_le_bound pm L hL
    omega

theorem omap_some_forall {A B : Type} (f : A → Option B) :
    ∀ (l : List A) (l2 : List B), omap f l = some l2 → ∀ a ∈ l, ∃ b, f a = some b := by
  intro l
  induction l with
  | nil => intro l2 _ a ha; simp at ha
  | cons x xs ih =>
    intro l2 h a ha
    unfold omap at h
    cases hfx : f x with
    | none => rw [hfx] at h; simp at h
    | some b =>
      rw [hfx] at h
      cases hrest : omap f xs with
      | none => rw [hrest] at h; simp at h
      | some bs =>
        rcases List.mem_cons.mp ha with rfl | hmem
        · exact ⟨b, hfx⟩
        · exact ih bs hrest a hmem

theorem omap_eq_map {A B : Type} (f : A → Option B) (v : A → B) :
    ∀ (l : List A) (l2 : List B), omap f l = some l2 →
      (∀ a ∈ l, f a = some (v a)) → l2 = l.map v := by
  intro l
  induction l with
  | nil =>
    intro l2 h _
    unfold omap at h
    simp only [Option.some.injEq] at h
    rw [← h]
    rfl
  | cons x xs ih =>
    intro l2 h hv
    unfold omap at h
    rw [hv x (by simp)] at h
    cases hrest : omap f xs with
    | none => rw [hrest] at h; simp at h
    | some bs =>
      rw [hrest] at h
      simp only [Option.some.injEq] at h
      rw [← h, List.map_cons, ih bs hrest (fun a ha => hv a (by simp [ha]))]

theorem Grid.set_dims {T : Type} (g : Grid T) (x y : ℤ) (t : T) (g2 : Grid T)
    (h : g.set x y t = some g2) : g2.width = g.width ∧ g2.height = g.height := by
  unfold Grid.set at h
  by_cases h1 : x < 0 ∨ y < 0 ∨ (g.width : ℤ) ≤ x ∨ (g.height : ℤ) ≤ y
  · rw [if_pos h1] at h
    exact absurd h (by simp)
  · rw [if_neg h1] at h
    by_cases h2 : x.toNat + g.width * y.toNat < g.cells.length
    · rw [if_pos h2] at h
      simp only [Option.some.injEq] at h
      rw [← h]
      exact ⟨rfl, rfl⟩
    · rw [if_neg h2] at h
      exact absurd h (by simp)

theorem recordMove_dims (pm : Grid PotentialMoves) (g : Grid MoveConflict) (c : ℕ × ℕ)
    (g2 : Grid MoveConflict) (h : recordMove pm g c = some g2) :
    g2.width = g.width ∧ g2.height = g.height := by
  unfold recordMove at h
  cases hget : pm.get (c.1 : ℤ) (c.2 : ℤ) with
  | none => rw [hget] at h; simp at h
  | some p =>
    rw [hget] at h
    simp only at h
    cases hcur : p.cur with
    | none =>
      rw [hcur] at h
      simp only [Option.some.injEq] at h
      rw [← h]
      exact ⟨rfl, rfl⟩
    | some d =>
      rw [hcur] at h
      simp only at h
      cases hgd : g.get d.1 d.2 with
      | none => rw [hgd] at h; simp at h
      | some mc =>
        rw [hgd] at h
        simp only at h
        cases hpush : mc.push_move ((c.1 : ℤ), (c.2 : ℤ)) with
        | none => rw [hpush] at h; simp at h
        | some mc2 =>
          rw [hpush] at h
          simp only at h
          exact Grid.set_dims g d.1 d.2 mc2 g2 h

theorem recordFold_dest_inB (pm : Grid PotentialMoves) :
    ∀ (cs : List (ℕ × ℕ)) (g : Grid MoveConflict) (res : Grid MoveConflict),
      ofoldl (recordMove pm) g cs = some res →
      ∀ c ∈ cs, ∀ p, pm.get (c.1 : ℤ) (c.2 : ℤ) = some p →
        ∀ d, p.cur = some d →
          0 ≤ d.1 ∧ 0 ≤ d.2 ∧ d.1 < (g.width : ℤ) ∧ d.2 < (g.height : ℤ) := by
  intro cs
  induction cs with
  | nil => intro g res _ c hc; simp at hc
  | cons c0 rest ih =>
    intro g res h c hc p hp d hd
    unfold ofoldl at h
    cases hstep : recordMove pm g c0 with
    | none => rw [hstep] at h; simp at h
    | some g1 =>
      rw [hstep] at h
      simp only at h
      rcases List.mem_cons.mp hc with rfl | hmem
      · unfold recordMove at hstep
        rw [hp] at hstep
        simp only at hstep
        rw [hd] at hstep
        simp only at hstep
        cases hgd : g.get d.1 d.2 with
        | none => rw [hgd] at hstep; simp at hstep
        | some mc => exact Grid.get_eq_some_iff_aux g d.1 d.2 mc hgd
      · obtain ⟨hw1, hh1⟩ := recordMove_dims pm g c0 g1 hstep
        have := ih g1 res h c hmem p hp d hd
        rw [hw1, hh1] at this
        exact this

theorem buildConflicts_dest_inB (pm : Grid PotentialMoves) (res : Grid MoveConflict)
    (h : buildConflicts pm = some res) :
    ∀ c ∈ pm.coords, ∀ p, pm.get (c.1 : ℤ) (c.2 : ℤ) = some p →
      ∀ d, p.cur = some d →
        0 ≤ d.1 ∧ 0 ≤ d.2 ∧ d.1 < (pm.width : ℤ) ∧ d.2 < (pm.height : ℤ) := by
  unfold buildConflicts at h
  exact recordFold_dest_inB pm pm.coords _ res h

theorem runLoop_finished_sound (scorer : PairwiseTileScorer) (config : Config) :
    ∀ (fuel : ℕ) (pm resolutions : _) (pm2 : Grid PotentialMoves),
      runLoop scorer config fuel pm = LoopRes.finished resolutions pm2 →
      prefsEq pm2 pm ∧ buildConflicts pm2 = some resolutions ∧
      resolutions.wf ∧ resolutions.width = pm.width ∧ resolutions.height = pm.height ∧
      (∀ dx dy : ℤ, 0 ≤ dx → 0 ≤ dy → dx < (pm.width : ℤ) → dy < (pm.height : ℤ) →
        resolutions.get dx dy = some ⟨proposersOf pm2 (dx, dy)⟩ ∧
        (proposersOf pm2 (dx, dy)).length ≤ 1) := by
  intro fuel
  induction fuel with
  | zero =>
    intro pm r p2 h
    exact absurd h (by unfold runLoop; simp)
  | succ n ih =>
    intro pm r p2 h
    unfold runLoop at h
    cases hone : oneIteration scorer config pm with
    | none =>
      rw [hone] at h
      exact absurd h (by simp)
    | some st =>
      obtain ⟨c1, pmn, f1⟩ := st
      rw [hone] at h
      simp only at h
      obtain ⟨hpe1, hres1⟩ := oneIteration_sound scorer config pm c1 pmn f1 hone
      cases f1 with
      | true =>
        simp only [if_pos rfl] at h
        obtain ⟨hpe2, hbc2, hwf2, hw2, hh2, hchar⟩ := ih pmn r p2 h
        refine ⟨prefsEq_trans hpe2 hpe1, hbc2, hwf2, ?_, ?_, ?_⟩
        · rw [hw2, hpe1.1]
        · rw [hh2, hpe1.2.1]
        · intro dx dy h1 h2 h3 h4
          refine hchar dx dy h1 h2 ?_ ?_
          · rw [hpe1.1]
            exact h3
          · rw [hpe1.2.1]
            exact h4
      | false =>
        simp only [Bool.false_eq_true, if_false, LoopRes.finished.injEq] at h
        obtain ⟨rfl, rfl⟩ := h
        rcases hres1 with ⟨_, hpmEq, hbc, hwf, hw, hh, hchar⟩ | ⟨hcontra, _⟩
        · subst hpmEq
          exact ⟨hpe1, hbc, hwf, hw, hh, hchar⟩
        · exact absurd hcontra (by simp)

theorem nearestIdx_lt (slots : List (ℤ × ℤ)) (o : ℤ × ℤ) (h : slots ≠ []) :
    ∃ i, nearestIdx slots o = some i ∧ i < slots.length := by
  unfold nearestIdx
  have key : ∀ (pairs : List (ℕ × (ℤ × ℤ))) (b0 : Option (ℕ × ℤ)),
      (∀ p ∈ pairs, p.1 < slots.length) →
      (∀ i q, b0 = some (i, q) → i < slots.length) →
      (b0 = none → pairs ≠ []) →
      ∃ i q, pairs.foldl
        (fun best is =>
          match best with
          | none => some (is.1, squaredEuclidean is.2 o)
          | some bv =>
            if squaredEuclidean is.2 o < bv.2 then some (is.1, squaredEuclidean is.2 o)
            else best)
        b0 = some (i, q) ∧ i < slots.length := by
    intro pairs
    induction pairs with
    | nil =>
      intro b0 hall hb0 hne
      cases b0 with
      | none => exact absurd (hne rfl) (by simp)
      | some bv =>
        obtain ⟨i, q⟩ := bv
        exact ⟨i, q, by simp, hb0 i q rfl⟩
    | cons p ps ih =>
      intro b0 hall hb0 hne
      rw [List.foldl_cons]
      refine ih _ (fun p2 hp2 => hall p2 (by simp [hp2])) ?_ ?_
      · intro i q hsome
        cases b0 with
        | none =>
          simp only [Option.some.injEq, Prod.mk.injEq] at hsome
          have := hall p (by simp)
          omega
        | some bv =>
          simp only at hsome
          split_ifs at hsome
          · simp only [Option.some.injEq, Prod.mk.injEq] at hsome
            have := hall p (by simp)
            omega
          · exact hb0 i q hsome
      · intro hnone
        exfalso
        cases b0 with
        | none => simp at hnone
        | some bv =>
          simp only at hnone
          split_ifs at hnone
  have henum : ∀ p ∈ slots.enum, p.1 < slots.length := by
    intro p hp
    rw [List.mem_enum_iff_get?] at hp
    obtain ⟨hlt, _⟩ := List.get?_eq_some.mp hp
    exact hlt
  have hne : slots.enum ≠ [] := by
    intro hc
    apply h
    have hel : slots.enum.length = slots.length := List.enum_length
    rw [hc] at hel
    simp only [List.length_nil] at hel
    exact List.length_eq_zero.mp hel.symm
  obtain ⟨i, q, hfold, hlt⟩ := key slots.enum none henum (fun i q hc => by simp at hc)
    (fun _ => hne)
  exact ⟨i, by rw [hfold]; rfl, hlt⟩

theorem perm_cons_eraseIdx {α : Type} (l : List α) (i : ℕ) (hi : i < l.length) :
    l.Perm (l.get ⟨i, hi⟩ :: l.eraseIdx i) := by
  have h1 : l = l.take i ++ (l.get ⟨i, hi⟩ :: l.drop (i + 1)) := by
    conv_lhs => rw [← List.take_append_drop i l]
    rw [List.drop_eq_getElem_cons hi]
    simp [List.get_eq_getElem]
  rw [List.eraseIdx_eq_take_drop_succ]
  nth_rewrite 1 [h1]
  exact List.perm_middle

theorem eraseIdx_facts {α : Type} (l : List α) (i : ℕ) (hi : i < l.length)
    (hnd : l.Nodup) :
    l.get ⟨i, hi⟩ ∉ l.eraseIdx i ∧ (l.eraseIdx i).Nodup ∧ l.eraseIdx i ⊆ l ∧
      (l.eraseIdx i).length + 1 = l.length := by
  have hp := perm_cons_eraseIdx l i hi
  have hnd2 := hp.nodup_iff.mp hnd
  rw [List.nodup_cons] at hnd2
  exact ⟨hnd2.1, hnd2.2, (List.eraseIdx_sublist l i).subset,
    List.length_eraseIdx_add_one hi⟩

theorem map_snd_nodup_inj {α β : Type} :
    ∀ (l : List (α × β)), (l.map Prod.snd).Nodup →
      ∀ p1 ∈ l, ∀ p2 ∈ l, p1.2 = p2.2 → p1 = p2 := by
  intro l
  induction l with
  | nil =>
    intro _ p1 h1
    simp at h1
  | cons a as ih =>
    intro hnd p1 h1 p2 h2 he
    simp only [List.map_cons, List.nodup_cons] at hnd
    obtain ⟨hna, hnd2⟩ := hnd
    rcases List.mem_cons.mp h1 with rfl | h1m
    · rcases List.mem_cons.mp h2 with rfl | h2m
      · rfl
      · exact absurd (by rw [he]; exact List.mem_map_of_mem _ h2m) hna
    · rcases List.mem_cons.mp h2 with rfl | h2m
      · exact absurd (by rw [← he]; exact List.mem_map_of_mem _ h1m) hna
      · exact ih hnd2 p1 h1m p2 h2m he

theorem assignFold_spec :
    ∀ (todo : List (ℤ × ℤ)) (resAcc : Grid MoveConflict) (slist : List (ℤ × ℤ)),
      slist.Nodup →
      (∀ s ∈ slist, resAcc.inB s.1 s.2) →
      (∀ s ∈ slist, resAcc.get s.1 s.2 = some ⟨[]⟩) →
      resAcc.wf →
      todo.length ≤ slist.length →
      ∃ (res2 : Grid MoveConflict) (slist2 : List (ℤ × ℤ))
        (pairs : List ((ℤ × ℤ) × (ℤ × ℤ))),
        ofoldl assignOrphan (resAcc, slist) todo = some (res2, slist2) ∧
        res2.wf ∧ res2.width = resAcc.width ∧ res2.height = resAcc.height ∧
        pairs.map Prod.snd = todo ∧
        (pairs.map Prod.fst).Nodup ∧
        (∀ ps ∈ pairs, ps.1 ∈ slist) ∧
        slist2 ⊆ slist ∧ slist2.Nodup ∧
        slist2.length + todo.length = slist.length ∧
        (∀ s ∈ slist2, ∀ ps ∈ pairs, s ≠ ps.1) ∧
        (∀ s ∈ slist2, res2.get s.1 s.2 = some ⟨[]⟩) ∧
        (∀ ps ∈ pairs, res2.get ps.1.1 ps.1.2 = some ⟨[ps.2]⟩) ∧
        (∀ d : ℤ × ℤ, d ∉ slist → res2.get d.1 d.2 = resAcc.get d.1 d.2) := by
  intro todo
  induction todo with
  | nil =>
    intro resAcc slist hnd hinB hempty hwf hlen
    refine ⟨resAcc, slist, [], rfl, hwf, rfl, rfl, rfl, by simp, by simp,
      fun x hx => hx, hnd, by simp, by simp, hempty, by simp, fun d _ => rfl⟩
  | cons o todo ih =>
    intro resAcc slist hnd hinB hempty hwf hlen
    have hslne : slist ≠ [] := by
      intro hc
      rw [hc] at hlen
      simp at hlen
    obtain ⟨i, hni, hilt⟩ := nearestIdx_lt slist o hslne
    have hsget : slist.get? i = some (slist.get ⟨i, hilt⟩) := List.get?_eq_get hilt
    set s := slist.get ⟨i, hilt⟩ with hsdef
    have hsmem : s ∈ slist := List.get?_mem hsget
    obtain ⟨hnotmem, hnd2, hsub2, hlen2⟩ := eraseIdx_facts slist i hilt hnd
    rw [← hsdef] at hnotmem
    obtain ⟨res1, hset, hw1, hh1, hwf1, hgets, hgeto, _⟩ :=
      Grid.set_spec resAcc hwf s.1 s.2 (MoveConflict.resolve o) (hinB s hsmem)
    have hstep : assignOrphan (resAcc, slist) o = some (res1, slist.eraseIdx i) := by
      unfold assignOrphan
      simp only
      rw [hni]
      simp only
      rw [hsget]
      simp only
      rw [hset]
    have hinB1 : ∀ s2 ∈ slist.eraseIdx i, res1.inB s2.1 s2.2 := by
      intro s2 hs2
      have hb := hinB s2 (hsub2 hs2)
      unfold Grid.inB at hb ⊢
      rw [hw1, hh1]
      exact hb
    have hempty1 : ∀ s2 ∈ slist.eraseIdx i, res1.get s2.1 s2.2 = some ⟨[]⟩ := by
      intro s2 hs2
      rw [hgeto s2.1 s2.2 ?_]
      · exact hempty s2 (hsub2 hs2)
      · refine fun hc => hnotmem ?_
        have hs2s : s2 = s := Prod.ext hc.1 hc.2
        rw [← hs2s]
        exact hs2
    have hlen1 : todo.length ≤ (slist.eraseIdx i).length := by
      simp only [List.length_cons] at hlen
      omega
    obtain ⟨res2, slist2, pairs, hfold, hwf2, hw2, hh2, hsnd, hfstnd, hfstmem, hsub3,
      hnd3, hlen3, hdisj, hempty2, hpairs, huntouch⟩ :=
      ih res1 (slist.eraseIdx i) hnd2 hinB1 hempty1 hwf1 hlen1
    refine ⟨res2, slist2, (s, o) :: pairs, ?_, hwf2, hw2.trans hw1, hh2.trans hh1,
      ?_, ?_, ?_, fun x hx => hsub2 (hsub3 hx), hnd3, ?_, ?_, hempty2, ?_, ?_⟩
    · unfold ofoldl
      rw [hstep]
      simp only
      exact hfold
    · simp only [List.map_cons, hsnd]
    · simp only [List.map_cons, List.nodup_cons]
      constructor
      · intro hc
        obtain ⟨ps, hps, he⟩ := List.mem_map.mp hc
        exact hnotmem (he ▸ hfstmem ps hps)
      · exact hfstnd
    · intro ps hps
      rcases List.mem_cons.mp hps with rfl | hm
      · exact hsmem
      · exact hsub2 (hfstmem ps hm)
    · simp only [List.length_cons]
      omega
    · intro s2 hs2 ps hps
      rcases List.mem_cons.mp hps with rfl | hm
      · intro hc
        refine hnotmem ?_
        have hc2 : s2 = s := hc
        rw [← hc2]
        exact hsub3 hs2
      · exact hdisj s2 hs2 ps hm
    · intro ps hps
      rcases List.mem_cons.mp hps with rfl | hm
      · simp only
        rw [huntouch s hnotmem]
        exact hgets
      · exact hpairs ps hm
    · intro d hd
      rw [huntouch d (fun hc => hd (hsub2 hc))]
      refine hgeto d.1 d.2 (fun hc => hd ?_)
      have hds : d = s := Prod.ext hc.1 hc.2
      rw [hds]
      exact hsmem

/-- The cell of a preference grid at a coordinate, with a default for
the out-of-bounds case (never hit where it is used). -/
def pmAt (pm : Grid PotentialMoves) (c : ℕ × ℕ) : PotentialMoves :=
  (pm.get (c.1 : ℤ) (c.2 : ℤ)).getD ⟨[], 0⟩

theorem sum_map_add_ite {β : Type} [DecidableEq β] (F : β → ℕ) (b : β) :
    ∀ (D : List β), D.Nodup → b ∈ D →
      (D.map fun d => F d + (if d = b then 1 else 0)).sum = (D.map F).sum + 1 := by
  intro D
  induction D with
  | nil =>
    intro _ hb
    simp at hb
  | cons a as ih =>
    intro hnd hb
    simp only [List.nodup_cons] at hnd
    rcases List.mem_cons.mp hb with hba | hm
    · rw [hba]
      have hmap : (as.map fun d => F d + (if d = a then 1 else 0)) = as.map F := by
        refine List.map_congr_left ?_
        intro d hd
        have hne : ¬ d = a := fun hc => hnd.1 (hc ▸ hd)
        rw [if_neg hne]
        omega
      simp only [List.map_cons, List.sum_cons, hmap, eq_self_iff_true, if_true]
      omega
    · simp only [List.map_cons, List.sum_cons]
      have hne : ¬ a = b := fun hc => hnd.1 (by rw [hc]; exact hm)
      rw [if_neg hne, ih hnd.2 hm]
      omega

theorem double_count {α β : Type} [DecidableEq β] (f : α → Option β) :
    ∀ (l : List α) (D : List β), D.Nodup →
      (∀ a ∈ l, ∀ b, f a = some b → b ∈ D) →
      (D.map fun d => (l.filter fun a => decide (f a = some d)).length).sum =
        (l.filter fun a => (f a).isSome).length := by
  intro l
  induction l with
  | nil =>
    intro D _ _
    simp
  | cons a l ih =>
    intro D hnd hcov
    cases hfa : f a with
    | none =>
      have h1 : ∀ d : β, (List.filter (fun x => decide (f x = some d)) (a :: l)) =
          List.filter (fun x => decide (f x = some d)) l := by
        intro d
        rw [List.filter_cons, if_neg (by simp [hfa])]
      simp only [h1]
      rw [ih D hnd (fun x hx b hb => hcov x (by simp [hx]) b hb)]
      rw [List.filter_cons, if_neg (by simp [hfa])]
    | some b =>
      have hbD : b ∈ D := hcov a (by simp) b hfa
      have h1 : ∀ d : β, (List.filter (fun x => decide (f x = some d)) (a :: l)).length =
          (List.filter (fun x => decide (f x = some d)) l).length +
            (if d = b then 1 else 0) := by
        intro d
        rw [List.filter_cons]
        by_cases hdb : d = b
        · rw [if_pos (by simp [hfa, hdb]), if_pos hdb]
          simp [List.length_cons]
        · rw [if_neg (by simp [hfa]; exact fun hc => hdb hc.symm), if_neg hdb]
          omega
      simp only [h1]
      rw [sum_map_add_ite _ b D hnd hbD]
      rw [ih D hnd (fun x hx b2 hb2 => hcov x (by simp [hx]) b2 hb2)]
      rw [List.filter_cons, if_pos (by simp [hfa])]
      simp [List.length_cons]

theorem sum_zero_one {α : Type} (F : α → ℕ) :
    ∀ (l : List α), (∀ a ∈ l, F a = 0 ∨ F a = 1) →
      (l.map F).sum = (l.filter fun a => decide (F a = 1)).length := by
  intro l
  induction l with
  | nil =>
    intro _
    simp
  | cons a as ih =>
    intro hall
    simp only [List.map_cons, List.sum_cons]
    rw [ih (fun x hx => hall x (by simp [hx]))]
    rw [List.filter_cons]
    rcases hall a (by simp) with h0 | h1
    · rw [if_neg (by simp [h0]), h0]
      omega
    · rw [if_pos (by simp [h1]), h1]
      simp only [List.length_cons]
      omega

theorem length_filter_not {α : Type} (p : α → Bool) :
    ∀ (l : List α), (l.filter p).length + (l.filter fun a => !(p a)).length = l.length := by
  intro l
  induction l with
  | nil => simp
  | cons a as ih =>
    cases hpa : p a <;> simp [List.filter_cons, hpa] <;> omega

theorem filterMap_length {α β : Type} (g : α → Option β) :
    ∀ (l : List α), (l.filterMap g).length = (l.filter fun a => (g a).isSome).length := by
  intro l
  induction l with
  | nil => simp
  | cons a as ih =>
    cases hga : g a <;>
      simp [List.filterMap_cons, List.filter_cons, hga, ih]

theorem coordsZ_nodup {T : Type} (g : Grid T) :
    (g.coords.map fun c => ((c.1 : ℤ), (c.2 : ℤ))).Nodup := by
  refine List.Nodup.map ?_ (coords_nodup g)
  intro a b h
  simp only [Prod.mk.injEq] at h
  exact Prod.ext (by exact_mod_cast h.1) (by exact_mod_cast h.2)

theorem proposersOf_length_of_some (pm : Grid PotentialMoves) (d : ℤ × ℤ)
    (hsome : ∀ c ∈ pm.coords, ∃ p, pm.get (c.1 : ℤ) (c.2 : ℤ) = some p) :
    (proposersOf pm d).length =
      (pm.coords.filter fun c => decide ((pmAt pm c).cur = some d)).length := by
  unfold proposersOf
  rw [filterMap_length]
  refine congrArg List.length (List.filter_congr ?_)
  intro c hc
  obtain ⟨p, hp⟩ := hsome c hc
  rw [hp]
  unfold pmAt
  rw [hp]
  by_cases hcur : p.cur = some d <;> simp [hcur]

/-- The cell of a conflict grid at a coordinate, with a default for the
out-of-bounds case (never hit where it is used). -/
def mcAt (g : Grid MoveConflict) (c : ℕ × ℕ) : MoveConflict :=
  (g.get (c.1 : ℤ) (c.2 : ℤ)).getD ⟨[]⟩

theorem orphanCoords_char (pm : Grid PotentialMoves) (orphans : List (ℤ × ℤ))
    (h : orphanCoords pm = some orphans) :
    (∀ c ∈ pm.coords, ∃ p, pm.get (c.1 : ℤ) (c.2 : ℤ) = some p) ∧
    orphans = ((pm.coords.filter fun c => (pmAt pm c).cur.isNone).map
      fun c => ((c.1 : ℤ), (c.2 : ℤ))) := by
  unfold orphanCoords at h
  rw [Option.map_eq_some'] at h
  obtain ⟨plist, homap, hG⟩ := h
  have hsome : ∀ c ∈ pm.coords, ∃ p, pm.get (c.1 : ℤ) (c.2 : ℤ) = some p := by
    intro c hc
    obtain ⟨pr, hpr⟩ := omap_some_forall _ pm.coords plist homap c hc
    cases hg : pm.get (c.1 : ℤ) (c.2 : ℤ) with
    | none =>
      rw [hg] at hpr
      simp at hpr
    | some p => exact ⟨p, rfl⟩
  refine ⟨hsome, ?_⟩
  have hmap : plist = pm.coords.map (fun c => (((c.1 : ℤ), (c.2 : ℤ)), pmAt pm c)) := by
    refine omap_eq_map _ _ pm.coords plist homap ?_
    intro c hc
    obtain ⟨p, hp⟩ := hsome c hc
    rw [hp]
    unfold pmAt
    rw [hp]
    rfl
  rw [← hG, hmap, List.filter_map, List.map_map]
  rfl

theorem slotCoords_char (res : Grid MoveConflict) (slots : List (ℤ × ℤ))
    (h : slotCoords res = some slots) :
    (∀ c ∈ res.coords, ∃ mc, res.get (c.1 : ℤ) (c.2 : ℤ) = some mc) ∧
    slots = ((res.coords.filter fun c => decide (mcAt res c).is_empty).map
      fun c => ((c.1 : ℤ), (c.2 : ℤ))) := by
  unfold slotCoords at h
  rw [Option.map_eq_some'] at h
  obtain ⟨plist, homap, hG⟩ := h
  have hsome : ∀ c ∈ res.coords, ∃ mc, res.get (c.1 : ℤ) (c.2 : ℤ) = some mc := by
    intro c hc
    obtain ⟨pr, hpr⟩ := omap_some_forall _ res.coords plist homap c hc
    cases hg : res.get (c.1 : ℤ) (c.2 : ℤ) with
    | none =>
      rw [hg] at hpr
      simp at hpr
    | some mc => exact ⟨mc, rfl⟩
  refine ⟨hsome, ?_⟩
  have hmap : plist = res.coords.map (fun c => (((c.1 : ℤ), (c.2 : ℤ)), mcAt res c)) := by
    refine omap_eq_map _ _ res.coords plist homap ?_
    intro c hc
    obtain ⟨mc, hmc⟩ := hsome c hc
    rw [hmc]
    unfold mcAt
    rw [hmc]
    rfl
  rw [← hG, hmap, List.filter_map, List.map_map]
  rfl

/-- Double counting the sources: with every current destination in
bounds and at most one proposer per destination, the number of
proposer-free cells equals the number of preference-exhausted
sources. -/
theorem slots_length_eq_orphans (pm2 : Grid PotentialMoves)
    (resolutions : Grid MoveConflict)
    (hbc : buildConflicts pm2 = some resolutions)
    (hsome : ∀ c ∈ pm2.coords, ∃ p, pm2.get (c.1 : ℤ) (c.2 : ℤ) = some p)
    (hle : ∀ c ∈ pm2.coords, (proposersOf pm2 ((c.1 : ℤ), (c.2 : ℤ))).length ≤ 1) :
    (pm2.coords.filter fun c =>
        decide ((proposersOf pm2 ((c.1 : ℤ), (c.2 : ℤ))).length = 0)).length =
      (pm2.coords.filter fun c => (pmAt pm2 c).cur.isNone).length := by
  have hcov : ∀ c ∈ pm2.coords, ∀ d, (pmAt pm2 c).cur = some d →
      d ∈ pm2.coords.map (fun c => ((c.1 : ℤ), (c.2 : ℤ))) := by
    intro c hc d hfc
    obtain ⟨p, hp⟩ := hsome c hc
    have hpm : pmAt pm2 c = p := by
      unfold pmAt
      rw [hp]
      rfl
    rw [hpm] at hfc
    obtain ⟨h1, h2, h3, h4⟩ := buildConflicts_dest_inB pm2 resolutions hbc c hc p hp d hfc
    rw [List.mem_map]
    refine ⟨(d.1.toNat, d.2.toNat), ?_, ?_⟩
    · rw [mem_coords_iff]
      omega
    · exact Prod.ext (by simp [Int.toNat_of_nonneg h1]) (by simp [Int.toNat_of_nonneg h2])
  have hdc := double_count (fun c : ℕ × ℕ => (pmAt pm2 c).cur) pm2.coords
    (pm2.coords.map (fun c => ((c.1 : ℤ), (c.2 : ℤ)))) (coordsZ_nodup pm2) hcov
  have hDmap : ((pm2.coords.map (fun c => ((c.1 : ℤ), (c.2 : ℤ)))).map
        fun d => (pm2.coords.filter fun a => decide ((pmAt pm2 a).cur = some d)).length) =
      pm2.coords.map (fun c => (proposersOf pm2 ((c.1 : ℤ), (c.2 : ℤ))).length) := by
    rw [List.map_map]
    refine List.map_congr_left ?_
    intro c hc
    exact (proposersOf_length_of_some pm2 _ hsome).symm
  rw [hDmap] at hdc
  rw [sum_zero_one _ pm2.coords (fun c hc => by have := hle c hc; omega)] at hdc
  have hnot1 := length_filter_not
    (fun c : ℕ × ℕ => decide ((proposersOf pm2 ((c.1 : ℤ), (c.2 : ℤ))).length = 1))
    pm2.coords
  have hnot2 := length_filter_not (fun c : ℕ × ℕ => ((pmAt pm2 c).cur).isSome) pm2.coords
  have he0 : (pm2.coords.filter fun c =>
        !(decide ((proposersOf pm2 ((c.1 : ℤ), (c.2 : ℤ))).length = 1))) =
      (pm2.coords.filter fun c =>
        decide ((proposersOf pm2 ((c.1 : ℤ), (c.2 : ℤ))).length = 0)) := by
    refine List.filter_congr ?_
    intro c hc
    have hor : (proposersOf pm2 ((c.1 : ℤ), (c.2 : ℤ))).length = 0 ∨
        (proposersOf pm2 ((c.1 : ℤ), (c.2 : ℤ))).length = 1 := by
      have := hle c hc
      omega
    rcases hor with h0 | h1
    · rw [h0]
      rfl
    · rw [h1]
      rfl
  have hen : (pm2.coords.filter fun c => !(((pmAt pm2 c).cur).isSome)) =
      (pm2.coords.filter fun c => (pmAt pm2 c).cur.isNone) := by
    refine List.filter_congr ?_
    intro c hc
    cases hcc : (pmAt pm2 c).cur <;> simp [hcc]
  rw [he0] at hnot1
  rw [hen] at hnot2
  simp only at hdc
  omega

/-- The orphan phase: starting from a conflict-free resolution grid,
resolve_orphans assigns every preference-exhausted source to a distinct
empty cell, after which every cell holds exactly one source and the
multiset of sources over all cells is exactly the grid's coordinates. -/
theorem resolve_orphans_spec (resolutions : Grid MoveConflict)
    (pm2 : Grid PotentialMoves) (res2 : Grid MoveConflict)
    (hro : resolve_orphans resolutions pm2 = some res2)
    (hrwf : resolutions.wf)
    (hbc : buildConflicts pm2 = some resolutions)
    (hw : resolutions.width = pm2.width) (hh : resolutions.height = pm2.height)
    (hchar : ∀ dx dy : ℤ, 0 ≤ dx → 0 ≤ dy → dx < (pm2.width : ℤ) → dy < (pm2.height : ℤ) →
      resolutions.get dx dy = some ⟨proposersOf pm2 (dx, dy)⟩ ∧
      (proposersOf pm2 (dx, dy)).length ≤ 1) :
    ∃ v : (ℕ × ℕ) → ℤ × ℤ,
      (∀ c ∈ pm2.coords, res2.get (c.1 : ℤ) (c.2 : ℤ) = some ⟨[v c]⟩) ∧
      (pm2.coords.map v).Perm (pm2.coords.map fun c => ((c.1 : ℤ), (c.2 : ℤ))) := by
  unfold resolve_orphans at hro
  rw [Option.bind_eq_some] at hro
  obtain ⟨orphans, horph, hro⟩ := hro
  rw [Option.bind_eq_some] at hro
  obtain ⟨slots, hslots, hro⟩ := hro
  rw [Option.map_eq_some'] at hro
  obtain ⟨st, hfold, hst⟩ := hro
  obtain ⟨res3, slist2⟩ := st
  simp only at hst
  subst hst
  obtain ⟨hsome2, horphchar⟩ := orphanCoords_char pm2 orphans horph
  obtain ⟨_, hslotchar⟩ := slotCoords_char resolutions slots hslots
  have hrescoords : resolutions.coords = pm2.coords := by
    unfold Grid.coords
    rw [hw, hh]
  rw [hrescoords] at hslotchar
  have hle : ∀ c ∈ pm2.coords, (proposersOf pm2 ((c.1 : ℤ), (c.2 : ℤ))).length ≤ 1 := by
    intro c hc
    obtain ⟨hx, hy⟩ := coords_mem_bounds pm2 c hc
    exact (hchar (c.1 : ℤ) (c.2 : ℤ) (by positivity) (by positivity)
      (by exact_mod_cast hx) (by exact_mod_cast hy)).2
  have hgetP : ∀ c ∈ pm2.coords, resolutions.get (c.1 : ℤ) (c.2 : ℤ) =
      some ⟨proposersOf pm2 ((c.1 : ℤ), (c.2 : ℤ))⟩ := by
    intro c hc
    obtain ⟨hx, hy⟩ := coords_mem_bounds pm2 c hc
    exact (hchar (c.1 : ℤ) (c.2 : ℤ) (by positivity) (by positivity)
      (by exact_mod_cast hx) (by exact_mod_cast hy)).1
  have hmcAt : ∀ c ∈ pm2.coords, mcAt resolutions c =
      ⟨proposersOf pm2 ((c.1 : ℤ), (c.2 : ℤ))⟩ := by
    intro c hc
    unfold mcAt
    rw [hgetP c hc]
    rfl
  have hcast_inj : ∀ c1 c2 : ℕ × ℕ,
      (((c1.1 : ℤ), (c1.2 : ℤ)) : ℤ × ℤ) = ((c2.1 : ℤ), (c2.2 : ℤ)) → c1 = c2 := by
    intro c1 c2 hcc
    simp only [Prod.mk.injEq] at hcc
    exact Prod.ext (by exact_mod_cast hcc.1) (by exact_mod_cast hcc.2)
  have hslots_nodup : slots.Nodup := by
    rw [hslotchar]
    exact List.Nodup.map (fun a b hab => hcast_inj a b hab)
      (List.Nodup.filter _ (coords_nodup pm2))
  have horph_nodup : orphans.Nodup := by
    rw [horphchar]
    exact List.Nodup.map (fun a b hab => hcast_inj a b hab)
      (List.Nodup.filter _ (coords_nodup pm2))
  have hslots_inB : ∀ s ∈ slots, resolutions.inB s.1 s.2 := by
    intro s hs
    rw [hslotchar] at hs
    obtain ⟨c, hcf, rfl⟩ := List.mem_map.mp hs
    obtain ⟨hx, hy⟩ := coords_mem_bounds pm2 c (List.mem_of_mem_filter hcf)
    have hx2 : ((c.1 : ℕ) : ℤ) < (resolutions.width : ℤ) := by
      rw [hw]
      exact_mod_cast hx
    have hy2 : ((c.2 : ℕ) : ℤ) < (resolutions.height : ℤ) := by
      rw [hh]
      exact_mod_cast hy
    exact ⟨by positivity, by positivity, hx2, hy2⟩
  have hslots_empty : ∀ s ∈ slots, resolutions.get s.1 s.2 = some ⟨[]⟩ := by
    intro s hs
    rw [hslotchar] at hs
    obtain ⟨c, hcf, rfl⟩ := List.mem_map.mp hs
    obtain ⟨hcm, hpred⟩ := List.mem_filter.mp hcf
    rw [hmcAt c hcm] at hpred
    have hemp : (proposersOf pm2 ((c.1 : ℤ), (c.2 : ℤ))).length = 0 :=
      of_decide_eq_true hpred
    rw [hgetP c hcm, List.length_eq_zero.mp hemp]
  have hlen_eq : slots.length = orphans.length := by
    rw [hslotchar, horphchar]
    simp only [List.length_map]
    have hfc : (pm2.coords.filter fun c => decide (mcAt resolutions c).is_empty) =
        (pm2.coords.filter fun c =>
          decide ((proposersOf pm2 ((c.1 : ℤ), (c.2 : ℤ))).length = 0)) := by
      refine List.filter_congr ?_
      intro c hc
      rw [hmcAt c hc]
      exact decide_eq_decide.mpr Iff.rfl
    rw [hfc]
    exact slots_length_eq_orphans pm2 resolutions hbc hsome2 hle
  obtain ⟨res3b, slist2b, pairs, hfold2, hwf3, hw3, hh3, hsnd, hfstnd, hfstmem, hsub3,
    hnd3, hlen3, hdisj, hempty3, hpairs, huntouch⟩ :=
    assignFold_spec orphans resolutions slots hslots_nodup hslots_inB hslots_empty hrwf
      (le_of_eq hlen_eq.symm)
  rw [hfold] at hfold2
  simp only [Option.some.injEq, Prod.mk.injEq] at hfold2
  obtain ⟨hr3, hs2⟩ := hfold2
  subst hr3
  subst hs2
  have hperm : (pairs.map Prod.fst).Perm slots := by
    refine (List.Nodup.subperm hfstnd ?_).perm_of_length_le ?_
    · intro x hx
      obtain ⟨ps, hps, he⟩ := List.mem_map.mp hx
      rw [← he]
      exact hfstmem ps hps
    · have hpl : pairs.length = orphans.length := by
        rw [← hsnd, List.length_map]
      simp only [List.length_map]
      omega
  have hcover : ∀ s ∈ slots, ∃ o, (s, o) ∈ pairs := by
    intro s hs
    have hmem : s ∈ pairs.map Prod.fst := hperm.mem_iff.mpr hs
    obtain ⟨ps, hps, he⟩ := List.mem_map.mp hmem
    refine ⟨ps.2, ?_⟩
    rw [← he, Prod.mk.eta]
    exact hps
  have horph_cur : ∀ o ∈ orphans, ∃ p, pm2.get o.1 o.2 = some p ∧ p.cur = none := by
    intro o ho
    rw [horphchar] at ho
    obtain ⟨c, hcf, rfl⟩ := List.mem_map.mp ho
    obtain ⟨hcm, hpred⟩ := List.mem_filter.mp hcf
    obtain ⟨p, hp⟩ := hsome2 c hcm
    have hpmAt : pmAt pm2 c = p := by
      unfold pmAt
      rw [hp]
      rfl
    refine ⟨p, hp, ?_⟩
    rw [← hpmAt]
    exact Option.isNone_iff_eq_none.mp hpred
  set v : ℕ × ℕ → ℤ × ℤ :=
    fun c => (((res3.get (c.1 : ℤ) (c.2 : ℤ)).getD ⟨[]⟩).candidates).headI with hvdef
  have hcell : ∀ c ∈ pm2.coords,
      res3.get (c.1 : ℤ) (c.2 : ℤ) = some ⟨[v c]⟩ ∧
      (((((c.1 : ℤ), (c.2 : ℤ)), v c) ∈ pairs) ∨
        ∃ p, pm2.get (v c).1 (v c).2 = some p ∧
          p.cur = some ((c.1 : ℤ), (c.2 : ℤ))) := by
    intro c hc
    by_cases hs : (((c.1 : ℤ), (c.2 : ℤ)) : ℤ × ℤ) ∈ slots
    · obtain ⟨o, hpair⟩ := hcover _ hs
      have hget : res3.get (c.1 : ℤ) (c.2 : ℤ) = some ⟨[o]⟩ := hpairs _ hpair
      have hv : v c = o := by
        simp only [hvdef]
        rw [hget]
        rfl
      rw [hv]
      exact ⟨hget, Or.inl hpair⟩
    · have hget2 : res3.get (c.1 : ℤ) (c.2 : ℤ) = resolutions.get (c.1 : ℤ) (c.2 : ℤ) :=
        huntouch _ hs
      have hPne : proposersOf pm2 ((c.1 : ℤ), (c.2 : ℤ)) ≠ [] := by
        intro hnil
        apply hs
        rw [hslotchar]
        refine List.mem_map.mpr ⟨c, ?_, rfl⟩
        refine List.mem_filter.mpr ⟨hc, ?_⟩
        rw [hmcAt c hc]
        exact decide_eq_true (by unfold MoveConflict.is_empty; rw [hnil]; rfl)
      have hlen1 : (proposersOf pm2 ((c.1 : ℤ), (c.2 : ℤ))).length = 1 := by
        have hub := hle c hc
        have hpos := List.length_pos.mpr hPne
        omega
      obtain ⟨s0, hs0⟩ := List.length_eq_one.mp hlen1
      have hres2get : res3.get (c.1 : ℤ) (c.2 : ℤ) = some ⟨[s0]⟩ := by
        rw [hget2, hgetP c hc, hs0]
      have hv : v c = s0 := by
        simp only [hvdef]
        rw [hres2get]
        rfl
      have hs0mem : s0 ∈ proposersOf pm2 ((c.1 : ℤ), (c.2 : ℤ)) := by
        rw [hs0]
        simp
      obtain ⟨p, hp, hcur⟩ := proposersOf_mem pm2 _ s0 hs0mem
      rw [hv]
      exact ⟨hres2get, Or.inr ⟨p, hp, hcur⟩⟩
  have hndsnd : (pairs.map Prod.snd).Nodup := by
    rw [hsnd]
    exact horph_nodup
  have hinj : ∀ c1 ∈ pm2.coords, ∀ c2 ∈ pm2.coords, v c1 = v c2 → c1 = c2 := by
    intro c1 h1 c2 h2 hveq
    obtain ⟨hg1, hcase1⟩ := hcell c1 h1
    obtain ⟨hg2, hcase2⟩ := hcell c2 h2
    rcases hcase1 with hp1 | ⟨p1, hpp1, hcur1⟩
    · rcases hcase2 with hp2 | ⟨p2, hpp2, hcur2⟩
      · have heq := map_snd_nodup_inj pairs hndsnd _ hp1 _ hp2 (by simpa using hveq)
        have hfst : (((c1.1 : ℤ), (c1.2 : ℤ)) : ℤ × ℤ) = ((c2.1 : ℤ), (c2.2 : ℤ)) :=
          congrArg Prod.fst heq
        exact hcast_inj c1 c2 hfst
      · have hvo : v c1 ∈ orphans := by
          rw [← hsnd]
          exact List.mem_map_of_mem Prod.snd hp1
        obtain ⟨po, hpo, hpocur⟩ := horph_cur (v c1) hvo
        rw [← hveq] at hpp2
        rw [hpo] at hpp2
        simp only [Option.some.injEq] at hpp2
        rw [← hpp2] at hcur2
        rw [hpocur] at hcur2
        exact absurd hcur2 (by simp)
    · rcases hcase2 with hp2 | ⟨p2, hpp2, hcur2⟩
      · have hvo : v c2 ∈ orphans := by
          rw [← hsnd]
          exact List.mem_map_of_mem Prod.snd hp2
        obtain ⟨po, hpo, hpocur⟩ := horph_cur (v c2) hvo
        rw [hveq] at hpp1
        rw [hpo] at hpp1
        simp only [Option.some.injEq] at hpp1
        rw [← hpp1] at hcur1
        rw [hpocur] at hcur1
        exact absurd hcur1 (by simp)
      · rw [hveq] at hpp1
        rw [hpp2] at hpp1
        simp only [Option.some.injEq] at hpp1
        rw [← hpp1] at hcur1
        rw [hcur2] at hcur1
        simp only [Option.some.injEq] at hcur1
        exact (hcast_inj c2 c1 hcur1).symm
  have hsubv : ∀ c ∈ pm2.coords, v c ∈ pm2.coords.map fun c => ((c.1 : ℤ), (c.2 : ℤ)) := by
    intro c hc
    obtain ⟨hg, hcase⟩ := hcell c hc
    rcases hcase with hp | ⟨p, hpp, hcur⟩
    · have hvo : v c ∈ orphans := by
        rw [← hsnd]
        exact List.mem_map_of_mem Prod.snd hp
      rw [horphchar] at hvo
      obtain ⟨c2, hcf, he⟩ := List.mem_map.mp hvo
      rw [← he]
      exact List.mem_map_of_mem _ (List.mem_of_mem_filter hcf)
    · obtain ⟨hb1, hb2, hb3, hb4⟩ := Grid.get_eq_some_iff_aux pm2 (v c).1 (v c).2 p hpp
      refine List.mem_map.mpr ⟨((v c).1.toNat, (v c).2.toNat), ?_, ?_⟩
      · rw [mem_coords_iff]
        omega
      · exact Prod.ext (by simp [Int.toNat_of_nonneg hb1]) (by simp [Int.toNat_of_nonneg hb2])
  refine ⟨v, fun c hc => (hcell c hc).1, ?_⟩
  have hndv : (pm2.coords.map v).Nodup := List.Nodup.map_on hinj (coords_nodup pm2)
  have hsub : pm2.coords.map v ⊆ pm2.coords.map fun c => ((c.1 : ℤ), (c.2 : ℤ)) := by
    intro x hx
    obtain ⟨c, hc, rfl⟩ := List.mem_map.mp hx
    exact hsubv c hc
  exact (List.Nodup.subperm hndv hsub).perm_of_length_le (by simp)

/-! ## C10: locality of the preference lists bounds conflict size -/

/-- Every preference of every cell lies in that cell's 3 by 3
neighborhood: the shape ForceField::potential_moves produces. -/
def prefsLocal (pm : Grid PotentialMoves) : Prop :=
  ∀ c ∈ pm.coords,
    ∀ d ∈ (((pm.get (c.1 : ℤ) (c.2 : ℤ)).map PotentialMoves.preferences).getD []),
      (d.1 - (c.1 : ℤ)).natAbs ≤ 1 ∧ (d.2 - (c.2 : ℤ)).natAbs ≤ 1

/-- Every preference of every cell is in bounds: the filter of
ForceField::potential_moves. -/
def prefsInBounds (pm : Grid PotentialMoves) : Prop :=
  ∀ c ∈ pm.coords,
    ∀ d ∈ (((pm.get (c.1 : ℤ) (c.2 : ℤ)).map PotentialMoves.preferences).getD []),
      0 ≤ d.1 ∧ 0 ≤ d.2 ∧ d.1 < (pm.width : ℤ) ∧ d.2 < (pm.height : ℤ)

theorem cur_mem_preferences (p : PotentialMoves) (d : ℤ × ℤ) (h : p.cur = some d) :
    d ∈ p.preferences := by
  unfold PotentialMoves.cur at h
  exact List.get?_mem h

theorem mem_offsets9 (a b : ℤ) (ha : a.natAbs ≤ 1) (hb : b.natAbs ≤ 1) :
    (a, b) ∈ offsets9 := by
  have ha2 : a = -1 ∨ a = 0 ∨ a = 1 := by omega
  have hb2 : b = -1 ∨ b = 0 ∨ b = 1 := by omega
  rcases ha2 with rfl | rfl | rfl <;> rcases hb2 with rfl | rfl | rfl <;> simp [offsets9]

/-- With local preference lists, a destination can draw proposals only
from its own 3 by 3 neighborhood: at most 9 sources. -/
theorem proposersOf_le_nine (pm : Grid PotentialMoves) (hloc : prefsLocal pm)
    (d : ℤ × ℤ) : (proposersOf pm d).length ≤ 9 := by
  have hsub : proposersOf pm d ⊆ offsets9.map fun o => (d.1 + o.1, d.2 + o.2) := by
    intro s hs
    obtain ⟨p, hp, hcur⟩ := proposersOf_mem pm d s hs
    have hdmem : d ∈ p.preferences := cur_mem_preferences p d hcur
    have hin := Grid.get_eq_some_iff_aux pm s.1 s.2 p hp
    obtain ⟨hin1, hin2, hin3, hin4⟩ := hin
    have hcmem : (s.1.toNat, s.2.toNat) ∈ pm.coords := by
      rw [mem_coords_iff]
      omega
    have hcast1 : ((s.1.toNat : ℕ) : ℤ) = s.1 := Int.toNat_of_nonneg hin1
    have hcast2 : ((s.2.toNat : ℕ) : ℤ) = s.2 := Int.toNat_of_nonneg hin2
    have hl := hloc (s.1.toNat, s.2.toNat) hcmem d ?hd
    case hd =>
      simp only [hcast1, hcast2]
      rw [hp]
      simpa using hdmem
    simp only [hcast1, hcast2] at hl
    obtain ⟨h1, h2⟩ := hl
    rw [List.mem_map]
    refine ⟨(s.1 - d.1, s.2 - d.2), mem_offsets9 _ _ (by omega) (by omega), ?_⟩
    simp only
    obtain ⟨s1, s2⟩ := s
    obtain ⟨d1, d2⟩ := d
    simp only [Prod.mk.injEq]
    constructor <;> ring
  have hle := (List.Nodup.subperm (proposersOf_nodup pm d) hsub).length_le
  simpa using hle

theorem prefsEq_get (pm2 pm : Grid PotentialMoves) (h : prefsEq pm2 pm) (x y : ℤ)
    (p : PotentialMoves) (hp : pm2.get x y = some p) :
    ∃ q, pm.get x y = some q ∧ q.preferences = p.preferences := by
  have hmap := h.2.2.2 x y
  rw [hp] at hmap
  cases hq : pm.get x y with
  | none =>
    rw [hq] at hmap
    exact absurd hmap (by simp)
  | some q =>
    rw [hq] at hmap
    simp only [Option.map_some'] at hmap
    exact ⟨q, rfl, by injection hmap with hh; exact hh.symm⟩

theorem coords_of_prefsEq (pm2 pm : Grid PotentialMoves) (h : prefsEq pm2 pm) :
    pm2.coords = pm.coords := by
  unfold Grid.coords
  rw [h.1, h.2.1]

theorem prefsLocal_of_prefsEq (pm2 pm : Grid PotentialMoves) (h : prefsEq pm2 pm)
    (hloc : prefsLocal pm) : prefsLocal pm2 := by
  intro c hc d hd
  refine hloc c (by rw [← coords_of_prefsEq pm2 pm h]; exact hc) d ?_
  rw [← h.2.2.2 (c.1 : ℤ) (c.2 : ℤ)]
  exact hd

theorem prefsInBounds_of_prefsEq (pm2 pm : Grid PotentialMoves) (h : prefsEq pm2 pm)
    (hib : prefsInBounds pm) : prefsInBounds pm2 := by
  intro c hc d hd
  have := hib c (by rw [← coords_of_prefsEq pm2 pm h]; exact hc) d
    (by rw [← h.2.2.2 (c.1 : ℤ) (c.2 : ℤ)]; exact hd)
  rw [h.1, h.2.1]
  exact this

theorem wf_of_prefsEq (pm2 pm : Grid PotentialMoves) (h : prefsEq pm2 pm)
    (hwf : pm.wf) : pm2.wf := by
  unfold Grid.wf at hwf ⊢
  rw [h.2.2.1, h.1, h.2.1, hwf]

/-- C10: with preference lists local to each cell's 3 by 3 neighborhood
and in bounds (the shape ForceField::potential_moves produces), at most
9 sources ever propose the same destination — in the first iteration
and in every later one (any grid whose preference lists agree with the
original, which the loop invariant prefsEq guarantees) — so push_move
stays below the 25-slot capacity and the conflict-accumulation pass of
reduce_potential_moves never panics. -/
theorem push_move_never_overflows (pm : Grid PotentialMoves) (hwf : pm.wf)
    (hloc : prefsLocal pm) (hib : prefsInBounds pm) :
    ∀ pm2, prefsEq pm2 pm →
      (∀ d : ℤ × ℤ, (proposersOf pm2 d).length ≤ 9) ∧
      ∃ res, buildConflicts pm2 = some res := by
  intro pm2 hpe
  have hloc2 := prefsLocal_of_prefsEq pm2 pm hpe hloc
  have hib2 := prefsInBounds_of_prefsEq pm2 pm hpe hib
  have hwf2 := wf_of_prefsEq pm2 pm hpe hwf
  have hnine := fun d => proposersOf_le_nine pm2 hloc2 d
  refine ⟨hnine, buildConflicts_complete pm2 hwf2 ?_
    (fun dx dy => le_trans (hnine _) (by norm_num))⟩
  intro c hc p hp d hd
  have := hib2 c hc d
  rw [hp] at this
  simp only [Option.map_some', Option.getD_some] at this
  exact this (cur_mem_preferences p d hd)

/-- C1: the destination-to-source map returned by
reduce_potential_moves is a true bijection on grid coordinates.  The
returned grid is indexed by exactly the grid's coordinates (each
position appears exactly once as a destination), and its cell contents
— the sources — form a permutation of the coordinate list: every
position appears exactly once as a source.  The orphan fallback assigns
each preference-exhausted source to a distinct previously-unclaimed
destination, which the permutation reflects. -/
theorem reduce_potential_moves_bijection (scorer : PairwiseTileScorer) (config : Config)
    (pm : Grid PotentialMoves) (res : Grid (ℤ × ℤ))
    (h : reduce_potential_moves scorer config pm = some res) :
    res.width = pm.width ∧ res.height = pm.height ∧ res.wf ∧
    res.cells.Perm (pm.coords.map fun c => ((c.1 : ℤ), (c.2 : ℤ))) := by
  unfold reduce_potential_moves at h
  cases hrun : runLoop scorer config (pmMeasure pm + 1) pm with
  | panicked =>
    rw [hrun] at h
    exact absurd h (by simp)
  | fuelOut =>
    rw [hrun] at h
    exact absurd h (by simp)
  | finished resolutions pm2 =>
    rw [hrun] at h
    simp only at h
    obtain ⟨hpe, hbc, hrwf, hrw, hrh, hchar⟩ :=
      runLoop_finished_sound scorer config (pmMeasure pm + 1) pm resolutions pm2 hrun
    rw [Option.bind_eq_some] at h
    obtain ⟨res2, hro, h⟩ := h
    rw [Option.bind_eq_some] at h
    obtain ⟨cells, hcells, hres⟩ := h
    simp only [Option.some.injEq] at hres
    have hw2 : resolutions.width = pm2.width := by
      rw [hrw, hpe.1]
    have hh2 : resolutions.height = pm2.height := by
      rw [hrh, hpe.2.1]
    have hchar2 : ∀ dx dy : ℤ, 0 ≤ dx → 0 ≤ dy → dx < (pm2.width : ℤ) →
        dy < (pm2.height : ℤ) →
        resolutions.get dx dy = some ⟨proposersOf pm2 (dx, dy)⟩ ∧
        (proposersOf pm2 (dx, dy)).length ≤ 1 := by
      intro dx dy h1 h2 h3 h4
      rw [hpe.1] at h3
      rw [hpe.2.1] at h4
      exact hchar dx dy h1 h2 h3 h4
    obtain ⟨v, hv, hperm⟩ :=
      resolve_orphans_spec resolutions pm2 res2 hro hrwf hbc hw2 hh2 hchar2
    have hpmcoords : pm2.coords = pm.coords := coords_of_prefsEq pm2 pm hpe
    have hcellsmap : cells = pm.coords.map v := by
      refine omap_eq_map _ v pm.coords cells hcells ?_
      intro c hc
      have hvc := hv c (by rw [hpmcoords]; exact hc)
      rw [hvc]
      simp only [Option.some_bind]
      rw [if_pos (show (⟨[v c]⟩ : MoveConflict).is_resolved from rfl)]
      rfl
    rw [← hres]
    refine ⟨rfl, rfl, ?_, ?_⟩
    · unfold Grid.wf
      simp only
      rw [hcellsmap, List.length_map, coords_length]
    · simp only
      rw [hcellsmap, ← hpmcoords]
      exact hperm

/-! ## Ranker (src/ranker.rs)

A resumable Lomuto-style quickselect: the caller feeds one comparison
result per call of rank.  The stack of pending segments is modelled
with its top at the head (Rust pushes and pops at the Vec's end).
Fallible indexing models the panics of Vec indexing and of the
unwraps. -/

structure Ranker (α : Type) where
  i : ℕ
  j : ℕ
  remaining : List (ℕ × ℕ)
  competitors : List α
  needed : ℕ
  deriving Repr

/-- Ranker::new; competitors.len() - 1 is ℕ subtraction (the claim's
domain keeps the population nonempty, where both agree). -/
def Ranker.new {α : Type} (competitors : List α) (needed : ℕ) : Ranker α :=
  ⟨0, 0, [(0, competitors.length - 1)], competitors, needed⟩

/-- Vec::swap, panicking (none) out of bounds. -/
def lswap {α : Type} (l : List α) (a b : ℕ) : Option (List α) :=
  match l.get? a, l.get? b with
  | some x, some y => some ((l.set a y).set b x)
  | _, _ => none

/-- Ranker::rank.  Returns the new state and the continue flag; none
models the panics (out-of-range swap, pivot unwrap on an empty
stack). -/
def Ranker.rank {α : Type} (r : Ranker α) (ord : Ordering) :
    Option (Ranker α × Bool) :=
  match (if ord = Ordering.gt
      then Option.map (fun c => (c, r.i + 1)) (lswap r.competitors r.i r.j)
      else some (r.competitors, r.i)) with
  | none => none
  | some (comp1, i1) =>
    match r.remaining with
    | [] => none
    | (st, en) :: rest =>
      if r.j + 1 = en then
        match lswap comp1 i1 en with
        | none => none
        | some comp2 =>
          match (if i1 + 1 < en ∧ i1 + 1 ≤ r.needed - 1
              then (i1 + 1, en) ::
                (if st + 1 < i1 ∧ st ≤ r.needed - 1 then (st, i1 - 1) :: rest else rest)
              else (if st + 1 < i1 ∧ st ≤ r.needed - 1 then (st, i1 - 1) :: rest
                else rest)) with
          | [] => some (⟨i1, r.j + 1, [], comp2, r.needed⟩, false)
          | (s2, e2) :: rest2 => some (⟨s2, s2, (s2, e2) :: rest2, comp2, r.needed⟩, true)
      else some (⟨i1, r.j + 1, (st, en) :: rest, comp1, r.needed⟩, true)

/-- One step of the driver loop of bin/competition.rs (also the unit
tests): compare competitors[current()] with competitors[pivot()] and
feed the result to rank. -/
def driverStep {α : Type} [LinearOrder α] (r : Ranker α) :
    Option (Ranker α × Bool) :=
  match r.remaining with
  | [] => none
  | (_, en) :: _ =>
    match r.competitors.get? r.j, r.competitors.get? en with
    | some a, some b => r.rank (compare a b)
    | _, _ => none

/-- Result of the driver loop: a panic, fuel exhaustion, or the final
competitor order. -/
inductive RankRes (α : Type) where
  | panicked : RankRes α
  | fuelOut : RankRes α
  | finished : List α → RankRes α
  deriving DecidableEq, Repr

/-- The driver loop with explicit fuel, ending when rank returns
false. -/
def runRanker {α : Type} [LinearOrder α] : ℕ → Ranker α → RankRes α
  | 0, _ => RankRes.fuelOut
  | fuel + 1, r =>
    match driverStep r with
    | none => RankRes.panicked
    | some (r2, true) => runRanker fuel r2
    | some (r2, false) => RankRes.finished r2.competitors

/-- C9 counterexample: on the one-element population with needed = 1 —
allowed by the claim's 1 &le; needed &le; size — the very second driver
step reads competitors[1] out of bounds: the run panics instead of
terminating with rank = false, for every fuel. -/
theorem ranker_singleton_panics :
    runRanker (4 ^ [(0 : ℤ)].length + [(0 : ℤ)].length) (Ranker.new [(0 : ℤ)] 1) =
      RankRes.panicked := by
  rfl

theorem set_self {α : Type} :
    ∀ (l : List α) (a : ℕ) (x : α), l.get? a = some x → l.set a x = l := by
  intro l
  induction l with
  | nil =>
    intro a x h
    simp at h
  | cons z t ih =>
    intro a x h
    cases a with
    | zero =>
      simp only [List.get?] at h
      injection h with h
      rw [← h]
      rfl
    | succ n =>
      simp only [List.get?] at h
      simp only [List.set]
      rw [ih n x h]

theorem cons_swap_head_perm {α : Type} :
    ∀ (t : List α) (m : ℕ) (x y : α), t.get? m = some y →
      (y :: t.set m x).Perm (x :: t) := by
  intro t
  induction t with
  | nil =>
    intro m x y h
    simp at h
  | cons w t2 ih =>
    intro m x y h
    cases m with
    | zero =>
      simp only [List.get?] at h
      injection h with h
      simp only [List.set]
      rw [h]
      exact List.Perm.swap x y t2
    | succ n =>
      simp only [List.get?] at h
      simp only [List.set]
      exact ((List.Perm.swap w y _).trans
        ((List.Perm.cons w (ih n x y h)).trans (List.Perm.swap x w t2)))

theorem swap_sets_perm {α : Type} :
    ∀ (l : List α) (a b : ℕ) (x y : α), l.get? a = some x → l.get? b = some y →
      ((l.set a y).set b x).Perm l := by
  intro l
  induction l with
  | nil =>
    intro a b x y h
    simp at h
  | cons z t ih =>
    intro a b x y hx hy
    cases a with
    | zero =>
      simp only [List.get?] at hx
      injection hx with hx
      cases b with
      | zero =>
        simp only [List.get?] at hy
        injection hy with hy
        simp only [List.set]
        rw [← hx]
      | succ m =>
        simp only [List.get?] at hy
        simp only [List.set]
        rw [hx]
        exact cons_swap_head_perm t m x y hy
    | succ n =>
      simp only [List.get?] at hx
      cases b with
      | zero =>
        simp only [List.get?] at hy
        injection hy with hy
        simp only [List.set]
        rw [hy]
        exact cons_swap_head_perm t n y x hx
      | succ m =>
        simp only [List.get?] at hy
        simp only [List.set]
        exact List.Perm.cons z (ih n m x y hx hy)

theorem lswap_spec {α : Type} (l : List α) (a b : ℕ) (ha : a < l.length)
    (hb : b < l.length) :
    ∃ l2, lswap l a b = some l2 ∧ l2.length = l.length ∧
      l2.get? a = l.get? b ∧ l2.get? b = l.get? a ∧
      (∀ p, p ≠ a → p ≠ b → l2.get? p = l.get? p) ∧ l2.Perm l := by
  have hga : l.get? a = some (l.get ⟨a, ha⟩) := List.get?_eq_get ha
  have hgb : l.get? b = some (l.get ⟨b, hb⟩) := List.get?_eq_get hb
  set x := l.get ⟨a, ha⟩
  set y := l.get ⟨b, hb⟩
  have hl : lswap l a b = some ((l.set a y).set b x) := by
    unfold lswap
    rw [hga, hgb]
  refine ⟨(l.set a y).set b x, hl, by simp, ?_, ?_, ?_, swap_sets_perm l a b x y hga hgb⟩
  · by_cases hab : a = b
    · subst hab
      rw [List.get?_set_eq_of_lt _ (by simpa using ha)]
      exact hgb.symm
    · rw [List.get?_set_ne _ _ (Ne.symm hab), List.get?_set_eq_of_lt _ ha]
      exact hgb.symm
  · rw [List.get?_set_eq_of_lt _ (by simpa using hb)]
    exact hga.symm
  · intro p hpa hpb
    rw [List.get?_set_ne _ _ (Ne.symm hpb), List.get?_set_ne _ _ (Ne.symm hpa)]

theorem nodup_get?_ne {α : Type} (l : List α) (hnd : l.Nodup) (p q : ℕ) (hpq : p ≠ q)
    (x y : α) (hx : l.get? p = some x) (hy : l.get? q = some y) : x ≠ y := by
  obtain ⟨hp, hgp⟩ := List.get?_eq_some.mp hx
  obtain ⟨hq, hgq⟩ := List.get?_eq_some.mp hy
  intro hc
  apply hpq
  have hfin : (⟨p, hp⟩ : Fin l.length) = ⟨q, hq⟩ :=
    (List.Nodup.get_inj_iff hnd).mp (by rw [hgp, hgq, hc])
  exact congrArg Fin.val hfin

/-- The cross-segment order invariant: any two positions not covered by
a single pending segment, the left one either wanted (below needed) or
still inside a pending segment, hold strictly descending values. -/
def Crossed {α : Type} [LinearOrder α] (K : ℕ) (segs : List (ℕ × ℕ)) (c : List α) : Prop :=
  ∀ p q : ℕ, p < q → q < c.length →
    (p < K ∨ ∃ seg ∈ segs, seg.1 ≤ p ∧ p ≤ seg.2) →
    (∀ seg ∈ segs, ¬(seg.1 ≤ p ∧ q ≤ seg.2)) →
    ∃ x y, c.get? p = some x ∧ c.get? q = some y ∧ y < x

/-- Well-formed pending stack: segments of length at least two, in
bounds, starting below needed, pairwise disjoint and ordered
right-to-left from the top. -/
def segsWF (K n : ℕ) (segs : List (ℕ × ℕ)) : Prop :=
  (∀ seg ∈ segs, seg.1 < seg.2 ∧ seg.2 < n ∧ seg.1 < K) ∧
  List.Pairwise (fun a b => b.2 < a.1) segs

/-- The full Ranker invariant. -/
def RInv {α : Type} [LinearOrder α] (c0 : List α) (K : ℕ) (r : Ranker α) : Prop :=
  r.needed = K ∧ 1 ≤ K ∧ r.competitors.Perm c0 ∧
  segsWF K c0.length r.remaining ∧
  Crossed K r.remaining r.competitors ∧
  (∀ st en rest, r.remaining = (st, en) :: rest →
    st ≤ r.i ∧ r.i ≤ r.j ∧ r.j < en ∧
    (∀ p, st ≤ p → p < r.i → ∃ x y, r.competitors.get? p = some x ∧
      r.competitors.get? en = some y ∧ y < x) ∧
    (∀ p, r.i ≤ p → p < r.j → ∃ x y, r.competitors.get? p = some x ∧
      r.competitors.get? en = some y ∧ x < y))

/-- Cost of a dormant pending segment. -/
def segCost (seg : ℕ × ℕ) : ℕ := 4 ^ (seg.2 + 1 - seg.1) + (seg.2 - seg.1)

/-- The termination measure of the driver loop. -/
def rmeasure {α : Type} (r : Ranker α) : ℕ :=
  match r.remaining with
  | [] => 0
  | (s, e) :: rest => 4 ^ (e + 1 - s) + (e - r.j) + (rest.map segCost).sum

/-- Swapping two positions inside one pending segment preserves the
cross-segment order invariant. -/
theorem Crossed_swap {α : Type} [LinearOrder α] (K : ℕ) (segs : List (ℕ × ℕ))
    (c c2 : List α) (u v : ℕ) (S : ℕ × ℕ) (hS : S ∈ segs)
    (hu1 : S.1 ≤ u) (hu2 : u ≤ S.2) (hv1 : S.1 ≤ v) (hv2 : v ≤ S.2)
    (hul : u < c.length) (hvl : v < c.length)
    (hlen : c2.length = c.length)
    (hcu : c2.get? u = c.get? v) (hcv : c2.get? v = c.get? u)
    (hother : ∀ p, p ≠ u → p ≠ v → c2.get? p = c.get? p)
    (hord : List.Pairwise (fun a b => b.2 < a.1) segs)
    (hcross : Crossed K segs c) : Crossed K segs c2 := by
  have hsep : ∀ seg ∈ segs, seg ≠ S → seg.2 < S.1 ∨ S.2 < seg.1 := by
    have hp2 : List.Pairwise
        (fun a b : ℕ × ℕ => b.2 < a.1 ∨ a.2 < b.1) segs :=
      hord.imp (fun h => Or.inl h)
    intro seg hseg hne
    exact ((List.Pairwise.forall (fun a b h => h.symm) hp2) hseg hS hne).symm
  intro p q hpq hql hpcond huncov
  rw [hlen] at hql
  by_cases hpu : p = u
  · -- p is the position u
    subst hpu
    by_cases hqv : q = v
    · subst hqv
      exact absurd ⟨hu1, hv2⟩ (huncov S hS)
    · have hqS : S.2 < q := by
        by_contra hc2
        exact huncov S hS ⟨hu1, by omega⟩
      have hqu : q ≠ p := by omega
      obtain ⟨x, y, hx, hy, hlt⟩ := hcross v q (by omega) hql
        (Or.inr ⟨S, hS, hv1, hv2⟩)
        (fun seg hseg => by
          by_cases hne : seg = S
          · subst hne
            intro ⟨h1, h2⟩
            omega
          · rcases hsep seg hseg hne with hL | hR
            · intro ⟨h1, h2⟩
              omega
            · intro ⟨h1, h2⟩
              omega)
      exact ⟨x, y, by rw [hcu]; exact hx, by rw [hother q (by omega) hqv]; exact hy, hlt⟩
  · by_cases hpv : p = v
    · -- p is the position v
      subst hpv
      by_cases hqu : q = u
      · subst hqu
        exact absurd ⟨hv1, hu2⟩ (huncov S hS)
      · have hqS : S.2 < q := by
          by_contra hc2
          exact huncov S hS ⟨hv1, by omega⟩
        have hqp : q ≠ p := by omega
        obtain ⟨x, y, hx, hy, hlt⟩ := hcross u q (by omega) hql
          (Or.inr ⟨S, hS, hu1, hu2⟩)
          (fun seg hseg => by
            by_cases hne : seg = S
            · subst hne
              intro ⟨h1, h2⟩
              omega
            · rcases hsep seg hseg hne with hL | hR
              · intro ⟨h1, h2⟩
                omega
              · intro ⟨h1, h2⟩
                omega)
        exact ⟨x, y, by rw [hcv]; exact hx, by rw [hother q hqu (by omega)]; exact hy, hlt⟩
    · by_cases hqu : q = u
      · -- q is the position u
        subst hqu
        have hpS : p < S.1 := by
          by_contra hc2
          exact huncov S hS ⟨by omega, hu2⟩
        obtain ⟨x, y, hx, hy, hlt⟩ := hcross p v (by omega) (by omega) hpcond
          (fun seg hseg => by
            by_cases hne : seg = S
            · subst hne
              intro ⟨h1, h2⟩
              omega
            · rcases hsep seg hseg hne with hL | hR
              · intro ⟨h1, h2⟩
                omega
              · have := huncov seg hseg
                intro ⟨h1, h2⟩
                exact this ⟨h1, by omega⟩)
        exact ⟨x, y, by rw [hother p hpu hpv]; exact hx, by rw [hcu]; exact hy, hlt⟩
      · by_cases hqv : q = v
        · -- q is the position v
          subst hqv
          have hpS : p < S.1 := by
            by_contra hc2
            exact huncov S hS ⟨by omega, hv2⟩
          obtain ⟨x, y, hx, hy, hlt⟩ := hcross p u (by omega) (by omega) hpcond
            (fun seg hseg => by
              by_cases hne : seg = S
              · subst hne
                intro ⟨h1, h2⟩
                omega
              · rcases hsep seg hseg hne with hL | hR
                · intro ⟨h1, h2⟩
                  omega
                · have := huncov seg hseg
                  intro ⟨h1, h2⟩
                  exact this ⟨h1, by omega⟩)
          exact ⟨x, y, by rw [hother p hpu hpv]; exact hx, by rw [hcv]; exact hy, hlt⟩
        · -- both positions untouched
          obtain ⟨x, y, hx, hy, hlt⟩ := hcross p q hpq hql hpcond huncov
          exact ⟨x, y, by rw [hother p hpu hpv]; exact hx,
            by rw [hother q hqu hqv]; exact hy, hlt⟩

/-- Settling a pivot: after a completed partition of the top segment,
the invariant carries over to the stack holding the two (conditionally
pushed) sub-segments and the dormant rest. -/
theorem Crossed_partition {α : Type} [LinearOrder α] (K : ℕ) (st en i1 : ℕ)
    (rest newsegs : List (ℕ × ℕ)) (c : List α) (b : α)
    (hsten : st < en) (hstK : st < K)
    (hsti : st ≤ i1) (hien : i1 ≤ en) (henl : en < c.length)
    (hord : List.Pairwise (fun a b => b.2 < a.1) ((st, en) :: rest))
    (hcross : Crossed K ((st, en) :: rest) c)
    (hpiv : c.get? i1 = some b)
    (hgt : ∀ p, st ≤ p → p < i1 → ∃ x, c.get? p = some x ∧ b < x)
    (hlt : ∀ q, i1 < q → q ≤ en → ∃ y, c.get? q = some y ∧ y < b)
    (hsub : ∀ seg ∈ newsegs, seg ∈ rest ∨ seg = (st, i1 - 1) ∨ seg = (i1 + 1, en))
    (hleftcov : st + 1 < i1 → (st, i1 - 1) ∈ newsegs)
    (hrightcov : i1 + 1 < en → i1 + 1 < K → (i1 + 1, en) ∈ newsegs)
    (hrest : ∀ seg ∈ rest, seg ∈ newsegs) :
    Crossed K newsegs c := by
  have hrestsep : ∀ seg ∈ rest, seg.2 < st := (List.pairwise_cons.mp hord).1
  intro p q hpq hql hpcond huncov
  by_cases hpin : st ≤ p ∧ q ≤ en
  · -- both inside the old top segment
    obtain ⟨hp1, hq2⟩ := hpin
    rcases Nat.lt_trichotomy q i1 with hqi | hqi | hqi
    · -- both strictly left of the pivot
      exfalso
      by_cases hsize : st + 1 < i1
      · exact huncov (st, i1 - 1) (hleftcov hsize) ⟨hp1, by omega⟩
      · omega
    · -- q is the pivot
      obtain ⟨x, hx, hbx⟩ := hgt p hp1 (by omega)
      exact ⟨x, b, hx, by rw [← hqi] at hpiv; exact hpiv, hbx⟩
    · rcases Nat.lt_trichotomy p i1 with hpi | hpi | hpi
      · -- p left of the pivot, q right of it
        obtain ⟨x, hx, hbx⟩ := hgt p hp1 hpi
        obtain ⟨y, hy, hyb⟩ := hlt q hqi hq2
        exact ⟨x, y, hx, hy, lt_trans hyb hbx⟩
      · -- p is the pivot
        obtain ⟨y, hy, hyb⟩ := hlt q hqi hq2
        exact ⟨b, y, by rw [← hpi] at hpiv; exact hpiv, hy, hyb⟩
      · -- both strictly right of the pivot
        exfalso
        by_cases hsize : i1 + 1 < en
        · by_cases hKr : i1 + 1 < K
          · exact huncov (i1 + 1, en) (hrightcov hsize hKr) ⟨by omega, hq2⟩
          · -- beyond needed: the p-condition cannot hold
            rcases hpcond with hpK | ⟨seg, hseg, hs1, hs2⟩
            · omega
            · rcases hsub seg hseg with hm | hm | hm
              · have := hrestsep seg hm
                omega
              · rw [hm] at hs1 hs2
                simp only at hs1 hs2
                omega
              · rw [hm] at hs1 hs2
                simp only at hs1 hs2
                exact huncov (i1 + 1, en) (by rw [← hm]; exact hseg) ⟨hs1, hq2⟩
        · omega
  · -- at least one position outside the old top segment
    have htrans : ∃ x y, c.get? p = some x ∧ c.get? q = some y ∧ y < x := by
      refine hcross p q hpq hql ?_ ?_
      · rcases hpcond with hpK | ⟨seg, hseg, hs1, hs2⟩
        · exact Or.inl hpK
        · rcases hsub seg hseg with hm | hm | hm
          · exact Or.inr ⟨seg, by simp [hm], hs1, hs2⟩
          · rw [hm] at hs1 hs2
            simp only at hs1 hs2
            exact Or.inr ⟨(st, en), by simp, by omega, by omega⟩
          · rw [hm] at hs1 hs2
            simp only at hs1 hs2
            exact Or.inr ⟨(st, en), by simp, by omega, by omega⟩
      · intro seg hseg
        rcases List.mem_cons.mp hseg with rfl | hm
        · simp only
          intro hcontra
          exact hpin hcontra
        · exact huncov seg (hrest seg hm)
    exact htrans

/-- The in-partition move of Ranker::rank: the conditional swap and
advance of i preserve all partition facts, with j about to advance. -/
theorem ranker_first_phase {α : Type} [LinearOrder α] (r : Ranker α) (st en : ℕ)
    (rest : List (ℕ × ℕ)) (a b : α) (K : ℕ)
    (hga : r.competitors.get? r.j = some a)
    (hgb : r.competitors.get? en = some b)
    (hab : a ≠ b)
    (hsi : st ≤ r.i) (hij : r.i ≤ r.j) (hjlt : r.j < en)
    (hen : en < r.competitors.length)
    (hleft : ∀ p, st ≤ p → p < r.i → ∃ x y, r.competitors.get? p = some x ∧
      r.competitors.get? en = some y ∧ y < x)
    (hmid : ∀ p, r.i ≤ p → p < r.j → ∃ x y, r.competitors.get? p = some x ∧
      r.competitors.get? en = some y ∧ x < y)
    (hord : List.Pairwise (fun a b => b.2 < a.1) ((st, en) :: rest))
    (hcross : Crossed K ((st, en) :: rest) r.competitors) :
    ∃ comp1 i1,
      (if compare a b = Ordering.gt
        then Option.map (fun c => (c, r.i + 1)) (lswap r.competitors r.i r.j)
        else some (r.competitors, r.i)) = some (comp1, i1) ∧
      comp1.length = r.competitors.length ∧
      comp1.Perm r.competitors ∧
      Crossed K ((st, en) :: rest) comp1 ∧
      st ≤ i1 ∧ i1 ≤ r.j + 1 ∧
      comp1.get? en = some b ∧
      (∀ p, st ≤ p → p < i1 → ∃ x y, comp1.get? p = some x ∧
        comp1.get? en = some y ∧ y < x) ∧
      (∀ p, i1 ≤ p → p < r.j + 1 → ∃ x y, comp1.get? p = some x ∧
        comp1.get? en = some y ∧ x < y) := by
  by_cases hgt : compare a b = Ordering.gt
  · have hba : b < a := compare_gt_iff_gt.mp hgt
    obtain ⟨comp1, hsw, hlen1, hcu, hcv, hoth, hperm1⟩ :=
      lswap_spec r.competitors r.i r.j (by omega) (by omega)
    have hen1 : comp1.get? en = some b := by
      rw [hoth en (by omega) (by omega)]
      exact hgb
    refine ⟨comp1, r.i + 1, ?_, hlen1, hperm1, ?_, by omega, by omega, hen1, ?_, ?_⟩
    · rw [if_pos hgt, hsw]
      rfl
    · exact Crossed_swap K ((st, en) :: rest) r.competitors comp1 r.i r.j (st, en)
        (by simp) hsi (by omega) (by omega) (by omega) (by omega) (by omega)
        hlen1 hcu hcv hoth hord hcross
    · intro p hp1 hp2
      by_cases hpi : p = r.i
      · subst hpi
        refine ⟨a, b, ?_, hen1, hba⟩
        rw [hcu]
        exact hga
      · obtain ⟨x, y, hx, hy, hyx⟩ := hleft p hp1 (by omega)
        rw [hgb] at hy
        injection hy with hy
        refine ⟨x, b, ?_, hen1, ?_⟩
        · rw [hoth p hpi (by omega)]
          exact hx
        · rw [hy]
          exact hyx
    · intro p hp1 hp2
      by_cases hpj : p = r.j
      · subst hpj
        by_cases hii : r.i = r.j
        · omega
        · obtain ⟨x, y, hx, hy, hxy⟩ := hmid r.i (by omega) (by omega)
          rw [hgb] at hy
          injection hy with hy
          refine ⟨x, b, ?_, hen1, ?_⟩
          · rw [hcv]
            exact hx
          · rw [hy]
            exact hxy
      · obtain ⟨x, y, hx, hy, hxy⟩ := hmid p (by omega) (by omega)
        rw [hgb] at hy
        injection hy with hy
        refine ⟨x, b, ?_, hen1, ?_⟩
        · rw [hoth p (by omega) hpj]
          exact hx
        · rw [hy]
          exact hxy
  · have hale : a < b := by
      have h1 : ¬ b < a := fun hlt => hgt (compare_gt_iff_gt.mpr hlt)
      exact lt_of_le_of_ne (le_of_not_lt h1) hab
    refine ⟨r.competitors, r.i, by rw [if_neg hgt], rfl, List.Perm.refl _, hcross,
      hsi, by omega, hgb, hleft, ?_⟩
    intro p hp1 hp2
    by_cases hpj : p = r.j
    · subst hpj
      exact ⟨a, b, hga, hgb, hale⟩
    · exact hmid p hp1 (by omega)

/-- One driver step from an invariant state: it never panics, and it
either keeps the invariant while strictly decreasing the measure, or
stops with the stack empty and the order fully established. -/
theorem ranker_step {α : Type} [LinearOrder α] (c0 : List α) (K : ℕ) (hnd : c0.Nodup)
    (r : Ranker α) (hinv : RInv c0 K r) (hne : r.remaining ≠ []) :
    ∃ r2 cont, driverStep r = some (r2, cont) ∧
      ((cont = true ∧ RInv c0 K r2 ∧ r2.remaining ≠ [] ∧ rmeasure r2 < rmeasure r) ∨
       (cont = false ∧ r2.competitors.Perm c0 ∧ Crossed K [] r2.competitors)) := by
  obtain ⟨hneed, hK, hperm, ⟨hsegs, hpair⟩, hcross, htop⟩ := hinv
  cases hrem : r.remaining with
  | nil => exact absurd hrem hne
  | cons seg rest =>
  obtain ⟨st, en⟩ := seg
  rw [hrem] at hsegs hpair hcross
  obtain ⟨hsi, hij, hjlt, hleft, hmid⟩ := htop st en rest hrem
  obtain ⟨hsten, henn, hstK⟩ := hsegs (st, en) (by simp)
  have hlen : r.competitors.length = c0.length := hperm.length_eq
  have hcnd : r.competitors.Nodup := hperm.nodup_iff.mpr hnd
  have hjl : r.j < r.competitors.length := by omega
  have henl : en < r.competitors.length := by omega
  have hga : r.competitors.get? r.j = some (r.competitors.get ⟨r.j, hjl⟩) :=
    List.get?_eq_get hjl
  have hgb : r.competitors.get? en = some (r.competitors.get ⟨en, henl⟩) :=
    List.get?_eq_get henl
  set a := r.competitors.get ⟨r.j, hjl⟩
  set b := r.competitors.get ⟨en, henl⟩
  have hab : a ≠ b := nodup_get?_ne _ hcnd r.j en (by omega) a b hga hgb
  obtain ⟨comp1, i1, hfirst, h1len, h1perm, h1cross, h1si, h1ij, h1pivot, h1left, h1mid⟩ :=
    ranker_first_phase r st en rest a b K hga hgb hab hsi hij hjlt henl hleft hmid
      hpair hcross
  have hds : driverStep r = r.rank (compare a b) := by
    unfold driverStep
    rw [hrem]
    simp only
    rw [hga, hgb]
  by_cases hje : r.j + 1 = en
  · -- the partition completes: settle the pivot and split the segment
    have h1i_en : i1 ≤ en := by omega
    have hi1len : i1 < comp1.length := by
      rw [h1len]
      omega
    have henlen1 : en < comp1.length := by
      rw [h1len]
      omega
    obtain ⟨comp2, hsw2, hlen2, hc2u, hc2v, hoth2, hperm2⟩ :=
      lswap_spec comp1 i1 en hi1len henlen1
    have h2perm : comp2.Perm c0 := (hperm2.trans h1perm).trans hperm
    have hpiv2 : comp2.get? i1 = some b := by
      rw [hc2u]
      exact h1pivot
    have hgt2 : ∀ p, st ≤ p → p < i1 → ∃ x, comp2.get? p = some x ∧ b < x := by
      intro p hp1 hp2
      obtain ⟨x, y, hx, hy, hyx⟩ := h1left p hp1 hp2
      rw [h1pivot] at hy
      injection hy with hy
      refine ⟨x, ?_, by rw [hy]; exact hyx⟩
      rw [hoth2 p (by omega) (by omega)]
      exact hx
    have hlt2 : ∀ q, i1 < q → q ≤ en → ∃ y, comp2.get? q = some y ∧ y < b := by
      intro q hq1 hq2
      by_cases hqen : q = en
      · subst hqen
        obtain ⟨x, y, hx, hy, hxy⟩ := h1mid i1 (le_refl _) (by omega)
        rw [h1pivot] at hy
        injection hy with hy
        refine ⟨x, ?_, by rw [hy]; exact hxy⟩
        rw [hc2v]
        exact hx
      · obtain ⟨x, y, hx, hy, hxy⟩ := h1mid q (by omega) (by omega)
        rw [h1pivot] at hy
        injection hy with hy
        refine ⟨x, ?_, by rw [hy]; exact hxy⟩
        rw [hoth2 q (by omega) hqen]
        exact hx
    have h2cross : Crossed K ((st, en) :: rest) comp2 :=
      Crossed_swap K ((st, en) :: rest) comp1 comp2 i1 en (st, en) (by simp)
        h1si h1i_en (by omega) (le_refl en) hi1len henlen1 hlen2 hc2u hc2v hoth2
        hpair h1cross
    obtain ⟨L0, hL0⟩ : ∃ L0, L0 =
        (if st + 1 < i1 ∧ st ≤ r.needed - 1 then (st, i1 - 1) :: rest else rest) :=
      ⟨_, rfl⟩
    obtain ⟨NS, hNS⟩ : ∃ NS, NS =
        (if i1 + 1 < en ∧ i1 + 1 ≤ r.needed - 1 then (i1 + 1, en) :: L0 else L0) :=
      ⟨_, rfl⟩
    have hmemN : ∀ seg, seg ∈ NS ↔ (seg ∈ rest ∨
        (seg = (st, i1 - 1) ∧ st + 1 < i1) ∨
        (seg = (i1 + 1, en) ∧ i1 + 1 < en ∧ i1 + 1 < K)) := by
      intro seg
      rw [hNS, hL0]
      by_cases hRc : i1 + 1 < en ∧ i1 + 1 ≤ r.needed - 1
      · rw [if_pos hRc]
        have hRc2 : i1 + 1 < K := by
          rw [hneed] at hRc
          omega
        by_cases hLc : st + 1 < i1 ∧ st ≤ r.needed - 1
        · rw [if_pos hLc]
          simp only [List.mem_cons]
          constructor
          · rintro (rfl | rfl | hm)
            · exact Or.inr (Or.inr ⟨rfl, hRc.1, hRc2⟩)
            · exact Or.inr (Or.inl ⟨rfl, hLc.1⟩)
            · exact Or.inl hm
          · rintro (hm | ⟨rfl, _⟩ | ⟨rfl, _, _⟩)
            · exact Or.inr (Or.inr hm)
            · exact Or.inr (Or.inl rfl)
            · exact Or.inl rfl
        · rw [if_neg hLc]
          have hLc2 : ¬ st + 1 < i1 := by
            intro hc
            exact hLc ⟨hc, by rw [hneed]; omega⟩
          simp only [List.mem_cons]
          constructor
          · rintro (rfl | hm)
            · exact Or.inr (Or.inr ⟨rfl, hRc.1, hRc2⟩)
            · exact Or.inl hm
          · rintro (hm | ⟨rfl, hx⟩ | ⟨rfl, _, _⟩)
            · exact Or.inr hm
            · exact absurd hx hLc2
            · exact Or.inl rfl
      · rw [if_neg hRc]
        have hRc2 : ¬ (i1 + 1 < en ∧ i1 + 1 < K) := by
          intro ⟨hc1, hc2⟩
          exact hRc ⟨hc1, by rw [hneed]; omega⟩
        by_cases hLc : st + 1 < i1 ∧ st ≤ r.needed - 1
        · rw [if_pos hLc]
          simp only [List.mem_cons]
          constructor
          · rintro (rfl | hm)
            · exact Or.inr (Or.inl ⟨rfl, hLc.1⟩)
            · exact Or.inl hm
          · rintro (hm | ⟨rfl, _⟩ | ⟨rfl, hx1, hx2⟩)
            · exact Or.inr hm
            · exact Or.inl rfl
            · exact absurd ⟨hx1, hx2⟩ hRc2
        · rw [if_neg hLc]
          have hLc2 : ¬ st + 1 < i1 := by
            intro hc
            exact hLc ⟨hc, by rw [hneed]; omega⟩
          constructor
          · intro hm
            exact Or.inl hm
          · rintro (hm | ⟨rfl, hx⟩ | ⟨rfl, hx1, hx2⟩)
            · exact hm
            · exact absurd hx hLc2
            · exact absurd ⟨hx1, hx2⟩ hRc2
    have hrestsep : ∀ seg ∈ rest, seg.2 < st := (List.pairwise_cons.mp hpair).1
    have hrestpw : List.Pairwise (fun a b : ℕ × ℕ => b.2 < a.1) rest :=
      (List.pairwise_cons.mp hpair).2
    have hNSwf : ∀ seg ∈ NS, seg.1 < seg.2 ∧ seg.2 < c0.length ∧ seg.1 < K := by
      intro seg hseg
      rcases (hmemN seg).mp hseg with hm | ⟨rfl, hc⟩ | ⟨rfl, hc1, hc2⟩
      · exact hsegs seg (by simp [hm])
      · exact ⟨by omega, by omega, by omega⟩
      · exact ⟨by omega, by omega, by omega⟩
    have hNSpw : List.Pairwise (fun a b : ℕ × ℕ => b.2 < a.1) NS := by
      rw [hNS, hL0]
      have hpwL : List.Pairwise (fun a b : ℕ × ℕ => b.2 < a.1) ((st, i1 - 1) :: rest) :=
        List.pairwise_cons.mpr ⟨fun seg hseg => hrestsep seg hseg, hrestpw⟩
      by_cases hRc : i1 + 1 < en ∧ i1 + 1 ≤ r.needed - 1
      · rw [if_pos hRc]
        by_cases hLc : st + 1 < i1 ∧ st ≤ r.needed - 1
        · rw [if_pos hLc]
          refine List.pairwise_cons.mpr ⟨?_, hpwL⟩
          intro seg hseg
          rcases List.mem_cons.mp hseg with rfl | hm
          · show (st, i1 - 1).2 < i1 + 1
            simp only
            omega
          · have := hrestsep seg hm
            show seg.2 < i1 + 1
            omega
        · rw [if_neg hLc]
          refine List.pairwise_cons.mpr ⟨?_, hrestpw⟩
          intro seg hm
          have := hrestsep seg hm
          show seg.2 < i1 + 1
          omega
      · rw [if_neg hRc]
        by_cases hLc : st + 1 < i1 ∧ st ≤ r.needed - 1
        · rw [if_pos hLc]
          exact hpwL
        · rw [if_neg hLc]
          exact hrestpw
    have hNScross : Crossed K NS comp2 :=
      Crossed_partition K st en i1 rest NS comp2 b hsten hstK h1si h1i_en
        (by rw [hlen2, h1len]; omega) hpair h2cross hpiv2 hgt2 hlt2
        (fun seg hseg => by
          rcases (hmemN seg).mp hseg with hm | ⟨rfl, _⟩ | ⟨rfl, _, _⟩
          · exact Or.inl hm
          · exact Or.inr (Or.inl rfl)
          · exact Or.inr (Or.inr rfl))
        (fun hsz => (hmemN _).mpr (Or.inr (Or.inl ⟨rfl, hsz⟩)))
        (fun hsz hKr => (hmemN _).mpr (Or.inr (Or.inr ⟨rfl, hsz, hKr⟩)))
        (fun seg hm => (hmemN seg).mpr (Or.inl hm))
    have hpow : ∀ m n : ℕ, m ≤ n → (4:ℕ) ^ m ≤ 4 ^ n :=
      fun m n h => Nat.pow_le_pow_right (by norm_num) h
    have hge4 : ∀ m : ℕ, m < 4 ^ m := fun m => Nat.lt_pow_self (by norm_num) m
    have hcost : (NS.map segCost).sum <
        4 ^ (en + 1 - st) + 1 + (rest.map segCost).sum := by
      rw [hNS, hL0]
      by_cases hRc : i1 + 1 < en ∧ i1 + 1 ≤ r.needed - 1
      · rw [if_pos hRc]
        by_cases hLc : st + 1 < i1 ∧ st ≤ r.needed - 1
        · rw [if_pos hLc]
          simp only [List.map_cons, List.sum_cons]
          unfold segCost
          simp only
          have he1 : en + 1 - (i1 + 1) = en - i1 := by omega
          have he2 : i1 - 1 + 1 - st = i1 - st := by omega
          rw [he1, he2]
          have hb1 : (4:ℕ) ^ (en - i1) ≤ 4 ^ (en - st - 2) := hpow _ _ (by omega)
          have hb2 : (4:ℕ) ^ (i1 - st) ≤ 4 ^ (en - st - 2) := hpow _ _ (by omega)
          have hexp : (4:ℕ) ^ (en + 1 - st) = 4 ^ (en - st - 2) * 64 := by
            rw [show en + 1 - st = (en - st - 2) + 3 by omega, pow_add]
            norm_num
          have hgeA := hge4 (en - st - 2)
          omega
        · rw [if_neg hLc]
          simp only [List.map_cons, List.sum_cons]
          unfold segCost
          simp only
          have he1 : en + 1 - (i1 + 1) = en - i1 := by omega
          rw [he1]
          have hb1 : (4:ℕ) ^ (en - i1) ≤ 4 ^ (en - st) := hpow _ _ (by omega)
          have hexp : (4:ℕ) ^ (en + 1 - st) = 4 ^ (en - st) * 4 := by
            rw [show en + 1 - st = (en - st) + 1 by omega, pow_add]
            norm_num
          have hgeA := hge4 (en - st)
          omega
      · rw [if_neg hRc]
        by_cases hLc : st + 1 < i1 ∧ st ≤ r.needed - 1
        · rw [if_pos hLc]
          simp only [List.map_cons, List.sum_cons]
          unfold segCost
          simp only
          have he2 : i1 - 1 + 1 - st = i1 - st := by omega
          rw [he2]
          have hb1 : (4:ℕ) ^ (i1 - st) ≤ 4 ^ (en - st) := hpow _ _ (by omega)
          have hexp : (4:ℕ) ^ (en + 1 - st) = 4 ^ (en - st) * 4 := by
            rw [show en + 1 - st = (en - st) + 1 by omega, pow_add]
            norm_num
          have hgeA := hge4 (en - st)
          omega
        · rw [if_neg hLc]
          have h0 : (0:ℕ) < 4 ^ (en + 1 - st) + 1 := by positivity
          omega
    have hranknil : NS = [] →
        r.rank (compare a b) = some (⟨i1, r.j + 1, [], comp2, r.needed⟩, false) := by
      intro hc
      unfold Ranker.rank
      rw [hfirst]
      simp only
      rw [hrem]
      simp only
      rw [if_pos hje, hsw2]
      simp only
      rw [← hL0, ← hNS, hc]
    have hrankcons : ∀ s2 e2 rest2, NS = (s2, e2) :: rest2 →
        r.rank (compare a b) =
          some (⟨s2, s2, (s2, e2) :: rest2, comp2, r.needed⟩, true) := by
      intro s2 e2 rest2 hc
      unfold Ranker.rank
      rw [hfirst]
      simp only
      rw [hrem]
      simp only
      rw [if_pos hje, hsw2]
      simp only
      rw [← hL0, ← hNS, hc]
    cases hNSc : NS with
    | nil =>
      refine ⟨⟨i1, r.j + 1, [], comp2, r.needed⟩, false, ?_, Or.inr ⟨rfl, h2perm, ?_⟩⟩
      · rw [hds]
        exact hranknil hNSc
      · rw [hNSc] at hNScross
        exact hNScross
    | cons seg2 rest2 =>
      obtain ⟨s2, e2⟩ := seg2
      have hm2 : (s2, e2) ∈ NS := by
        rw [hNSc]
        simp
      obtain ⟨hs2e2, he2n, hs2K⟩ := hNSwf (s2, e2) hm2
      refine ⟨⟨s2, s2, (s2, e2) :: rest2, comp2, r.needed⟩, true, ?_,
        Or.inl ⟨rfl, ?_, by simp, ?_⟩⟩
      · rw [hds]
        exact hrankcons s2 e2 rest2 hNSc
      · refine ⟨hneed, hK, h2perm, ⟨?_, ?_⟩, ?_, ?_⟩
        · intro seg hseg
          refine hNSwf seg ?_
          rw [hNSc]
          exact hseg
        · rw [hNSc] at hNSpw
          exact hNSpw
        · rw [hNSc] at hNScross
          exact hNScross
        · intro st' en' rest' heq
          simp only [List.cons.injEq, Prod.mk.injEq] at heq
          obtain ⟨⟨h1, h2⟩, h3⟩ := heq
          refine ⟨?_, le_refl _, ?_, ?_, ?_⟩
          · show st' ≤ s2
            omega
          · show s2 < en'
            omega
          · intro p hp1 hp2
            have hp2b : p < s2 := hp2
            have hp1b : st' ≤ p := hp1
            omega
          · intro p hp1 hp2
            have hp1b : s2 ≤ p := hp1
            have hp2b : p < s2 := hp2
            omega
      · unfold rmeasure
        rw [hrem]
        simp only
        have hNSsum : (NS.map segCost).sum =
            4 ^ (e2 + 1 - s2) + (e2 - s2) + (rest2.map segCost).sum := by
          rw [hNSc]
          simp only [List.map_cons, List.sum_cons]
          unfold segCost
          simp only
        omega
  · -- the partition continues: j advances
    refine ⟨⟨i1, r.j + 1, (st, en) :: rest, comp1, r.needed⟩, true, ?_,
      Or.inl ⟨rfl, ?_, by simp, ?_⟩⟩
    · rw [hds]
      unfold Ranker.rank
      rw [hfirst]
      simp only
      rw [hrem]
      simp only
      rw [if_neg hje]
    · refine ⟨hneed, hK, h1perm.trans hperm, ⟨hsegs, hpair⟩, h1cross, ?_⟩
      intro st' en' rest' heq
      simp only [List.cons.injEq, Prod.mk.injEq] at heq
      obtain ⟨⟨h1, h2⟩, h3⟩ := heq
      subst h1
      subst h2
      subst h3
      refine ⟨h1si, h1ij, ?_, h1left, h1mid⟩
      show r.j + 1 < en
      omega
    · unfold rmeasure
      rw [hrem]
      simp only
      omega

/-- With fuel exceeding the measure, a ranker state satisfying the
invariant with a nonempty pending stack runs to a finished result: a
permutation of the population in which the crossing order holds with
no pending segment left. -/
theorem runRanker_finishes {α : Type} [LinearOrder α] (c0 : List α) (K : ℕ)
    (hnd : c0.Nodup) :
    ∀ fuel (r : Ranker α), RInv c0 K r → r.remaining ≠ [] → rmeasure r < fuel →
      ∃ out, runRanker fuel r = RankRes.finished out ∧ out.Perm c0 ∧
        Crossed K [] out := by
  intro fuel
  induction fuel with
  | zero =>
    intro r _ _ hm
    exact absurd hm (by omega)
  | succ n ih =>
    intro r hinv hne hm
    obtain ⟨r2, cont, hds, hcase⟩ := ranker_step c0 K hnd r hinv hne
    rcases hcase with ⟨hct, hinv2, hne2, hlt⟩ | ⟨hcf, hperm2, hcr2⟩
    · subst hct
      have hrun : runRanker (n + 1) r = runRanker n r2 := by
        conv_lhs => unfold runRanker
        rw [hds]
      rw [hrun]
      exact ih r2 hinv2 hne2 (by omega)
    · subst hcf
      have hrun : runRanker (n + 1) r = RankRes.finished r2.competitors := by
        unfold runRanker
        rw [hds]
      exact ⟨r2.competitors, hrun, hperm2, hcr2⟩

/-- C9 (corrected): the claim fails at population size one (see the
counterexample), but for every duplicate-free population of size at
least two and every needed with 1 ≤ needed ≤ size, driving
Ranker::rank one comparison at a time terminates with rank returning
false, and the surviving competitor list is a permutation of the
population (the reordering is in place) whose first needed entries
are the needed greatest elements in strictly descending order: every
entry below index needed strictly dominates every entry after it. -/
theorem ranker_rank_correct {α : Type} [LinearOrder α] (c0 : List α) (K : ℕ)
    (hnd : c0.Nodup) (hK1 : 1 ≤ K) (hKle : K ≤ c0.length) (hsz : 2 ≤ c0.length) :
    ∃ out, runRanker (4 ^ c0.length + c0.length) (Ranker.new c0 K) =
        RankRes.finished out ∧ out.Perm c0 ∧
      ∀ p q, p < q → q < out.length → p < K →
        ∃ x y, out.get? p = some x ∧ out.get? q = some y ∧ y < x := by
  have hne : (Ranker.new c0 K).remaining ≠ [] := by
    simp [Ranker.new]
  have hinv : RInv c0 K (Ranker.new c0 K) := by
    refine ⟨rfl, hK1, List.Perm.refl _, ⟨?_, ?_⟩, ?_, ?_⟩
    · intro seg hseg
      have hseg2 : seg ∈ [(0, c0.length - 1)] := hseg
      rw [List.mem_singleton] at hseg2
      subst hseg2
      refine ⟨?_, ?_, ?_⟩
      · show 0 < c0.length - 1
        omega
      · show c0.length - 1 < c0.length
        omega
      · show 0 < K
        omega
    · show List.Pairwise _ [(0, c0.length - 1)]
      simp
    · intro p q hpq hql hcond h4
      exfalso
      have hql2 : q < c0.length := hql
      refine h4 (0, c0.length - 1) ?_ ⟨Nat.zero_le p, ?_⟩
      · show (0, c0.length - 1) ∈ [(0, c0.length - 1)]
        simp
      · show q ≤ c0.length - 1
        omega
    · intro st en rest heq
      have heq2 : [(0, c0.length - 1)] = (st, en) :: rest := heq
      simp only [List.cons.injEq, Prod.mk.injEq] at heq2
      obtain ⟨⟨h1, h2⟩, h3⟩ := heq2
      refine ⟨?_, ?_, ?_, ?_, ?_⟩
      · show st ≤ 0
        omega
      · show (0 : ℕ) ≤ 0
        omega
      · show 0 < en
        omega
      · intro p hp1 hp2
        have hp2b : p < 0 := hp2
        omega
      · intro p hp1 hp2
        have hp1b : (0 : ℕ) ≤ p := hp1
        have hp2b : p < 0 := hp2
        omega
  have hm : rmeasure (Ranker.new c0 K) < 4 ^ c0.length + c0.length := by
    unfold rmeasure Ranker.new
    simp only [List.map_nil, List.sum_nil]
    have he : c0.length - 1 + 1 - 0 = c0.length := by omega
    rw [he]
    omega
  obtain ⟨out, hrun, houtperm, hcr⟩ :=
    runRanker_finishes c0 K hnd (4 ^ c0.length + c0.length) (Ranker.new c0 K)
      hinv hne hm
  refine ⟨out, hrun, houtperm, ?_⟩
  intro p q hpq hql hpK
  exact hcr p q hpq hql (Or.inl hpK)
    (fun seg hseg => absurd hseg (List.not_mem_nil seg))

/-! ## Concrete inputs used by the witness theorems -/

/-- A neutral config: every polynomial empty, every scalar zero. -/
def configZero : Config :=
  { air := ⟨⟨[]⟩, ⟨[]⟩, ⟨[]⟩⟩
    soil := ⟨⟨[]⟩, ⟨[]⟩, ⟨[]⟩⟩
    water := ⟨⟨[]⟩, ⟨[]⟩, ⟨[]⟩⟩
    air_to_water_saturation_threshold := 0
    water_to_air_saturation_threshold := 0
    saturation_diffusion_rate := 0
    neighbor_attraction_weights := fun _ => 0
    neighbor_density_weights := fun _ => 0
    attraction_score_weight := 0
    density_score_weight := 0 }

/-- A one-cell grid holding a half-saturated Air tile. -/
def gridOne : Grid Tile := ⟨1, 1, [⟨.Air, 1/2⟩]⟩

/-- Witness for C5 at a concrete one-cell grid. -/
theorem update_saturations_range_witness :
    ∃ g2, update_saturations gridOne configZero = some g2 ∧
      g2.width = gridOne.width ∧ g2.height = gridOne.height ∧
      (∀ t ∈ g2.cells, 0 ≤ t.saturation ∧ t.saturation ≤ 1) ∧
      (∀ x y : ℕ, x < gridOne.width → y < gridOne.height →
        ∀ t, gridOne.get (x : ℤ) (y : ℤ) = some t →
        ∃ d, saturationDelta gridOne configZero.saturation_diffusion_rate
            (x : ℤ) (y : ℤ) = some d ∧
          g2.get (x : ℤ) (y : ℤ) = some ⟨t.element, clampQ (t.saturation + d) 0 1⟩) :=
  update_saturations_range gridOne configZero (by unfold Grid.wf gridOne; rfl)
    (by intro t ht; simp only [gridOne, List.mem_singleton] at ht; rw [ht]; constructor <;> norm_num)

/-- Witness for C6 amended at a concrete config with ordered thresholds. -/
theorem updateElement_idempotent_witness :
    updateElement configZero (updateElement configZero ⟨.Air, 9/10⟩) =
      updateElement configZero ⟨.Air, 9/10⟩ ∧
    updateElement configZero ⟨.Soil, 1/3⟩ = ⟨.Soil, 1/3⟩ :=
  updateElement_idempotent configZero ⟨.Air, 9/10⟩ (1/3) (by norm_num [configZero])

/-- Witness for C3 at a concrete one-cell grid and the pair p = q =
(0, 0). -/
theorem scorer_get_mirror_witness :
    ((PairwiseTileScorer.new gridOne configZero).get (0, 0) (0, 0)).1 =
      ((PairwiseTileScorer.new gridOne configZero).get (0, 0) (0, 0)).1 ∧
    ((PairwiseTileScorer.new gridOne configZero).get (0, 0) (0, 0)).2 =
      -(((PairwiseTileScorer.new gridOne configZero).get (0, 0) (0, 0)).2) :=
  scorer_get_mirror gridOne configZero (0, 0) (0, 0)
    (by refine ⟨by norm_num, ?_, by norm_num, ?_⟩ <;> norm_num [gridOne])
    (by refine ⟨by norm_num, ?_, by norm_num, ?_⟩ <;> norm_num [gridOne])
    (by norm_num)

/-- A scorer with an empty cache: every lookup yields (0, 0). -/
def scorerZero : PairwiseTileScorer := ⟨3, fun _ => (0, 0)⟩

/-- A 2 by 1 preference grid in which both cells prefer (0, 0) first:
the loop must resolve one genuine conflict before it finishes. -/
def pmTwo : Grid PotentialMoves :=
  ⟨2, 1, [⟨[(0, 0)], 0⟩, ⟨[(0, 0), (1, 0)], 0⟩]⟩

/-- Witness for C2 at a concrete two-cell grid with a real conflict. -/
theorem conflict_loop_terminates_witness :
    (∀ conf2 pm2, oneIteration scorerZero configZero pmTwo = some (conf2, pm2, true) →
      pmMeasure pm2 < pmMeasure pmTwo) ∧
    runLoop scorerZero configZero (pmTwo.cells.length * 2 + 1) pmTwo ≠ LoopRes.fuelOut :=
  conflict_loop_terminates scorerZero configZero pmTwo 2 (by decide)

/-- A one-cell preference grid whose only cell prefers staying put. -/
def pmOne : Grid PotentialMoves := ⟨1, 1, [⟨[(0, 0)], 0⟩]⟩

/-- Witness for C1 at a concrete conflict-free one-cell grid. -/
theorem reduce_potential_moves_bijection_witness :
    (⟨1, 1, [((0 : ℤ), (0 : ℤ))]⟩ : Grid (ℤ × ℤ)).width = pmOne.width ∧
    (⟨1, 1, [((0 : ℤ), (0 : ℤ))]⟩ : Grid (ℤ × ℤ)).height = pmOne.height ∧
    (⟨1, 1, [((0 : ℤ), (0 : ℤ))]⟩ : Grid (ℤ × ℤ)).wf ∧
    (⟨1, 1, [((0 : ℤ), (0 : ℤ))]⟩ : Grid (ℤ × ℤ)).cells.Perm
      (pmOne.coords.map fun c => ((c.1 : ℤ), (c.2 : ℤ))) :=
  reduce_potential_moves_bijection scorerZero configZero pmOne
    ⟨1, 1, [((0 : ℤ), (0 : ℤ))]⟩ (by decide)

/-- Witness for C10 at the concrete two-cell grid. -/
theorem push_move_never_overflows_witness :
    (∀ d : ℤ × ℤ, (proposersOf pmTwo d).length ≤ 9) ∧
    ∃ res, buildConflicts pmTwo = some res :=
  push_move_never_overflows pmTwo (by unfold Grid.wf pmTwo; rfl)
    (by unfold prefsLocal; decide) (by unfold prefsInBounds; decide)
    pmTwo (prefsEq_refl pmTwo)

/-- Witness for C9 at the two-element population [1, 2] with needed
equal to one. -/
theorem ranker_rank_correct_witness :
    (([(1 : ℤ), 2].Nodup ∧ 1 ≤ 1 ∧ 1 ≤ [(1 : ℤ), 2].length ∧
        2 ≤ [(1 : ℤ), 2].length) ∧
      ∃ out, runRanker (4 ^ [(1 : ℤ), 2].length + [(1 : ℤ), 2].length)
          (Ranker.new [(1 : ℤ), 2] 1) = RankRes.finished out ∧
        out.Perm [(1 : ℤ), 2] ∧
        ∀ p q, p < q → q < out.length → p < 1 →
          ∃ x y, out.get? p = some x ∧ out.get? q = some y ∧ y < x) :=
  ⟨⟨by decide, by decide, by decide, by decide⟩,
    ranker_rank_correct [(1 : ℤ), 2] 1 (by decide) (by decide) (by decide)
      (by decide)⟩

end Flatland
